import Mathlib

/-!
Lotus tuner: the pitch-detection core of `main.go`

A shallow embedding of `FFT`, `CalculateDominantFrequencyBin` and
`HandleFrequency`.

* Go slices are lists; every indexed read and write is checked and yields
  `Fault.indexOutOfRange` where Go would panic.
* The functions are generic in the scalar types.  `FFT`, `HandleFrequency` and
  `CalculateDominantFrequencyBin` carry out the arithmetic exactly; the
  statements about them instantiate the scalars with `ℝ` and `ℂ`.  The two
  transcendental library calls, `cmplx.Rect` and `math.Sqrt`, enter as the
  parameters `rect` and `mag`, instantiated by `twiddle` and `magnitude`.
* `FFT` and the peak scan ask of the scalars only the operations `+`, `-`, `*`,
  `0` and a linear order, and no algebraic law, so that they also run over
  rounded arithmetic.
* `HandleFrequencyWith` and `CalculateDominantFrequencyBinWith` are the same
  functions with every `float64` operation rounded: an operation whose exact
  result is `x` delivers `fl x`.  With `fl = GoFloat.fin` nothing is rounded and
  they are `HandleFrequency` and `CalculateDominantFrequencyBin`; with
  `fl = round64`, rounding to the nearest binary64 value, ties to even, they
  compute what the program computes.
* A `float64` quotient never faults in Go; a zero divisor produces NaN or an
  infinity.  `GoFloat` records these non-finite results.
* The recursion of `FFT` is bounded by a fuel argument; running out of fuel is
  `Fault.stackExhausted`.
* The global note table `Notes` is filled by `InitializeNotes`, which lives in
  another file of the program; it is a parameter here.
-/

namespace Lotus

/-- Run-time failures of the Go program. -/
inductive Fault where
  | indexOutOfRange
  | stackExhausted
  deriving DecidableEq, Repr

deriving instance DecidableEq for Except

/-- A `float64` result: an exact finite value, an infinity or NaN. -/
inductive GoFloat (K : Type) where
  | fin (x : K)
  | posInf
  | negInf
  | nan
  deriving DecidableEq, Repr

/-- The quotient `a / b` of two finite `float64` values in exact arithmetic.
Division by zero does not fault: it gives NaN for `0 / 0` and a signed infinity
otherwise (the zero divisor is taken to be `+0`).  A nonzero divisor gives the
exact quotient; `GoFloat.divWith` adds the rounding and the overflow. -/
def GoFloat.div {K : Type} [LinearOrderedField K] (a b : K) : GoFloat K :=
  if b = 0 then
    if a = 0 then .nan else if 0 < a then .posInf else .negInf
  else .fin (a / b)

/-- Lift an operation on finite values that leaves infinities and NaN
unchanged, such as multiplication by the positive constant `9` and
`math.Floor`. -/
def GoFloat.mapFin {K : Type} (f : K → K) : GoFloat K → GoFloat K
  | .fin x => .fin (f x)
  | .posInf => .posInf
  | .negInf => .negInf
  | .nan => .nan

/-- The conversion `int(x)` of a `float64` to a 64-bit `int`: truncation
towards zero.  When the value is not representable (NaN, an infinity, or out of
range) the conversion succeeds with an implementation-dependent result, which
is `none` here. -/
def GoFloat.toInt {K : Type} [LinearOrderedField K] [FloorRing K] : GoFloat K → Option Int
  | .fin x =>
    let t : Int := if 0 ≤ x then ⌊x⌋ else ⌈x⌉
    if -2 ^ 63 ≤ t ∧ t < 2 ^ 63 then some t else none
  | _ => none

/-- Whether a `float64` result is a finite number. -/
def GoFloat.isFinite {K : Type} : GoFloat K → Bool
  | .fin _ => true
  | _ => false

/-- Checked read `xs[i]` with a non-negative index. -/
def index {α : Type} (xs : List α) (i : Nat) : Except Fault α :=
  match xs[i]? with
  | some v => .ok v
  | none => .error .indexOutOfRange

/-- Checked read `xs[i]` with a signed `int` index. -/
def indexInt {α : Type} (xs : List α) (i : Int) : Except Fault α :=
  if i < 0 then .error .indexOutOfRange else index xs i.toNat

/-- Checked write `xs[i] = v`. -/
def store {α : Type} (xs : List α) (i : Nat) (v : α) : Except Fault (List α) :=
  if i < xs.length then .ok (xs.set i v) else .error .indexOutOfRange

section Transform

variable {C : Type} [Add C] [Sub C] [Mul C] [Zero C]

/-- One pass of the combine loop of `FFT`, for the index `k`. -/
def combineStep (rect : Nat → Nat → C) (n : Nat) (Feven Fodd : List C)
    (freqbins : List C) (k : Nat) : Except Fault (List C) := do
  let complexExponential := rect k n * (← index Fodd k)
  let freqbins ← store freqbins k ((← index Feven k) + complexExponential)
  store freqbins (k + n / 2) ((← index Feven k) - complexExponential)

/-- The function `FFT` of `main.go`, with the recursion depth bounded by the
first argument.  `rect k n` stands for `cmplx.Rect(1, -2π·k/n)`.  The split loop
fills `Xeven` and `Xodd` in one pass; here each slice is gathered by its own
traversal of the same index range, with the same checked reads. -/
def fftFuel (rect : Nat → Nat → C) : Nat → List C → Except Fault (List C)
  | 0, _ => .error .stackExhausted
  | fuel + 1, samples => do
    let n := samples.length
    if n = 1 then
      return samples
    let m := n / 2
    let Xeven ← (List.range m).mapM (fun i => index samples (2 * i + 1))
    let Xodd ← (List.range m).mapM (fun i => index samples (2 * i))
    let Feven ← fftFuel rect fuel Xeven
    let Fodd ← fftFuel rect fuel Xodd
    (List.range (n / 2)).foldlM (combineStep rect n Feven Fodd) (List.replicate n 0)

/-- The function `FFT` of `main.go`.  A call on `n ≥ 1` samples nests fewer
than `n + 1` calls, so `n` units of fuel are enough; on the empty slice the
recursion never ends, whatever the fuel (`fftFuel_nil`). -/
def FFT (rect : Nat → Nat → C) (samples : List C) : Except Fault (List C) :=
  fftFuel rect samples.length samples

/-- The slice `Xeven` after the split loop: the samples at the odd positions
`2*i + 1`. -/
def oddSamples (samples : List C) : List C :=
  (List.range (samples.length / 2)).map (fun i => samples.getD (2 * i + 1) 0)

/-- The slice `Xodd` after the split loop: the samples at the even positions
`2*i`. -/
def evenSamples (samples : List C) : List C :=
  (List.range (samples.length / 2)).map (fun i => samples.getD (2 * i) 0)

/-- The slice `freqbins` after `j` passes of the combine loop. -/
def combined (rect : Nat → Nat → C) (n : Nat) (Feven Fodd : List C) (j : Nat) : List C :=
  (List.range n).map (fun i =>
    if i < j then Feven.getD i 0 + rect i n * Fodd.getD i 0
    else if n / 2 ≤ i ∧ i < n / 2 + j then
      Feven.getD (i - n / 2) 0 - rect (i - n / 2) n * Fodd.getD (i - n / 2) 0
    else 0)

/-- One pass of the peak scan: the state is `(maxMag, maxIndex)`. -/
def scanStep {K : Type} [LinearOrder K] (mag : C → K) (acc : K × Nat) (p : Nat × C) : K × Nat :=
  let magnitude := mag p.2
  if magnitude > acc.1 then (magnitude, p.1) else acc

/-- The peak scan of `CalculateDominantFrequencyBin` over
`transformed[:len(transformed)/2]`. -/
def scanPeak {K : Type} [LinearOrder K] [Zero K] (mag : C → K) (transformed : List C) :
    K × Nat :=
  (transformed.take (transformed.length / 2)).enum.foldl (scanStep mag) (0, 0)

/-- The function `CalculateDominantFrequencyBin` of `main.go` in exact
arithmetic.  `mag z` stands for
`math.Sqrt(real(z)*real(z) + imag(z)*imag(z))`.  It is
`CalculateDominantFrequencyBinWith` without rounding
(`CalculateDominantFrequencyBinWith_fin`). -/
def CalculateDominantFrequencyBin {K : Type} [LinearOrderedField K] (rect : Nat → Nat → C)
    (mag : C → K) (samples : List C) (sampleRate windowSize : K) :
    Except Fault (GoFloat K) := do
  let transformed ← FFT rect samples
  let maxIndex := (scanPeak mag transformed).2
  return GoFloat.div ((maxIndex : K) * sampleRate) windowSize

end Transform

/-- An entry of the note table. -/
structure Note (K : Type) where
  Name : String
  Frequency : K

section Mapper

variable {K : Type} [LinearOrderedField K] [FloorRing K]

/-- One pass of the nearest-note loop of `HandleFrequency` in exact arithmetic. -/
def closestStep (Notes : List (Note K)) (dominantFrequency : K) (closestIndex : Int)
    (p : Nat × Note K) : Except Fault Int := do
  let current ← indexInt Notes closestIndex
  if |dominantFrequency - p.2.Frequency| < |dominantFrequency - current.Frequency| then
    return (p.1 : Int)
  else
    return closestIndex

/-- The function `HandleFrequency` of `main.go` over the note table `Notes` in
exact arithmetic: left, center and right note names and the rate index.  It is
`HandleFrequencyWith` without rounding (`HandleFrequencyWith_fin`). -/
def HandleFrequency (Notes : List (Note K)) (dominantFrequency : K) :
    Except Fault (String × String × String × Option Int) := do
  if dominantFrequency = 0 then
    return ("", "", "", some 0)
  let closestIndex ← Notes.enum.foldlM (closestStep Notes dominantFrequency) (0 : Int)
  let centerNoteIndex := closestIndex
  let leftNoteIndex := centerNoteIndex - 1
  let rightNoteIndex := centerNoteIndex + 1
  let right ← indexInt Notes rightNoteIndex
  let left ← indexInt Notes leftNoteIndex
  let totalDistance := right.Frequency - left.Frequency
  let center ← indexInt Notes centerNoteIndex
  let distanceToLeft :=
    dominantFrequency - (center.Frequency - (center.Frequency - left.Frequency) / 2)
  let rateIndex := (GoFloat.div distanceToLeft (totalDistance / 2)).mapFin (· * 9)
  let rateIndex := rateIndex.mapFin (fun x => (⌊x⌋ : K))
  return (left.Name, center.Name, right.Name, rateIndex.toInt)

end Mapper

section Rounding

variable {K : Type} [LinearOrderedField K]

/-- The absolute value `math.Abs(x)` of a `float64` result. -/
def GoFloat.abs : GoFloat K → GoFloat K
  | .fin x => .fin |x|
  | .posInf => .posInf
  | .negInf => .posInf
  | .nan => .nan

/-- The comparison `x < y` of two `float64` results; it is false when either
side is NaN. -/
def GoFloat.lt : GoFloat K → GoFloat K → Bool
  | .fin a, .fin b => decide (a < b)
  | .fin _, .posInf => true
  | .negInf, .fin _ => true
  | .negInf, .posInf => true
  | _, _ => false

/-- The `float64` difference `x - y`.  `fl` rounds the exact difference of two
finite operands; the other cases follow IEEE 754. -/
def GoFloat.subWith (fl : K → GoFloat K) : GoFloat K → GoFloat K → GoFloat K
  | .fin a, .fin b => fl (a - b)
  | .nan, _ => .nan
  | _, .nan => .nan
  | .posInf, .posInf => .nan
  | .negInf, .negInf => .nan
  | .posInf, _ => .posInf
  | .negInf, _ => .negInf
  | .fin _, .posInf => .negInf
  | .fin _, .negInf => .posInf

/-- The `float64` product `x * y`.  `fl` rounds the exact product of two finite
operands; the other cases follow IEEE 754. -/
def GoFloat.mulWith (fl : K → GoFloat K) : GoFloat K → GoFloat K → GoFloat K
  | .fin a, .fin b => fl (a * b)
  | .nan, _ => .nan
  | _, .nan => .nan
  | .posInf, .fin b => if b = 0 then .nan else if 0 < b then .posInf else .negInf
  | .negInf, .fin b => if b = 0 then .nan else if 0 < b then .negInf else .posInf
  | .fin a, .posInf => if a = 0 then .nan else if 0 < a then .posInf else .negInf
  | .fin a, .negInf => if a = 0 then .nan else if 0 < a then .negInf else .posInf
  | .posInf, .posInf => .posInf
  | .negInf, .negInf => .posInf
  | .posInf, .negInf => .negInf
  | .negInf, .posInf => .negInf

/-- The `float64` quotient `x / y`.  `fl` rounds the exact quotient of two
finite operands with a nonzero divisor.  Division by zero does not fault: it
gives NaN for `0 / 0` and an infinity otherwise (a zero divisor is taken to be
`+0`); the other cases follow IEEE 754. -/
def GoFloat.divWith (fl : K → GoFloat K) : GoFloat K → GoFloat K → GoFloat K
  | .fin a, .fin b =>
    if b = 0 then
      if a = 0 then .nan else if 0 < a then .posInf else .negInf
    else fl (a / b)
  | .nan, _ => .nan
  | _, .nan => .nan
  | .fin _, .posInf => .fin 0
  | .fin _, .negInf => .fin 0
  | .posInf, .fin b => if 0 ≤ b then .posInf else .negInf
  | .negInf, .fin b => if 0 ≤ b then .negInf else .posInf
  | .posInf, .posInf => .nan
  | .posInf, .negInf => .nan
  | .negInf, .posInf => .nan
  | .negInf, .negInf => .nan

/-- The function `CalculateDominantFrequencyBin` of `main.go` with the final
product and quotient rounded by `fl`.  The transform runs over the scalars `C`
with whatever `+`, `-` and `*` they carry, and `mag`, with values in an ordered
type `M`, stands for the magnitude as the program computes it.  The conversion
`float64(maxIndex)` is exact, an index being far below `2 ^ 53`. -/
def CalculateDominantFrequencyBinWith {C : Type} [Add C] [Sub C] [Mul C] [Zero C]
    {M : Type} [LinearOrder M] [Zero M] (fl : K → GoFloat K) (rect : Nat → Nat → C)
    (mag : C → M) (samples : List C) (sampleRate windowSize : K) :
    Except Fault (GoFloat K) := do
  let transformed ← FFT rect samples
  let maxIndex := (scanPeak mag transformed).2
  return GoFloat.divWith fl (fl ((maxIndex : K) * sampleRate)) (.fin windowSize)

variable [FloorRing K]

/-- The number of binary digits of `n`, counted with at most `fuel` halvings. -/
def bitLength : Nat → Nat → Nat
  | 0, _ => 0
  | fuel + 1, n => if n = 0 then 0 else bitLength fuel (n / 2) + 1

/-- The binary exponent `⌊log₂ x⌋` of a positive number. -/
def floorLog2 (x : K) : Int :=
  if 1 ≤ x then (bitLength ⌊x⌋₊ ⌊x⌋₊ : Int) - 1
  else -(bitLength ⌈x⁻¹⌉₊ (⌈x⁻¹⌉₊ - 1) : Int)

/-- The integer nearest to `x`, the even one of the two when `x` lies halfway. -/
def roundHalfEven (x : K) : Int :=
  if x - ⌊x⌋ < 1 / 2 then ⌊x⌋
  else if 1 / 2 < x - ⌊x⌋ then ⌊x⌋ + 1
  else if ⌊x⌋ % 2 = 0 then ⌊x⌋ else ⌊x⌋ + 1

/-- Rounding to `float64` (IEEE 754 binary64, round to nearest, ties to even):
the result of an arithmetic operation whose exact value is `x`.  The result is
the nearest multiple of `2 ^ e`, with `e = ⌊log₂ |x|⌋ - 52` and not below
`-1074`, so that it has at most 53 significant binary digits; from
`2 ^ 1024 - 2 ^ 970` on, the midpoint between the largest finite value and
`2 ^ 1024`, the result is an infinity. -/
def round64 (x : K) : GoFloat K :=
  if 2 ^ 1024 - 2 ^ 970 ≤ |x| then
    if 0 < x then .posInf else .negInf
  else if x = 0 then .fin 0
  else
    .fin ((roundHalfEven (x / 2 ^ max (floorLog2 |x| - 52) (-1074)) : K) *
      2 ^ max (floorLog2 |x| - 52) (-1074))

/-- The `float64` value denoted by a decimal or rational constant `x`. -/
def float64 (x : K) : K :=
  match round64 x with
  | .fin y => y
  | _ => 0

/-- One pass of the nearest-note loop of `HandleFrequency`; `fl` rounds the
two subtractions. -/
def closestStepWith (fl : K → GoFloat K) (Notes : List (Note K)) (dominantFrequency : K)
    (closestIndex : Int) (p : Nat × Note K) : Except Fault Int := do
  let current ← indexInt Notes closestIndex
  if GoFloat.lt (GoFloat.abs (fl (dominantFrequency - p.2.Frequency)))
      (GoFloat.abs (fl (dominantFrequency - current.Frequency))) then
    return (p.1 : Int)
  else
    return closestIndex

/-- The function `HandleFrequency` of `main.go` with every `float64` operation
rounded by `fl`: each subtraction, division and multiplication delivers `fl` of
its exact result.  `math.Abs`, `math.Floor` and the comparisons are exact. -/
def HandleFrequencyWith (fl : K → GoFloat K) (Notes : List (Note K)) (dominantFrequency : K) :
    Except Fault (String × String × String × Option Int) := do
  if dominantFrequency = 0 then
    return ("", "", "", some 0)
  let closestIndex ←
    Notes.enum.foldlM (closestStepWith fl Notes dominantFrequency) (0 : Int)
  let centerNoteIndex := closestIndex
  let leftNoteIndex := centerNoteIndex - 1
  let rightNoteIndex := centerNoteIndex + 1
  let right ← indexInt Notes rightNoteIndex
  let left ← indexInt Notes leftNoteIndex
  let totalDistance := fl (right.Frequency - left.Frequency)
  let center ← indexInt Notes centerNoteIndex
  let distanceToLeft := GoFloat.subWith fl (.fin dominantFrequency)
    (GoFloat.subWith fl (.fin center.Frequency)
      (GoFloat.divWith fl (fl (center.Frequency - left.Frequency)) (.fin 2)))
  let rateIndex := GoFloat.mulWith fl
    (GoFloat.divWith fl distanceToLeft (GoFloat.divWith fl totalDistance (.fin 2))) (.fin 9)
  let rateIndex := rateIndex.mapFin (fun x => (⌊x⌋ : K))
  return (left.Name, center.Name, right.Name, rateIndex.toInt)

end Rounding

section Binary64

variable {K : Type} [LinearOrderedField K]

/-- The `float64` sum `x + y`.  `fl` rounds the exact sum of two finite
operands; the other cases follow IEEE 754. -/
def GoFloat.addWith (fl : K → GoFloat K) : GoFloat K → GoFloat K → GoFloat K
  | .fin a, .fin b => fl (a + b)
  | .nan, _ => .nan
  | _, .nan => .nan
  | .posInf, .negInf => .nan
  | .negInf, .posInf => .nan
  | .posInf, _ => .posInf
  | .negInf, _ => .negInf
  | .fin _, .posInf => .posInf
  | .fin _, .negInf => .negInf

/-- The position of a `float64` result in the order used by the peak scan: NaN
below everything, then `-Inf`, the finite values and `+Inf`.  On numbers it is
the `float64` order, and `x > y` is false for `x = NaN`, as in `float64`. -/
def GoFloat.key : GoFloat K → WithBot (WithBot (WithTop K))
  | .nan => ⊥
  | .negInf => ((⊥ : WithBot (WithTop K)) : WithBot (WithBot (WithTop K)))
  | .fin x => (((x : WithTop K) : WithBot (WithTop K)) : WithBot (WithBot (WithTop K)))
  | .posInf => (((⊤ : WithTop K) : WithBot (WithTop K)) : WithBot (WithBot (WithTop K)))

instance : LinearOrder (GoFloat K) :=
  LinearOrder.lift' GoFloat.key (by
    intro a b h
    cases a <;> cases b <;> simp_all [GoFloat.key])

instance : Zero (GoFloat K) := ⟨.fin 0⟩

variable [FloorRing K]

/-- The bits of `⌊√n⌋` from position `b - 1` downwards, added to `acc`. -/
def sqrtLoop (n : Nat) : Nat → Nat → Nat
  | 0, acc => acc
  | b + 1, acc =>
    sqrtLoop n b (if (acc + 2 ^ b) * (acc + 2 ^ b) ≤ n then acc + 2 ^ b else acc)

/-- The integer square root `⌊√n⌋`. -/
def natSqrt (n : Nat) : Nat := sqrtLoop n (bitLength n n) 0

/-- The library call `math.Sqrt(x)` on a finite `x`: the `float64` value
nearest to `√x` (IEEE 754 requires the square root to be correctly rounded), NaN
for `x < 0`.  With `t = ⌊⌊log₂ x⌋ / 2⌋ - 52` the scaled root `√x / 2 ^ t` lies in
`[2 ^ 52, 2 ^ 53)`; it is rounded to the nearest integer by comparing
`x / 4 ^ t` with `(m + 1/2)²`, `m` being the integer part of the scaled root. -/
def sqrt64 (x : K) : GoFloat K :=
  if x < 0 then .nan
  else if x = 0 then .fin 0
  else
    let t : Int := floorLog2 x / 2 - 52
    let y : K := x / 2 ^ (2 * t)
    let m : Nat := natSqrt ⌊y⌋₊
    if y < (m : K) * m + m + 1 / 4 then .fin ((m : K) * 2 ^ t)
    else if (m : K) * m + m + 1 / 4 < y then .fin (((m : K) + 1) * 2 ^ t)
    else if m % 2 = 0 then .fin ((m : K) * 2 ^ t)
    else .fin (((m : K) + 1) * 2 ^ t)

/-- The library call `math.Sqrt` on a `float64` result. -/
def GoFloat.sqrt : GoFloat K → GoFloat K
  | .fin x => sqrt64 x
  | .posInf => .posInf
  | .negInf => .nan
  | .nan => .nan

/-- A `complex128` value: a pair of `float64` values. -/
structure Complex128 (K : Type) where
  re : GoFloat K
  im : GoFloat K
  deriving DecidableEq

instance : Zero (Complex128 K) := ⟨⟨.fin 0, .fin 0⟩⟩

/-- Addition of `complex128` values, componentwise in `float64`. -/
instance : Add (Complex128 K) :=
  ⟨fun a b => ⟨GoFloat.addWith round64 a.re b.re, GoFloat.addWith round64 a.im b.im⟩⟩

/-- Subtraction of `complex128` values, componentwise in `float64`. -/
instance : Sub (Complex128 K) :=
  ⟨fun a b => ⟨GoFloat.subWith round64 a.re b.re, GoFloat.subWith round64 a.im b.im⟩⟩

/-- Multiplication of `complex128` values as the Go compiler expands it:
`(a.re*b.re - a.im*b.im, a.re*b.im + a.im*b.re)`, every product and sum a
`float64` operation of its own. -/
instance : Mul (Complex128 K) :=
  ⟨fun a b =>
    ⟨GoFloat.subWith round64 (GoFloat.mulWith round64 a.re b.re)
        (GoFloat.mulWith round64 a.im b.im),
      GoFloat.addWith round64 (GoFloat.mulWith round64 a.re b.im)
        (GoFloat.mulWith round64 a.im b.re)⟩⟩

/-- The magnitude `math.Sqrt(real(z)*real(z) + imag(z)*imag(z))` in `float64`
arithmetic. -/
def magnitude64 (z : Complex128 K) : GoFloat K :=
  GoFloat.sqrt (GoFloat.addWith round64 (GoFloat.mulWith round64 z.re z.re)
    (GoFloat.mulWith round64 z.im z.im))

/-- A real sample as a `complex128` value. -/
def Complex128.ofReal (x : K) : Complex128 K := ⟨.fin x, .fin 0⟩

/-- The twiddle factors `cmplx.Rect(1, -2π·k/n)` of a window of at most four
samples: `1` at the angle `0` (`k = 0`), where the library is exact, and `-i`
at the angle `-π/2` (`k = 1`, `n = 4`).  At `-π/2` the library returns a real
part of about `6e-17` in place of `0`, the cosine of the rounded angle. -/
def quarterRect (k _n : Nat) : Complex128 K :=
  if k = 0 then ⟨.fin 1, .fin 0⟩ else ⟨.fin 0, .fin (-1)⟩

end Binary64

/-- The value `cmplx.Rect(r, θ)`: the complex number with modulus `r` and
phase `θ`. -/
noncomputable def cmplxRect (r θ : ℝ) : ℂ :=
  (r : ℂ) * Complex.exp ((θ : ℂ) * Complex.I)

/-- The twiddle factor `cmplx.Rect(1, -2.0 * math.Pi * float64(k) / float64(n))`. -/
noncomputable def twiddle (k n : Nat) : ℂ :=
  cmplxRect 1 (-2 * Real.pi * (k : ℝ) / (n : ℝ))

/-- The magnitude `math.Sqrt(real(z)*real(z) + imag(z)*imag(z))`. -/
noncomputable def magnitude (z : ℂ) : ℝ :=
  Real.sqrt (z.re * z.re + z.im * z.im)

/-- The unit complex number `exp(2πi·a/N)`. -/
noncomputable def phase (N : Nat) (a : Int) : ℂ :=
  Complex.exp (2 * (Real.pi : ℂ) * Complex.I * (a : ℂ) / (N : ℂ))

/-- The discrete Fourier transform of the index-reversed input at bin `k`:
`∑_{j < N} x[N-1-j] · exp(-2πi·j·k/N)`. -/
noncomputable def dftReversed (x : List ℂ) (k : Nat) : ℂ :=
  ∑ j in Finset.range x.length, x.getD (x.length - 1 - j) 0 * twiddle (j * k) x.length

/-- The window `x[j] = sin(2π·m·j/N)`, `j < N`, as real-valued complex samples. -/
noncomputable def sineWindow (N m : Nat) : List ℂ :=
  (List.range N).map
    (fun j : Nat => ((Real.sin (2 * Real.pi * (m : ℝ) * (j : ℝ) / (N : ℝ)) : ℝ) : ℂ))

/-- The textbook discrete Fourier transform at bin `k`:
`X[k] = ∑_{j < N} x[j] · exp(-2πi·j·k/N)`. -/
noncomputable def dft (x : List ℂ) (k : Nat) : ℂ :=
  ∑ j in Finset.range x.length,
    x.getD j 0 *
      Complex.exp (-2 * (Real.pi : ℂ) * Complex.I * (j : ℂ) * (k : ℂ) / (x.length : ℂ))

/-- The spectrum `X[0], …, X[N-1]` of the textbook transform. -/
noncomputable def dftSpectrum (x : List ℂ) : List ℂ :=
  (List.range x.length).map (dft x)

/-- The frequency obtained by running the first-half, first-maximum scan of
`CalculateDominantFrequencyBin` on the textbook transform of `x`. -/
noncomputable def dominantFrequencyOfDft (x : List ℂ) (sampleRate windowSize : ℝ) :
    GoFloat ℝ :=
  GoFloat.div (((scanPeak magnitude (dftSpectrum x)).2 : ℝ) * sampleRate) windowSize

/-- The unit complex number `exp(i·t)` for a real angle `t`. -/
noncomputable def cis (t : ℝ) : ℂ :=
  Complex.exp ((t : ℂ) * Complex.I)

/-- The window `x[j] = sin(2π·frequency·j/sampleRate)`, `j < N`: a sine of the
given frequency sampled at `sampleRate`, as real-valued complex samples. -/
noncomputable def sampledSine (frequency sampleRate : ℝ) (N : Nat) : List ℂ :=
  (List.range N).map
    (fun j : Nat =>
      ((Real.sin (2 * Real.pi * frequency * (j : ℝ) / sampleRate) : ℝ) : ℂ))

section MapperSpec

variable {K : Type} [LinearOrderedField K]

/-- The frequency of the table entry at position `i` (`0` past the end). -/
def frequencyAt (Notes : List (Note K)) (i : Nat) : K :=
  match Notes[i]? with
  | some note => note.Frequency
  | none => 0

/-- The name of the table entry at position `i` (empty past the end). -/
def nameAt (Notes : List (Note K)) (i : Nat) : String :=
  match Notes[i]? with
  | some note => note.Name
  | none => ""

/-- The position `c` is the lowest index of the table that minimises the
distance `|f - Notes[i].Frequency|`. -/
def IsNearest (Notes : List (Note K)) (f : K) (c : Nat) : Prop :=
  c < Notes.length ∧
    (∀ i, i < Notes.length → |f - frequencyAt Notes c| ≤ |f - frequencyAt Notes i|) ∧
    (∀ i, i < c → |f - frequencyAt Notes c| < |f - frequencyAt Notes i|)

/-- The rate index computed by `HandleFrequency` from the left, center and
right frequencies. -/
def rateIndex [FloorRing K] (left center right dominantFrequency : K) : Option Int :=
  (((GoFloat.div (dominantFrequency - (center - (center - left) / 2))
    ((right - left) / 2)).mapFin (· * 9)).mapFin (fun x => (⌊x⌋ : K))).toInt

/-- The rate index computed by `HandleFrequency` from the left, center and
right frequencies when every operation is rounded by `fl`. -/
def rateIndexWith [FloorRing K] (fl : K → GoFloat K) (left center right dominantFrequency : K) :
    Option Int :=
  ((GoFloat.mulWith fl
    (GoFloat.divWith fl
      (GoFloat.subWith fl (.fin dominantFrequency)
        (GoFloat.subWith fl (.fin center) (GoFloat.divWith fl (fl (center - left)) (.fin 2))))
      (GoFloat.divWith fl (fl (right - left)) (.fin 2)))
    (.fin 9)).mapFin (fun x => (⌊x⌋ : K))).toInt

/-- The table is sorted strictly ascending by frequency. -/
def Ascending (Notes : List (Note K)) : Prop :=
  Notes.Pairwise (fun a b => a.Frequency < b.Frequency)

/-- The distance from `f` to the table entry `i` as `HandleFrequency` computes
it: `math.Abs` of the rounded difference. -/
def distanceWith (fl : K → GoFloat K) (Notes : List (Note K)) (f : K) (i : Nat) : GoFloat K :=
  GoFloat.abs (fl (f - frequencyAt Notes i))

/-- The position `c` is the lowest index of the table that minimises the
computed distance `distanceWith fl Notes f i`: no entry is strictly nearer, and
every earlier entry is strictly farther, as `float64` compares them. -/
def IsNearestWith (fl : K → GoFloat K) (Notes : List (Note K)) (f : K) (c : Nat) : Prop :=
  c < Notes.length ∧
    (∀ i, i < Notes.length →
      GoFloat.lt (distanceWith fl Notes f i) (distanceWith fl Notes f c) = false) ∧
    (∀ i, i < c →
      GoFloat.lt (distanceWith fl Notes f c) (distanceWith fl Notes f i) = true)

/-- On the input `f` with nearest entry `c`, no `float64` operation of
`HandleFrequency` rounds: `fl` returns unchanged the exact result of every
subtraction of the search loop and of the subtractions, divisions and the
multiplication that lead to the rate index (`L`, `C`, `R` being the frequencies
of the entries `c - 1`, `c`, `c + 1`). -/
def Unrounded (fl : K → GoFloat K) (Notes : List (Note K)) (f : K) (c : Nat) : Prop :=
  (∀ note ∈ Notes, fl (f - note.Frequency) = .fin (f - note.Frequency)) ∧
    fl (frequencyAt Notes (c + 1) - frequencyAt Notes (c - 1)) =
      .fin (frequencyAt Notes (c + 1) - frequencyAt Notes (c - 1)) ∧
    fl (frequencyAt Notes c - frequencyAt Notes (c - 1)) =
      .fin (frequencyAt Notes c - frequencyAt Notes (c - 1)) ∧
    fl ((frequencyAt Notes c - frequencyAt Notes (c - 1)) / 2) =
      .fin ((frequencyAt Notes c - frequencyAt Notes (c - 1)) / 2) ∧
    fl (frequencyAt Notes c - (frequencyAt Notes c - frequencyAt Notes (c - 1)) / 2) =
      .fin (frequencyAt Notes c - (frequencyAt Notes c - frequencyAt Notes (c - 1)) / 2) ∧
    fl (f - (frequencyAt Notes c - (frequencyAt Notes c - frequencyAt Notes (c - 1)) / 2)) =
      .fin (f - (frequencyAt Notes c -
        (frequencyAt Notes c - frequencyAt Notes (c - 1)) / 2)) ∧
    fl ((frequencyAt Notes (c + 1) - frequencyAt Notes (c - 1)) / 2) =
      .fin ((frequencyAt Notes (c + 1) - frequencyAt Notes (c - 1)) / 2) ∧
    fl ((f - (frequencyAt Notes c - (frequencyAt Notes c - frequencyAt Notes (c - 1)) / 2)) /
        ((frequencyAt Notes (c + 1) - frequencyAt Notes (c - 1)) / 2)) =
      .fin ((f - (frequencyAt Notes c -
          (frequencyAt Notes c - frequencyAt Notes (c - 1)) / 2)) /
        ((frequencyAt Notes (c + 1) - frequencyAt Notes (c - 1)) / 2)) ∧
    fl ((f - (frequencyAt Notes c - (frequencyAt Notes c - frequencyAt Notes (c - 1)) / 2)) /
        ((frequencyAt Notes (c + 1) - frequencyAt Notes (c - 1)) / 2) * 9) =
      .fin ((f - (frequencyAt Notes c -
          (frequencyAt Notes c - frequencyAt Notes (c - 1)) / 2)) /
        ((frequencyAt Notes (c + 1) - frequencyAt Notes (c - 1)) / 2) * 9)

instance (Notes : List (Note K)) (f : K) (c : Nat) : Decidable (IsNearest Notes f c) :=
  inferInstanceAs (Decidable (_ ∧ _ ∧ _))

instance (Notes : List (Note K)) : Decidable (Ascending Notes) :=
  inferInstanceAs (Decidable (List.Pairwise _ _))

instance (fl : K → GoFloat K) (Notes : List (Note K)) (f : K) (c : Nat) :
    Decidable (IsNearestWith fl Notes f c) :=
  inferInstanceAs (Decidable (_ ∧ _ ∧ _))

instance (fl : K → GoFloat K) (Notes : List (Note K)) (f : K) (c : Nat) :
    Decidable (Unrounded fl Notes f c) :=
  inferInstanceAs (Decidable (_ ∧ _ ∧ _ ∧ _ ∧ _ ∧ _ ∧ _ ∧ _ ∧ _))

end MapperSpec

/-- A three-note table with evenly spaced frequencies. -/
def evenNotes : List (Note ℚ) := [⟨"C", 1⟩, ⟨"D", 2⟩, ⟨"E", 3⟩]

/-- A three-note table whose center note lies near its left neighbour. -/
def skewNotes : List (Note ℚ) := [⟨"C", 1⟩, ⟨"D", 2⟩, ⟨"E", 5⟩]

/-- A three-note table with the `float64` frequencies `1.7`, `5.8` and `9.0`. -/
def tieNotes : List (Note ℚ) :=
  [⟨"A", float64 (17 / 10)⟩, ⟨"B", float64 (58 / 10)⟩, ⟨"C", 9⟩]

/-- Four neighbouring notes of the third octave with the `float64` frequencies
`185`, `196`, `207.65` and `220`. -/
def octaveNotes : List (Note ℚ) :=
  [⟨"F#3", 185⟩, ⟨"G3", 196⟩, ⟨"G#3", float64 (20765 / 100)⟩, ⟨"A3", 220⟩]

/-- The real-valued window `-0.1, 0.1, -0.1, 0.6` of `float64` samples. -/
def tieWindow : List ℚ := [float64 (-1 / 10), float64 (1 / 10), float64 (-1 / 10), float64 (6 / 10)]

/-- A three-note table with the `float64` frequencies `0.1`, `0.2` and `0.3`. -/
def tenthNotes : List (Note ℚ) :=
  [⟨"C", float64 (1 / 10)⟩, ⟨"D", float64 (2 / 10)⟩, ⟨"E", float64 (3 / 10)⟩]

/-- A three-note table of neighbouring `float64` values near `2 ^ 53`, where the
spacing of `float64` is `2`. -/
def denseNotes : List (Note ℚ) := [⟨"C", 2 ^ 53⟩, ⟨"D", 2 ^ 53 + 2⟩, ⟨"E", 2 ^ 53 + 6⟩]

/-- A three-note table with the `float64` frequencies `696.4`, `714` and `736`. -/
def highNotes : List (Note ℚ) :=
  [⟨"F5", float64 (6964 / 10)⟩, ⟨"F#5", 714⟩, ⟨"G5", 736⟩]

/-! ## The loops of `FFT` in closed form -/

section TransformLemmas

variable {C : Type} [Zero C]

theorem ok_bind {α β : Type} (a : α) (f : α → Except Fault β) :
    (Except.ok a >>= f) = f a := rfl

theorem error_bind {α β : Type} (e : Fault) (f : α → Except Fault β) :
    ((Except.error e : Except Fault α) >>= f) = Except.error e := rfl

theorem index_getD {α : Type} (xs : List α) (i : Nat) (d : α) (h : i < xs.length) :
    index xs i = .ok (xs.getD i d) := by
  simp [index, List.getD, List.getElem?_eq_getElem h]

theorem index_error {α : Type} (xs : List α) (i : Nat) (h : xs.length ≤ i) :
    index xs i = .error .indexOutOfRange := by
  simp [index, List.getElem?_eq_none h]

theorem mapM_index {α : Type} (xs : List α) (d : α) (f : Nat → Nat) (l : List Nat)
    (h : ∀ i ∈ l, f i < xs.length) :
    l.mapM (fun i => index xs (f i)) = .ok (l.map (fun i => xs.getD (f i) d)) := by
  induction l with
  | nil => rfl
  | cons a l ih =>
    have h1 : f a < xs.length := h a (List.mem_cons_self a l)
    have h2 : ∀ i ∈ l, f i < xs.length := fun i hi => h i (List.mem_cons_of_mem a hi)
    rw [List.mapM_cons, index_getD xs (f a) d h1, ih h2]
    rfl

theorem split_odd (samples : List C) :
    (List.range (samples.length / 2)).mapM (fun i => index samples (2 * i + 1))
      = .ok (oddSamples samples) := by
  apply mapM_index
  intro i hi
  have := List.mem_range.1 hi
  omega

theorem split_even (samples : List C) :
    (List.range (samples.length / 2)).mapM (fun i => index samples (2 * i))
      = .ok (evenSamples samples) := by
  apply mapM_index
  intro i hi
  have := List.mem_range.1 hi
  omega

@[simp] theorem length_oddSamples (samples : List C) :
    (oddSamples samples).length = samples.length / 2 := by simp [oddSamples]

@[simp] theorem length_evenSamples (samples : List C) :
    (evenSamples samples).length = samples.length / 2 := by simp [evenSamples]

variable [Add C] [Sub C] [Mul C]

@[simp] theorem length_combined (rect : Nat → Nat → C) (n : Nat) (Fe Fo : List C) (j : Nat) :
    (combined rect n Fe Fo j).length = n := by simp [combined]

theorem combined_zero (rect : Nat → Nat → C) (n : Nat) (Fe Fo : List C) :
    combined rect n Fe Fo 0 = List.replicate n 0 := by
  apply List.ext_getElem
  · simp
  · intro i h1 h2
    simp [combined]

theorem combineStep_combined (rect : Nat → Nat → C) (n : Nat) (Fe Fo : List C) (j : Nat)
    (hFe : Fe.length = n / 2) (hFo : Fo.length = n / 2) (hj : j < n / 2) :
    combineStep rect n Fe Fo (combined rect n Fe Fo j) j = .ok (combined rect n Fe Fo (j + 1)) := by
  have h1 : j < n := by omega
  have h2 : j + n / 2 < n := by omega
  simp only [combineStep, index_getD Fo j 0 (by omega), index_getD Fe j 0 (by omega), store,
    length_combined, List.length_set, h1, h2, if_true, ok_bind]
  congr 1
  apply List.ext_getElem
  · simp
  · intro i hi1 hi2
    simp only [length_combined] at hi2
    simp only [List.getElem_set, combined, List.getElem_map, List.getElem_range]
    by_cases hA : j + n / 2 = i
    · subst hA
      have e : j + n / 2 - n / 2 = j := by omega
      rw [if_pos rfl, if_neg (by omega), if_pos (by omega), e]
    · by_cases hB : j = i
      · subst hB
        rw [if_neg hA, if_pos rfl, if_pos (by omega)]
      · rw [if_neg hA, if_neg hB]
        have e1 : i < j + 1 ↔ i < j := by omega
        have e2 : (n / 2 ≤ i ∧ i < n / 2 + (j + 1)) ↔ (n / 2 ≤ i ∧ i < n / 2 + j) := by omega
        simp only [e1, e2]

theorem foldlM_combineStep (rect : Nat → Nat → C) (n : Nat) (Fe Fo : List C)
    (hFe : Fe.length = n / 2) (hFo : Fo.length = n / 2) (j : Nat) (hj : j ≤ n / 2) :
    (List.range j).foldlM (combineStep rect n Fe Fo) (List.replicate n 0)
      = .ok (combined rect n Fe Fo j) := by
  induction j with
  | zero => simp [combined_zero]; rfl
  | succ j ih =>
    rw [List.range_succ, List.foldlM_append, ih (by omega), ok_bind,
      List.foldlM_cons, combineStep_combined rect n Fe Fo j hFe hFo (by omega), ok_bind]
    rfl

theorem fftFuel_succ (rect : Nat → Nat → C) (fuel : Nat) (samples : List C) :
    fftFuel rect (fuel + 1) samples =
      if samples.length = 1 then .ok samples
      else fftFuel rect fuel (oddSamples samples) >>= fun Feven =>
        fftFuel rect fuel (evenSamples samples) >>= fun Fodd =>
          (List.range (samples.length / 2)).foldlM
            (combineStep rect samples.length Feven Fodd) (List.replicate samples.length 0) := by
  rw [fftFuel]
  by_cases h : samples.length = 1
  · simp only [h, if_true]
    rfl
  · simp only [h, if_false, split_odd, split_even, ok_bind]
    rfl

theorem fftFuel_nil (rect : Nat → Nat → C) (fuel : Nat) :
    fftFuel rect fuel ([] : List C) = .error .stackExhausted := by
  induction fuel with
  | zero => rfl
  | succ fuel ih =>
    have h : oddSamples ([] : List C) = [] := by simp [oddSamples]
    rw [fftFuel_succ, h, ih]
    rfl

theorem fftFuel_ok (rect : Nat → Nat → C) (fuel : Nat) :
    ∀ samples : List C, 0 < samples.length → samples.length < 2 ^ fuel →
      ∃ freqbins, fftFuel rect fuel samples = .ok freqbins ∧
        freqbins.length = samples.length := by
  induction fuel with
  | zero => intro samples h0 h1; rw [pow_zero] at h1; omega
  | succ fuel ih =>
    intro samples h0 h1
    rw [fftFuel_succ]
    by_cases h : samples.length = 1
    · exact ⟨samples, by simp [h], rfl⟩
    · have h2 : samples.length / 2 < 2 ^ fuel := by
        rw [pow_succ] at h1; omega
      obtain ⟨Fe, hFe, hFel⟩ := ih (oddSamples samples) (by simp; omega) (by simpa using h2)
      obtain ⟨Fo, hFo, hFol⟩ := ih (evenSamples samples) (by simp; omega) (by simpa using h2)
      simp only [length_oddSamples, length_evenSamples] at hFel hFol
      refine ⟨combined rect samples.length Fe Fo (samples.length / 2), ?_, by simp⟩
      rw [if_neg h, hFe, ok_bind, hFo, ok_bind,
        foldlM_combineStep rect samples.length Fe Fo hFel hFol _ le_rfl]

theorem fftFuel_fuel (rect : Nat → Nat → C) (f : Nat) :
    ∀ (g : Nat) (samples : List C), 0 < samples.length → samples.length < 2 ^ f →
      samples.length < 2 ^ g → fftFuel rect f samples = fftFuel rect g samples := by
  induction f with
  | zero => intro g samples h0 h1; rw [pow_zero] at h1; omega
  | succ f ih =>
    intro g samples h0 h1 h2
    cases g with
    | zero => rw [pow_zero] at h2; omega
    | succ g =>
      rw [fftFuel_succ, fftFuel_succ]
      by_cases h : samples.length = 1
      · simp [h]
      · have h3 : samples.length / 2 < 2 ^ f := by rw [pow_succ] at h1; omega
        have h4 : samples.length / 2 < 2 ^ g := by rw [pow_succ] at h2; omega
        rw [ih g (oddSamples samples) (by simp; omega) (by simpa using h3) (by simpa using h4),
          ih g (evenSamples samples) (by simp; omega) (by simpa using h3) (by simpa using h4)]

theorem FFT_ok (rect : Nat → Nat → C) (samples : List C) (h : 0 < samples.length) :
    ∃ freqbins, FFT rect samples = .ok freqbins ∧ freqbins.length = samples.length :=
  fftFuel_ok rect samples.length samples h (Nat.lt_two_pow _)

theorem FFT_single (rect : Nat → Nat → C) (z : C) : FFT rect [z] = .ok [z] := by
  simp [FFT, fftFuel_succ]

theorem FFT_step (rect : Nat → Nat → C) (samples : List C) (h : 2 ≤ samples.length) :
    FFT rect samples =
      FFT rect (oddSamples samples) >>= fun Feven =>
        FFT rect (evenSamples samples) >>= fun Fodd =>
          .ok (combined rect samples.length Feven Fodd (samples.length / 2)) := by
  obtain ⟨Fe, hFe, hFel⟩ := FFT_ok rect (oddSamples samples) (by simp; omega)
  obtain ⟨Fo, hFo, hFol⟩ := FFT_ok rect (evenSamples samples) (by simp; omega)
  simp only [length_oddSamples, length_evenSamples] at hFel hFol
  rw [hFe, hFo, ok_bind, ok_bind]
  obtain ⟨f, hf⟩ : ∃ f, samples.length = f + 1 := ⟨samples.length - 1, by omega⟩
  have hlt : samples.length < 2 ^ (f + 1) := by rw [hf]; exact (Nat.lt_two_pow _)
  have h3 : samples.length / 2 < 2 ^ f := by rw [pow_succ] at hlt; omega
  have e1 : fftFuel rect f (oddSamples samples) = .ok Fe := by
    rw [← hFe, FFT]
    exact fftFuel_fuel rect f _ _ (by simp; omega) (by simpa using h3) (Nat.lt_two_pow _)
  have e2 : fftFuel rect f (evenSamples samples) = .ok Fo := by
    rw [← hFo, FFT]
    exact fftFuel_fuel rect f _ _ (by simp; omega) (by simpa using h3) (Nat.lt_two_pow _)
  rw [FFT, hf, fftFuel_succ, if_neg (by omega), e1, ok_bind, e2, ok_bind, ← hf,
    foldlM_combineStep rect samples.length Fe Fo hFel hFol _ le_rfl]

theorem FFT_nil (rect : Nat → Nat → C) : FFT rect ([] : List C) = .error .stackExhausted := rfl

end TransformLemmas

/-! ## The note mapper -/

section MapperLemmas

variable {K : Type} [LinearOrderedField K]

theorem indexInt_natCast {α : Type} (xs : List α) (i : Nat) :
    indexInt xs (i : Int) = index xs i := by
  simp [indexInt]

theorem index_of_getElem? {α : Type} (xs : List α) (i : Nat) (v : α) (h : xs[i]? = some v) :
    index xs i = .ok v := by
  simp [index, h]

theorem closest_prefix (Notes : List (Note K)) (f : K) (j : Nat) (hj : j ≤ Notes.length) :
    ∃ c : Nat, (Notes.enum.take j).foldlM (closestStep Notes f) (0 : Int) = .ok (c : Int) ∧
      (c < j ∨ (j = 0 ∧ c = 0)) ∧
      (∀ i, i < j → |f - frequencyAt Notes c| ≤ |f - frequencyAt Notes i|) ∧
      (∀ i, i < c → |f - frequencyAt Notes c| < |f - frequencyAt Notes i|) := by
  induction j with
  | zero =>
    refine ⟨0, ?_, Or.inr ⟨rfl, rfl⟩, ?_, ?_⟩
    · rfl
    · intro i hi; omega
    · intro i hi; omega
  | succ j ih =>
    obtain ⟨c, hfold, hc, hmin, hfirst⟩ := ih (by omega)
    have hjl : j < Notes.length := by omega
    have hcl : c < Notes.length := by omega
    have hget : Notes.enum[j]? = some (j, Notes[j]) := by
      simp [List.getElem?_enum, List.getElem?_eq_getElem hjl]
    have hcur : indexInt Notes (c : Int) = .ok Notes[c] := by
      rw [indexInt_natCast]
      exact index_of_getElem? _ _ _ (List.getElem?_eq_getElem hcl)
    have hFj : frequencyAt Notes j = Notes[j].Frequency := by
      simp [frequencyAt, List.getElem?_eq_getElem hjl]
    have hFc : frequencyAt Notes c = Notes[c].Frequency := by
      simp [frequencyAt, List.getElem?_eq_getElem hcl]
    have hstep : (Notes.enum.take (j + 1)).foldlM (closestStep Notes f) (0 : Int) =
        if |f - frequencyAt Notes j| < |f - frequencyAt Notes c| then .ok (j : Int)
        else .ok (c : Int) := by
      rw [List.take_succ, hget, List.foldlM_append, hfold, ok_bind, Option.toList,
        List.foldlM_cons, closestStep, hcur, ok_bind, hFj, hFc]
      split_ifs <;> rfl
    rw [hstep]
    by_cases hlt : |f - frequencyAt Notes j| < |f - frequencyAt Notes c|
    · refine ⟨j, ?_, Or.inl (by omega), ?_, ?_⟩
      · rw [if_pos hlt]
      · intro i hi
        rcases Nat.lt_succ_iff_lt_or_eq.1 hi with h | h
        · exact le_of_lt (lt_of_lt_of_le hlt (hmin i h))
        · rw [h]
      · intro i hi
        exact lt_of_lt_of_le hlt (hmin i hi)
    · refine ⟨c, ?_, Or.inl (by omega), ?_, hfirst⟩
      · rw [if_neg hlt]
      · intro i hi
        rcases Nat.lt_succ_iff_lt_or_eq.1 hi with h | h
        · exact hmin i h
        · rw [h]; exact not_lt.1 hlt

theorem closest_loop (Notes : List (Note K)) (f : K) (h : Notes ≠ []) :
    ∃ c : Nat, Notes.enum.foldlM (closestStep Notes f) (0 : Int) = .ok (c : Int) ∧
      IsNearest Notes f c := by
  obtain ⟨c, hfold, hc, hmin, hfirst⟩ := closest_prefix Notes f Notes.length le_rfl
  have hlen : 0 < Notes.length := List.length_pos.2 h
  have e : Notes.enum.take Notes.length = Notes.enum := by
    apply List.take_of_length_le; simp
  rw [e] at hfold
  exact ⟨c, hfold, by omega, hmin, hfirst⟩

theorem IsNearest.unique {Notes : List (Note K)} {f : K} {c c' : Nat}
    (h : IsNearest Notes f c) (h' : IsNearest Notes f c') : c = c' := by
  rcases Nat.lt_trichotomy c c' with hlt | heq | hgt
  · exact absurd (h.2.1 c' h'.1) (not_le.2 (h'.2.2 c hlt))
  · exact heq
  · exact absurd (h'.2.1 c h.1) (not_le.2 (h.2.2 c' hgt))

theorem frequencyAt_lt (Notes : List (Note K)) (hs : Ascending Notes) (i j : Nat)
    (hij : i < j) (hj : j < Notes.length) : frequencyAt Notes i < frequencyAt Notes j := by
  have hi : i < Notes.length := by omega
  have := (List.pairwise_iff_getElem.1 hs) i j hi hj hij
  simpa [frequencyAt, List.getElem?_eq_getElem hi, List.getElem?_eq_getElem hj] using this

theorem nearest_of_entry (Notes : List (Note K)) (hs : Ascending Notes) (c : Nat)
    (hc : c < Notes.length) : IsNearest Notes (frequencyAt Notes c) c := by
  refine ⟨hc, ?_, ?_⟩
  · intro i _
    simp
  · intro i hi
    have := frequencyAt_lt Notes hs i c hi hc
    simp only [sub_self, abs_zero, abs_pos, ne_eq]
    intro h
    linarith

theorem indexInt_ok_or {α : Type} (xs : List α) (i : Int) :
    (∃ v, indexInt xs i = .ok v) ∨ indexInt xs i = .error .indexOutOfRange := by
  unfold indexInt index
  split_ifs
  · exact Or.inr rfl
  · cases xs[i.toNat]? with
    | none => exact Or.inr rfl
    | some v => exact Or.inl ⟨v, rfl⟩

theorem indexInt_ok {α : Type} (Notes : List α) (i : Nat) (note : α)
    (h : Notes[i]? = some note) : indexInt Notes (i : Int) = .ok note := by
  rw [indexInt_natCast]; exact index_of_getElem? _ _ _ h

theorem nearest_bounds (Notes : List (Note K)) (f : K) (c : Nat) (hs : Ascending Notes)
    (hc : IsNearest Notes f c) (hpos : 0 < c) (hlast : c + 1 < Notes.length) :
    (frequencyAt Notes (c - 1) + frequencyAt Notes c) / 2 < f ∧
      f ≤ (frequencyAt Notes c + frequencyAt Notes (c + 1)) / 2 := by
  have hLC := frequencyAt_lt Notes hs (c - 1) c (by omega) (by omega)
  have hCR := frequencyAt_lt Notes hs c (c + 1) (by omega) hlast
  have hL := hc.2.2 (c - 1) (by omega)
  have hR := hc.2.1 (c + 1) hlast
  constructor
  · by_contra h
    push_neg at h
    rcases abs_cases (f - frequencyAt Notes c) with ⟨e1, _⟩ | ⟨e1, _⟩ <;>
      rcases abs_cases (f - frequencyAt Notes (c - 1)) with ⟨e2, _⟩ | ⟨e2, _⟩ <;> linarith
  · by_contra h
    push_neg at h
    rcases abs_cases (f - frequencyAt Notes c) with ⟨e1, _⟩ | ⟨e1, _⟩ <;>
      rcases abs_cases (f - frequencyAt Notes (c + 1)) with ⟨e2, _⟩ | ⟨e2, _⟩ <;> linarith

theorem getElem?_eq_mk (Notes : List (Note K)) (i : Nat) (hi : i < Notes.length) :
    Notes[i]? = some ⟨nameAt Notes i, frequencyAt Notes i⟩ := by
  simp [nameAt, frequencyAt, List.getElem?_eq_getElem hi]

variable [FloorRing K]

theorem HandleFrequency_of_nearest (Notes : List (Note K)) (f : K) (c : Nat) (hf : f ≠ 0)
    (hc : IsNearest Notes f c) :
    HandleFrequency Notes f =
      indexInt Notes ((c : Int) + 1) >>= fun right =>
        indexInt Notes ((c : Int) - 1) >>= fun left =>
          indexInt Notes (c : Int) >>= fun center =>
            .ok (left.Name, center.Name, right.Name,
              rateIndex left.Frequency center.Frequency right.Frequency f) := by
  have hne : Notes ≠ [] := by
    intro h0; have := hc.1; simp [h0] at this
  obtain ⟨c', hfold, hc'⟩ := closest_loop Notes f hne
  have e := hc.unique hc'
  subst e
  rw [HandleFrequency, if_neg hf]
  simp only [hfold, ok_bind]
  rfl

theorem HandleFrequency_zero (Notes : List (Note K)) :
    HandleFrequency Notes 0 = .ok ("", "", "", some 0) := by
  simp [HandleFrequency]; rfl

theorem rateIndex_eq (left center right f : K) (hne : left ≠ right)
    (hlo : -2 ^ 63 ≤ ⌊(f - (center - (center - left) / 2)) / ((right - left) / 2) * 9⌋)
    (hhi : ⌊(f - (center - (center - left) / 2)) / ((right - left) / 2) * 9⌋ < 2 ^ 63) :
    rateIndex left center right f =
      some ⌊(f - (center - (center - left) / 2)) / ((right - left) / 2) * 9⌋ := by
  have h2 : (right - left) / 2 ≠ 0 := by
    intro h
    have : right - left = 0 := by linarith
    exact hne (by linarith)
  simp only [rateIndex, GoFloat.div, if_neg h2, GoFloat.mapFin, GoFloat.toInt,
    Int.floor_intCast, Int.ceil_intCast, ite_self]
  rw [if_pos ⟨hlo, hhi⟩]

theorem HandleFrequency_interior (Notes : List (Note K)) (f : K) (c : Nat)
    (left center right : Note K) (hf : f ≠ 0) (hc : IsNearest Notes f c) (hpos : 0 < c)
    (hl : Notes[c - 1]? = some left) (hm : Notes[c]? = some center)
    (hr : Notes[c + 1]? = some right) :
    HandleFrequency Notes f = .ok (left.Name, center.Name, right.Name,
      rateIndex left.Frequency center.Frequency right.Frequency f) := by
  have e1 : ((c : Int) + 1) = ((c + 1 : Nat) : Int) := by push_cast; ring
  have e2 : ((c : Int) - 1) = ((c - 1 : Nat) : Int) := by omega
  rw [HandleFrequency_of_nearest Notes f c hf hc, e1, e2, indexInt_ok _ _ _ hr, ok_bind,
    indexInt_ok _ _ _ hl, ok_bind, indexInt_ok _ _ _ hm, ok_bind]

theorem HandleFrequency_first (Notes : List (Note K)) (f : K) (hf : f ≠ 0)
    (hc : IsNearest Notes f 0) : HandleFrequency Notes f = .error .indexOutOfRange := by
  rw [HandleFrequency_of_nearest Notes f 0 hf hc]
  have e : indexInt Notes (((0 : Nat) : Int) - 1) = .error .indexOutOfRange := by
    simp [indexInt]
  rw [e]
  rcases indexInt_ok_or Notes (((0 : Nat) : Int) + 1) with ⟨v, hv⟩ | hv <;> rw [hv] <;> rfl

theorem HandleFrequency_last (Notes : List (Note K)) (f : K) (c : Nat) (hf : f ≠ 0)
    (hc : IsNearest Notes f c) (hlast : c + 1 = Notes.length) :
    HandleFrequency Notes f = .error .indexOutOfRange := by
  rw [HandleFrequency_of_nearest Notes f c hf hc]
  have e1 : ((c : Int) + 1) = ((c + 1 : Nat) : Int) := by push_cast; ring
  rw [e1, indexInt_natCast, index_error _ _ (by omega)]
  rfl

theorem ascending_evenNotes : Ascending evenNotes := by
  simp [Ascending, evenNotes]; norm_num

theorem ascending_skewNotes : Ascending skewNotes := by
  simp [Ascending, skewNotes]; norm_num

theorem nearest_even_midpoint : IsNearest evenNotes (5 / 2) 1 := by
  refine ⟨by decide, ?_, ?_⟩
  · intro i hi
    have hi3 : i < 3 := hi
    interval_cases i <;> simp [frequencyAt, evenNotes] <;> norm_num [abs_of_nonneg, abs_of_nonpos]
  · intro i hi
    interval_cases i
    simp [frequencyAt, evenNotes]; norm_num [abs_of_nonneg, abs_of_nonpos]

theorem rateIndex_of_floor (left center right f : K) (k : Int) (hne : left ≠ right)
    (hk : ⌊(f - (center - (center - left) / 2)) / ((right - left) / 2) * 9⌋ = k)
    (hlo : -2 ^ 63 ≤ k) (hhi : k < 2 ^ 63) : rateIndex left center right f = some k := by
  subst hk
  exact rateIndex_eq left center right f hne hlo hhi

theorem HandleFrequency_between (Notes : List (Note K)) (f : K) (c : Nat) (hf : f ≠ 0)
    (hc : IsNearest Notes f c) (hpos : 0 < c) (hlast : c + 1 < Notes.length) :
    HandleFrequency Notes f = .ok (nameAt Notes (c - 1), nameAt Notes c, nameAt Notes (c + 1),
      rateIndex (frequencyAt Notes (c - 1)) (frequencyAt Notes c) (frequencyAt Notes (c + 1)) f) :=
  HandleFrequency_interior Notes f c _ _ _ hf hc hpos
    (getElem?_eq_mk Notes (c - 1) (by omega)) (getElem?_eq_mk Notes c (by omega))
    (getElem?_eq_mk Notes (c + 1) hlast)

theorem rate_floor_range (left center right f : K) (hLR : left < right)
    (hlo : (left + center) / 2 < f) (hhi : f ≤ (center + right) / 2) :
    0 ≤ ⌊(f - (center - (center - left) / 2)) / ((right - left) / 2) * 9⌋ ∧
      ⌊(f - (center - (center - left) / 2)) / ((right - left) / 2) * 9⌋ ≤ 9 ∧
      (f ≠ (center + right) / 2 →
        ⌊(f - (center - (center - left) / 2)) / ((right - left) / 2) * 9⌋ ≤ 8) := by
  have ht : 0 < (right - left) / 2 := by linarith
  have hx0 : 0 ≤ (f - (center - (center - left) / 2)) / ((right - left) / 2) * 9 := by
    apply mul_nonneg _ (by norm_num)
    apply div_nonneg _ ht.le
    linarith
  have hx9 : (f - (center - (center - left) / 2)) / ((right - left) / 2) * 9 ≤ 9 := by
    rw [div_mul_eq_mul_div, div_le_iff₀ ht]
    linarith
  refine ⟨Int.floor_nonneg.2 hx0, ?_, ?_⟩
  · have := Int.floor_le ((f - (center - (center - left) / 2)) / ((right - left) / 2) * 9)
    have h9 : ((⌊(f - (center - (center - left) / 2)) / ((right - left) / 2) * 9⌋ : Int) : K)
        ≤ ((9 : Int) : K) := by push_cast; linarith
    exact_mod_cast h9
  · intro hmid
    have hx : (f - (center - (center - left) / 2)) / ((right - left) / 2) * 9 < 9 := by
      rw [div_mul_eq_mul_div, div_lt_iff₀ ht]
      have : f < (center + right) / 2 := lt_of_le_of_ne hhi hmid
      linarith
    have : ⌊(f - (center - (center - left) / 2)) / ((right - left) / 2) * 9⌋ < 9 := by
      rw [Int.floor_lt]; exact_mod_cast hx
    omega

theorem rate_range (left center right f : K) (hLR : left < right)
    (hlo : (left + center) / 2 < f) (hhi : f ≤ (center + right) / 2) :
    ∃ k : Int, rateIndex left center right f = some k ∧ 0 ≤ k ∧ k ≤ 9 ∧
      (f ≠ (center + right) / 2 → k ≤ 8) := by
  obtain ⟨h0, h9, h8⟩ := rate_floor_range left center right f hLR hlo hhi
  exact ⟨_, rateIndex_eq left center right f (ne_of_lt hLR) (by omega) (by omega), h0, h9, h8⟩

theorem nearest_even_low : IsNearest evenNotes 1 0 :=
  nearest_of_entry evenNotes ascending_evenNotes 0 (by decide)

theorem nearest_even_center : IsNearest evenNotes 2 1 :=
  nearest_of_entry evenNotes ascending_evenNotes 1 (by decide)

theorem nearest_even_high : IsNearest evenNotes 3 2 :=
  nearest_of_entry evenNotes ascending_evenNotes 2 (by decide)

theorem nearest_skew_center : IsNearest skewNotes 2 1 :=
  nearest_of_entry skewNotes ascending_skewNotes 1 (by decide)

/-- C5 fails as stated: on the ascending table `evenNotes` the frequency `5/2`,
midway between the center and the right note, has the interior entry `1` as its
nearest entry (ties go to the lowest index) and the returned offset index is
`9`, outside `[0, 8]`. -/
theorem HandleFrequency_offset_nine :
    Ascending evenNotes ∧ IsNearest evenNotes (5 / 2) 1 ∧
      HandleFrequency evenNotes (5 / 2) = .ok ("C", "D", "E", some 9) := by
  refine ⟨ascending_evenNotes, nearest_even_midpoint, ?_⟩
  rw [HandleFrequency_interior evenNotes (5 / 2) 1 ⟨"C", 1⟩ ⟨"D", 2⟩ ⟨"E", 3⟩ (by norm_num)
    nearest_even_midpoint (by decide) rfl rfl rfl]
  rw [rateIndex_of_floor (1 : ℚ) 2 3 (5 / 2) 9 (by norm_num)
    (by rw [Int.floor_eq_iff]; norm_num) (by norm_num) (by norm_num)]

/-- In exact arithmetic: for a table sorted strictly ascending and a nonzero `f`
whose nearest entry `c` is interior, the offset index lies in `[0, 9]`, and in
`[0, 8]` unless `f` is the midpoint between the center and the right note. -/
theorem HandleFrequency_offset_range (Notes : List (Note K)) (f : K) (c : Nat)
    (hs : Ascending Notes) (_hlen : 3 ≤ Notes.length) (hf : f ≠ 0) (hc : IsNearest Notes f c)
    (hpos : 0 < c) (hlast : c + 1 < Notes.length) :
    ∃ k : Int, HandleFrequency Notes f =
        .ok (nameAt Notes (c - 1), nameAt Notes c, nameAt Notes (c + 1), some k) ∧
      0 ≤ k ∧ k ≤ 9 ∧
      (f ≠ (frequencyAt Notes c + frequencyAt Notes (c + 1)) / 2 → k ≤ 8) := by
  obtain ⟨hlo, hhi⟩ := nearest_bounds Notes f c hs hc hpos hlast
  have hLC := frequencyAt_lt Notes hs (c - 1) c (by omega) (by omega)
  have hCR := frequencyAt_lt Notes hs c (c + 1) (by omega) hlast
  obtain ⟨k, hk, h0, h9, h8⟩ := rate_range (frequencyAt Notes (c - 1)) (frequencyAt Notes c)
    (frequencyAt Notes (c + 1)) f (lt_trans hLC hCR) hlo hhi
  exact ⟨k, by rw [HandleFrequency_between Notes f c hf hc hpos hlast, hk], h0, h9, h8⟩

/-- C6 fails on the code: on the ascending three-note table `evenNotes`,
`HandleFrequency` at the lowest table frequency reads `Notes[-1]` and at the
highest table frequency reads `Notes[3]`; both calls end in an index-out-of-range
panic instead of returning a result. -/
theorem HandleFrequency_boundary_panics :
    Ascending evenNotes ∧ 3 ≤ evenNotes.length ∧
      HandleFrequency evenNotes 1 = .error .indexOutOfRange ∧
      HandleFrequency evenNotes 3 = .error .indexOutOfRange :=
  ⟨ascending_evenNotes, by decide,
    HandleFrequency_first evenNotes 1 (by norm_num) nearest_even_low,
    HandleFrequency_last evenNotes 3 2 (by norm_num) nearest_even_high (by decide)⟩

/-- C9 fails as stated: on the ascending table `skewNotes` the frequency of the
interior entry `D` is mapped to the center name `D` with offset index `2`, not
`4`. -/
theorem HandleFrequency_entry_offset_two :
    Ascending skewNotes ∧ frequencyAt skewNotes 1 = 2 ∧
      HandleFrequency skewNotes 2 = .ok ("C", "D", "E", some 2) := by
  refine ⟨ascending_skewNotes, rfl, ?_⟩
  rw [HandleFrequency_interior skewNotes 2 1 ⟨"C", 1⟩ ⟨"D", 2⟩ ⟨"E", 5⟩ (by norm_num)
    nearest_skew_center (by decide) rfl rfl rfl]
  rw [rateIndex_of_floor (1 : ℚ) 2 5 2 2 (by norm_num)
    (by rw [Int.floor_eq_iff]; norm_num) (by norm_num) (by norm_num)]

/-- In exact arithmetic: for a table sorted strictly ascending, the frequency of
an interior entry `c` is mapped to the names of the entries `c - 1`, `c`,
`c + 1` and to the offset index `⌊9·(C − L)/(R − L)⌋`, which is `4` exactly when
`4·(R − L) ≤ 9·(C − L) < 5·(R − L)`. -/
theorem HandleFrequency_entry (Notes : List (Note K)) (c : Nat) (hs : Ascending Notes)
    (hlen : 3 ≤ Notes.length) (hpos : 0 < c) (hlast : c < Notes.length - 1)
    (hf : frequencyAt Notes c ≠ 0) :
    HandleFrequency Notes (frequencyAt Notes c) =
        .ok (nameAt Notes (c - 1), nameAt Notes c, nameAt Notes (c + 1),
          some ⌊9 * (frequencyAt Notes c - frequencyAt Notes (c - 1)) /
            (frequencyAt Notes (c + 1) - frequencyAt Notes (c - 1))⌋) ∧
      (⌊9 * (frequencyAt Notes c - frequencyAt Notes (c - 1)) /
          (frequencyAt Notes (c + 1) - frequencyAt Notes (c - 1))⌋ = 4 ↔
        4 * (frequencyAt Notes (c + 1) - frequencyAt Notes (c - 1)) ≤
            9 * (frequencyAt Notes c - frequencyAt Notes (c - 1)) ∧
          9 * (frequencyAt Notes c - frequencyAt Notes (c - 1)) <
            5 * (frequencyAt Notes (c + 1) - frequencyAt Notes (c - 1))) := by
  have hl : c + 1 < Notes.length := by omega
  have hLC := frequencyAt_lt Notes hs (c - 1) c (by omega) (by omega)
  have hCR := frequencyAt_lt Notes hs c (c + 1) (by omega) hl
  have hc := nearest_of_entry Notes hs c (by omega)
  have hpos' : 0 < frequencyAt Notes (c + 1) - frequencyAt Notes (c - 1) := by linarith
  have hx : (frequencyAt Notes c - (frequencyAt Notes c -
      (frequencyAt Notes c - frequencyAt Notes (c - 1)) / 2)) /
      ((frequencyAt Notes (c + 1) - frequencyAt Notes (c - 1)) / 2) * 9 =
      9 * (frequencyAt Notes c - frequencyAt Notes (c - 1)) /
        (frequencyAt Notes (c + 1) - frequencyAt Notes (c - 1)) := by
    field_simp
    ring
  obtain ⟨hlo, hhi⟩ := nearest_bounds Notes _ c hs hc hpos hl
  obtain ⟨h0, h9, -⟩ := rate_floor_range (frequencyAt Notes (c - 1)) (frequencyAt Notes c)
    (frequencyAt Notes (c + 1)) (frequencyAt Notes c) (lt_trans hLC hCR) hlo hhi
  constructor
  · rw [HandleFrequency_between Notes _ c hf hc hpos hl,
      rateIndex_eq _ _ _ _ (ne_of_lt (lt_trans hLC hCR)) (by omega) (by omega), hx]
  · rw [Int.floor_eq_iff, le_div_iff₀ hpos', div_lt_iff₀ hpos']
    norm_num

end MapperLemmas

/-! ## The transform and the peak scan -/

section TransformClaims

variable {C : Type} [Zero C]

theorem getD_map_range (g : Nat → C) (n k : Nat) (hk : k < n) :
    ((List.range n).map g).getD k 0 = g k := by
  rw [List.getD_eq_getElem _ _ (by simpa using hk)]
  simp

variable [Add C] [Sub C] [Mul C]

theorem getD_combined_low (rect : Nat → Nat → C) (n : Nat) (Fe Fo : List C) (k : Nat)
    (hk : k < n / 2) :
    (combined rect n Fe Fo (n / 2)).getD k 0 = Fe.getD k 0 + rect k n * Fo.getD k 0 := by
  rw [combined, getD_map_range _ _ _ (by omega), if_pos hk]

theorem getD_combined_high (rect : Nat → Nat → C) (n : Nat) (Fe Fo : List C) (k : Nat)
    (hk : k < n / 2) :
    (combined rect n Fe Fo (n / 2)).getD (k + n / 2) 0 =
      Fe.getD k 0 - rect k n * Fo.getD k 0 := by
  rw [combined, getD_map_range _ _ _ (by omega), if_neg (by omega), if_pos (by omega)]
  simp

theorem getD_combined_rest (rect : Nat → Nat → C) (n : Nat) (Fe Fo : List C) (k : Nat)
    (hk : n / 2 + n / 2 ≤ k) :
    (combined rect n Fe Fo (n / 2)).getD k 0 = 0 := by
  by_cases h : k < n
  · rw [combined, getD_map_range _ _ _ h, if_neg (by omega), if_neg (by omega)]
  · rw [List.getD_eq_default _ _ (by simp; omega)]

/-- C1 fails on the code: for `x = [1, 0]` (`N = 2`, `k = 0`, twiddle `1`) the
transform of the even-indexed half is `E = [1]` and that of the odd-indexed half
is `O = [0]`, so the claim gives `FFT(x)[1] = E - t*O = 1`; the code returns
`[1, -1]`, its bin `1` being `O - t*E = -1`, because `Xeven` receives the
odd-indexed samples and `Xodd` the even-indexed ones. -/
theorem FFT_one_zero :
    FFT twiddle (evenSamples [1, 0]) = .ok [1] ∧ FFT twiddle (oddSamples [1, 0]) = .ok [0] ∧
      twiddle 0 2 = 1 ∧ FFT twiddle [1, 0] = .ok [1, -1] ∧ (1 : ℂ) - twiddle 0 2 * 0 ≠ -1 := by
  have he : evenSamples ([1, 0] : List ℂ) = [1] := by simp [evenSamples, List.range_succ]
  have ho : oddSamples ([1, 0] : List ℂ) = [0] := by simp [oddSamples, List.range_succ]
  have ht : twiddle 0 2 = 1 := by simp [twiddle, cmplxRect]
  refine ⟨by rw [he, FFT_single], by rw [ho, FFT_single], ht, ?_, ?_⟩
  · rw [FFT_step _ _ (by simp), he, ho, FFT_single, FFT_single, ok_bind, ok_bind]
    simp [combined, List.range_succ, ht]
  · norm_num

/-- C7 fails as stated: on an input of length `3`, which is not a power of two,
`FFT` raises no error and returns the three values `[3, 1, 0]`. -/
theorem FFT_three : FFT twiddle [1, 2, 3] = .ok [3, 1, 0] := by
  have he : evenSamples ([1, 2, 3] : List ℂ) = [1] := by simp [evenSamples, List.range_succ]
  have ho : oddSamples ([1, 2, 3] : List ℂ) = [2] := by simp [oddSamples, List.range_succ]
  have ht : twiddle 0 3 = 1 := by simp [twiddle, cmplxRect]
  rw [FFT_step _ _ (by simp), he, ho, FFT_single, FFT_single, ok_bind, ok_bind]
  simp [combined, List.range_succ, ht]
  norm_num

theorem three_ne_two_pow (p : Nat) : 3 ≠ 2 ^ p := by
  cases p with
  | zero => norm_num
  | succ p => rw [pow_succ]; omega

/-- C7, amended: for every input whose length `N ≥ 1` is not a power of two,
`FFT` raises no error and returns a sequence of `N` values. -/
theorem FFT_any_length (samples : List ℂ) (hpos : 1 ≤ samples.length)
    (_hnp : ∀ p : Nat, samples.length ≠ 2 ^ p) :
    ∃ freqbins, FFT twiddle samples = .ok freqbins ∧ freqbins.length = samples.length :=
  FFT_ok twiddle samples hpos

/-- Witness of the amended C7 on an input of length `3`. -/
theorem FFT_any_length_witness :
    1 ≤ ([1, 2, 3] : List ℂ).length ∧ (∀ p : Nat, ([1, 2, 3] : List ℂ).length ≠ 2 ^ p) ∧
      ∃ freqbins, FFT twiddle [1, 2, 3] = .ok freqbins ∧
        freqbins.length = ([1, 2, 3] : List ℂ).length :=
  ⟨by decide, three_ne_two_pow,
    FFT_any_length [1, 2, 3] (by decide) three_ne_two_pow⟩

variable {K : Type} [LinearOrderedField K]

theorem CalculateDominantFrequencyBin_eq (rect : Nat → Nat → C) (mag : C → K)
    (samples transformed : List C) (sampleRate windowSize : K)
    (h : FFT rect samples = .ok transformed) :
    CalculateDominantFrequencyBin rect mag samples sampleRate windowSize =
      .ok (GoFloat.div (((scanPeak mag transformed).2 : K) * sampleRate) windowSize) := by
  rw [CalculateDominantFrequencyBin, h, ok_bind]
  rfl

theorem div_zero_not_finite (a : K) : (GoFloat.div a 0).isFinite = false := by
  unfold GoFloat.div
  rw [if_pos rfl]
  split_ifs <;> rfl

theorem div_of_ne_zero (a b : K) (hb : b ≠ 0) : GoFloat.div a b = .fin (a / b) := by
  rw [GoFloat.div, if_neg hb]

/-- C8 fails as stated: with `windowSize = 0` the call on the one-sample window
`[1]` raises no error; it divides `0 * 2000` by zero and returns NaN. -/
theorem CalculateDominantFrequencyBin_zero_window_nan :
    CalculateDominantFrequencyBin twiddle magnitude [1] 2000 0 = .ok .nan := by
  rw [CalculateDominantFrequencyBin_eq _ _ _ _ _ _ (FFT_single twiddle 1)]
  simp [scanPeak, GoFloat.div]

theorem magnitude_nonneg (z : ℂ) : 0 ≤ magnitude z := Real.sqrt_nonneg _

/-- C8, amended: for every sample window of length at least `1` and every
`sampleRate`, `CalculateDominantFrequencyBin` with `windowSize = 0` raises no
error: it performs the division by zero and returns a value that is not a
finite number (NaN or an infinity). -/
theorem CalculateDominantFrequencyBin_zero_window (samples : List ℂ) (sampleRate : ℝ)
    (hlen : 1 ≤ samples.length) :
    ∃ v, CalculateDominantFrequencyBin twiddle magnitude samples sampleRate 0 = .ok v ∧
      v.isFinite = false := by
  obtain ⟨transformed, hT, -⟩ := FFT_ok twiddle samples hlen
  exact ⟨_, CalculateDominantFrequencyBin_eq _ _ _ _ _ _ hT, div_zero_not_finite _⟩

/-- Witness of the amended C8 on the window `[1, 0]` at `sampleRate = 2000`. -/
theorem CalculateDominantFrequencyBin_zero_window_witness :
    1 ≤ ([1, 0] : List ℂ).length ∧
      ∃ v, CalculateDominantFrequencyBin twiddle magnitude [1, 0] 2000 0 = .ok v ∧
        v.isFinite = false :=
  ⟨by decide, CalculateDominantFrequencyBin_zero_window [1, 0] 2000 (by decide)⟩

end TransformClaims

/-! ## The peak scan -/

section ScanLemmas

variable {C : Type} [Zero C] {M : Type} [LinearOrder M] [Zero M]

theorem scan_spec_on (mag : C → M) (l : List C) (hmag : ∀ z ∈ l, 0 ≤ mag z) :
    (l = [] → l.enum.foldl (scanStep mag) (0, 0) = (0, 0)) ∧
    (∀ j, j < l.length → mag (l.getD j 0) ≤ (l.enum.foldl (scanStep mag) (0, 0)).1) ∧
    (l ≠ [] → (l.enum.foldl (scanStep mag) (0, 0)).2 < l.length ∧
      mag (l.getD (l.enum.foldl (scanStep mag) (0, 0)).2 0) =
        (l.enum.foldl (scanStep mag) (0, 0)).1 ∧
      ∀ j, j < (l.enum.foldl (scanStep mag) (0, 0)).2 →
        mag (l.getD j 0) < (l.enum.foldl (scanStep mag) (0, 0)).1) := by
  induction l using List.reverseRecOn with
  | nil => simp
  | append_singleton l a ih =>
    obtain ⟨ih0, ihle, ihne⟩ := ih (fun z hz => hmag z (List.mem_append_left _ hz))
    have hmaga : 0 ≤ mag a := hmag a (by simp)
    have hfold : (l ++ [a]).enum.foldl (scanStep mag) (0, 0) =
        scanStep mag (l.enum.foldl (scanStep mag) (0, 0)) (l.length, a) := by
      simp [List.enum_append, List.foldl_append, List.enumFrom]
    have hget : ∀ j, j < l.length → (l ++ [a]).getD j 0 = l.getD j 0 := by
      intro j hj
      rw [List.getD_append _ _ _ _ hj]
    have hlast : (l ++ [a]).getD l.length 0 = a := by
      rw [List.getD_append_right _ _ _ _ le_rfl]; simp
    rw [hfold]
    generalize hr : l.enum.foldl (scanStep mag) (0, 0) = r at *
    refine ⟨by simp, ?_, ?_⟩
    · intro j hj
      simp only [List.length_append, List.length_singleton] at hj
      unfold scanStep
      by_cases hgt : mag a > r.1
      · simp only [hgt, if_true]
        rcases Nat.lt_succ_iff_lt_or_eq.1 hj with h | h
        · rw [hget j h]; exact le_of_lt (lt_of_le_of_lt (ihle j h) hgt)
        · rw [h, hlast]
      · simp only [hgt, if_false]
        rcases Nat.lt_succ_iff_lt_or_eq.1 hj with h | h
        · rw [hget j h]; exact ihle j h
        · rw [h, hlast]; exact not_lt.1 hgt
    · intro _
      unfold scanStep
      by_cases hgt : mag a > r.1
      · simp only [hgt, if_true, List.length_append, List.length_singleton]
        refine ⟨by omega, by rw [hlast], ?_⟩
        intro j hj
        rw [hget j hj]
        exact lt_of_le_of_lt (ihle j hj) hgt
      · simp only [hgt, if_false, List.length_append, List.length_singleton]
        by_cases hl : l = []
        · subst hl
          have h0 := ih0 rfl
          subst h0
          simp only [List.nil_append, List.length_nil, zero_add]
          refine ⟨by omega, ?_, ?_⟩
          · simp only [List.getD_cons_zero]
            exact le_antisymm (not_lt.1 hgt) hmaga
          · intro j hj; omega
        · obtain ⟨h1, h2, h3⟩ := ihne hl
          refine ⟨by omega, ?_, ?_⟩
          · rw [hget _ h1]; exact h2
          · intro j hj
            rw [hget j (by omega)]; exact h3 j hj

theorem scanPeak_congr (mag : C → M) (t u : List C) (hlen : u.length = t.length)
    (h : ∀ j, j < t.length / 2 → u.getD j 0 = t.getD j 0) :
    scanPeak mag u = scanPeak mag t := by
  unfold scanPeak
  have e : u.take (u.length / 2) = t.take (t.length / 2) := by
    rw [hlen]
    apply List.ext_getElem
    · simp [hlen]
    · intro i h1 h2
      have hi : i < t.length / 2 := by
        rw [List.length_take] at h2; omega
      have := h i hi
      rw [List.getD_eq_getElem _ _ (by omega), List.getD_eq_getElem _ _ (by omega)] at this
      simpa using this
  rw [e]

theorem scanPeak_first_peak_on (mag : C → M) (t : List C)
    (hmag : ∀ j, j < t.length / 2 → 0 ≤ mag (t.getD j 0)) :
    (t.length / 2 = 0 → (scanPeak mag t).2 = 0) ∧
    (0 < t.length / 2 → (scanPeak mag t).2 < t.length / 2) ∧
    (∀ j, j < t.length / 2 → mag (t.getD j 0) ≤ mag (t.getD (scanPeak mag t).2 0)) ∧
    (∀ j, j < (scanPeak mag t).2 → mag (t.getD j 0) < mag (t.getD (scanPeak mag t).2 0)) := by
  have htake : (t.take (t.length / 2)).length = t.length / 2 := by
    rw [List.length_take]; omega
  have hget : ∀ j, j < t.length / 2 → (t.take (t.length / 2)).getD j 0 = t.getD j 0 := by
    intro j hj
    rw [List.getD_eq_getElem _ _ (by omega), List.getD_eq_getElem _ _ (by omega)]
    simp
  have hmem : ∀ z ∈ t.take (t.length / 2), 0 ≤ mag z := by
    intro z hz
    obtain ⟨j, hj, rfl⟩ := List.getElem_of_mem hz
    rw [htake] at hj
    have := hmag j hj
    rw [← hget j hj, List.getD_eq_getElem _ _ (by omega)] at this
    exact this
  obtain ⟨h0, hle, hne⟩ := scan_spec_on mag (t.take (t.length / 2)) hmem
  by_cases hnn : t.take (t.length / 2) = []
  · have hz : t.length / 2 = 0 := by rw [hnn] at htake; simpa using htake.symm
    have hr : scanPeak mag t = (0, 0) := h0 hnn
    refine ⟨fun _ => by rw [hr], fun h => by omega, fun j hj => by omega, fun j hj => ?_⟩
    rw [hr] at hj
    exact absurd hj (Nat.not_lt_zero j)
  · obtain ⟨h1, h2, h3⟩ := hne hnn
    rw [htake] at h1
    rw [hget _ h1] at h2
    have hr : (List.foldl (scanStep mag) (0, 0) (t.take (t.length / 2)).enum) = scanPeak mag t :=
      rfl
    rw [hr] at h1 h2 h3
    refine ⟨fun hz => by omega, fun _ => h1, fun j hj => ?_, fun j hj => ?_⟩
    · have := hle j (by omega)
      rw [hget j hj, hr] at this
      rw [h2]
      exact this
    · have := h3 j hj
      rw [hget j (lt_trans hj h1)] at this
      rw [h2]
      exact this

theorem scanPeak_first_peak (mag : C → M) (hmag : ∀ z, 0 ≤ mag z) (t : List C) :
    (t.length / 2 = 0 → (scanPeak mag t).2 = 0) ∧
    (0 < t.length / 2 → (scanPeak mag t).2 < t.length / 2) ∧
    (∀ j, j < t.length / 2 → mag (t.getD j 0) ≤ mag (t.getD (scanPeak mag t).2 0)) ∧
    (∀ j, j < (scanPeak mag t).2 → mag (t.getD j 0) < mag (t.getD (scanPeak mag t).2 0)) :=
  scanPeak_first_peak_on mag t (fun _ _ => hmag _)

end ScanLemmas

/-! ## Linearity of the transform -/

section Linearity

variable {C : Type} [CommRing C]

theorem oddSamples_zipWith (f : C → C → C) (x y : List C) (h : x.length = y.length) :
    oddSamples (List.zipWith f x y) = List.zipWith f (oddSamples x) (oddSamples y) := by
  apply List.ext_getElem
  · simp [h]
  · intro i h1 h2
    simp only [length_oddSamples, List.length_zipWith] at h1
    have hx : 2 * i + 1 < x.length := by omega
    have hy : 2 * i + 1 < y.length := by omega
    simp only [oddSamples, List.getElem_map, List.getElem_range, List.getElem_zipWith]
    rw [List.getD_eq_getElem _ _ (by simp; omega), List.getD_eq_getElem _ _ hx,
      List.getD_eq_getElem _ _ hy, List.getElem_zipWith]

theorem evenSamples_zipWith (f : C → C → C) (x y : List C) (h : x.length = y.length) :
    evenSamples (List.zipWith f x y) = List.zipWith f (evenSamples x) (evenSamples y) := by
  apply List.ext_getElem
  · simp [h]
  · intro i h1 h2
    simp only [length_evenSamples, List.length_zipWith] at h1
    have hx : 2 * i < x.length := by omega
    have hy : 2 * i < y.length := by omega
    simp only [evenSamples, List.getElem_map, List.getElem_range, List.getElem_zipWith]
    rw [List.getD_eq_getElem _ _ (by simp; omega), List.getD_eq_getElem _ _ hx,
      List.getD_eq_getElem _ _ hy, List.getElem_zipWith]

theorem FFT_linear (rect : Nat → Nat → C) (a b : C) (n : Nat) :
    ∀ x y : List C, x.length = n → y.length = n → 0 < n →
      ∃ X Y Z, FFT rect x = .ok X ∧ FFT rect y = .ok Y ∧
        FFT rect (List.zipWith (fun u v => a * u + b * v) x y) = .ok Z ∧
        ∀ k, k < n → Z.getD k 0 = a * X.getD k 0 + b * Y.getD k 0 := by
  induction n using Nat.strong_induction_on with
  | _ n ih =>
    intro x y hx hy hn
    by_cases h1 : n = 1
    · subst h1
      obtain ⟨u, rfl⟩ := List.length_eq_one.1 hx
      obtain ⟨v, rfl⟩ := List.length_eq_one.1 hy
      refine ⟨[u], [v], [a * u + b * v], FFT_single _ _, FFT_single _ _, FFT_single _ _, ?_⟩
      intro k hk
      have : k = 0 := by omega
      subst this
      simp
    · have h2 : 2 ≤ n := by omega
      have hxy : x.length = y.length := by rw [hx, hy]
      have hz : (List.zipWith (fun u v => a * u + b * v) x y).length = n := by
        simp [hx, hy]
      obtain ⟨Xo, Yo, Zo, hXo, hYo, hZo, ho⟩ := ih (n / 2) (by omega) (oddSamples x)
        (oddSamples y) (by simp [hx]) (by simp [hy]) (by omega)
      obtain ⟨Xe, Ye, Ze, hXe, hYe, hZe, he⟩ := ih (n / 2) (by omega) (evenSamples x)
        (evenSamples y) (by simp [hx]) (by simp [hy]) (by omega)
      rw [← oddSamples_zipWith _ _ _ hxy] at hZo
      rw [← evenSamples_zipWith _ _ _ hxy] at hZe
      refine ⟨combined rect n Xo Xe (n / 2), combined rect n Yo Ye (n / 2),
        combined rect n Zo Ze (n / 2), ?_, ?_, ?_, ?_⟩
      · rw [FFT_step rect x (by omega), hXo, hXe, ok_bind, ok_bind, hx]
      · rw [FFT_step rect y (by omega), hYo, hYe, ok_bind, ok_bind, hy]
      · rw [FFT_step rect _ (by omega), hZo, hZe, ok_bind, ok_bind, hz]
      · intro k hk
        by_cases hlow : k < n / 2
        · rw [getD_combined_low _ _ _ _ _ hlow, getD_combined_low _ _ _ _ _ hlow,
            getD_combined_low _ _ _ _ _ hlow, ho k hlow, he k hlow]
          ring
        · by_cases hhigh : k < n / 2 + n / 2
          · obtain ⟨j, rfl⟩ : ∃ j, k = j + n / 2 := ⟨k - n / 2, by omega⟩
            have hj : j < n / 2 := by omega
            rw [getD_combined_high _ _ _ _ _ hj, getD_combined_high _ _ _ _ _ hj,
              getD_combined_high _ _ _ _ _ hj, ho j hj, he j hj]
            ring
          · rw [getD_combined_rest _ _ _ _ _ (by omega), getD_combined_rest _ _ _ _ _ (by omega),
              getD_combined_rest _ _ _ _ _ (by omega)]
            ring

/-- C10 (linearity): for every pair of inputs `x`, `y` of the same length
`N = 2^p`, all complex scalars `a`, `b` and every index `k < N`,
`FFT(a*x + b*y)[k] = a*FFT(x)[k] + b*FFT(y)[k]`, with `a*x + b*y` taken
element-wise and the arithmetic exact. -/
theorem FFT_linearity (p : Nat) (x y : List ℂ) (a b : ℂ) (hx : x.length = 2 ^ p)
    (hy : y.length = 2 ^ p) :
    ∃ X Y Z, FFT twiddle x = .ok X ∧ FFT twiddle y = .ok Y ∧
      FFT twiddle (List.zipWith (fun u v => a * u + b * v) x y) = .ok Z ∧
      ∀ k, k < 2 ^ p → Z.getD k 0 = a * X.getD k 0 + b * Y.getD k 0 :=
  FFT_linear twiddle a b (2 ^ p) x y hx hy (pow_pos (by norm_num) p)

/-- Witness of C10 on `x = [1, 0]`, `y = [0, 1]` (`N = 2`) with the scalars
`2` and `3`. -/
theorem FFT_linearity_witness :
    ([1, 0] : List ℂ).length = 2 ^ 1 ∧ ([0, 1] : List ℂ).length = 2 ^ 1 ∧
      ∃ X Y Z, FFT twiddle [1, 0] = .ok X ∧ FFT twiddle [0, 1] = .ok Y ∧
        FFT twiddle (List.zipWith (fun u v => (2 : ℂ) * u + 3 * v) [1, 0] [0, 1]) = .ok Z ∧
        ∀ k, k < 2 ^ 1 → Z.getD k 0 = 2 * X.getD k 0 + 3 * Y.getD k 0 :=
  ⟨rfl, rfl, FFT_linearity 1 [1, 0] [0, 1] 2 3 rfl rfl⟩

end Linearity

/-! ## The transform as a discrete Fourier sum -/

section Fourier

open Complex

theorem twiddle_eq_phase (k n : Nat) : twiddle k n = phase n (-(k : Int)) := by
  unfold twiddle cmplxRect phase
  push_cast
  rw [one_mul]
  congr 1
  ring

theorem phase_add (N : Nat) (a b : Int) : phase N (a + b) = phase N a * phase N b := by
  unfold phase
  rw [← Complex.exp_add]
  congr 1
  push_cast
  ring

theorem phase_zero (N : Nat) : phase N 0 = 1 := by
  simp [phase]

theorem phase_mul_self (N : Nat) (hN : N ≠ 0) (a : Int) : phase N ((N : Int) * a) = 1 := by
  unfold phase
  have h : (N : ℂ) ≠ 0 := by exact_mod_cast hN
  have e : 2 * (Real.pi : ℂ) * I * (((N : Int) * a : Int) : ℂ) / (N : ℂ) =
      (a : ℂ) * (2 * Real.pi * I) := by
    push_cast
    field_simp
    ring
  rw [e, Complex.exp_int_mul_two_pi_mul_I]

theorem phase_mul_nat (N : Nat) (a : Int) (j : Nat) :
    phase N (a * (j : Int)) = phase N a ^ j := by
  unfold phase
  rw [← Complex.exp_nat_mul]
  congr 1
  push_cast
  ring

theorem phase_ne_zero (N : Nat) (a : Int) : phase N a ≠ 0 := Complex.exp_ne_zero _

theorem phase_eq_one_iff (N : Nat) (hN : N ≠ 0) (a : Int) :
    phase N a = 1 ↔ (N : Int) ∣ a := by
  have h : (N : ℂ) ≠ 0 := by exact_mod_cast hN
  unfold phase
  rw [Complex.exp_eq_one_iff]
  constructor
  · rintro ⟨n, hn⟩
    refine ⟨n, ?_⟩
    have h2 : (2 * (Real.pi : ℂ) * I) ≠ 0 := by
      simp [Real.pi_ne_zero, Complex.I_ne_zero]
    have e : (a : ℂ) = (N : ℂ) * (n : ℂ) := by
      field_simp at hn
      have : (2 * (Real.pi : ℂ) * I) * (a : ℂ) = (2 * (Real.pi : ℂ) * I) * ((N : ℂ) * (n : ℂ)) := by
        linear_combination hn
      exact mul_left_cancel₀ h2 this
    exact_mod_cast e
  · rintro ⟨n, rfl⟩
    refine ⟨n, ?_⟩
    push_cast
    field_simp
    ring

theorem geom_phase_zero (N : Nat) (hN : N ≠ 0) (a : Int) (ha : ¬ (N : Int) ∣ a) :
    ∑ j in Finset.range N, phase N a ^ j = 0 := by
  have h1 : phase N a ≠ 1 := fun h => ha ((phase_eq_one_iff N hN a).1 h)
  have h2 : phase N a ^ N = 1 := by
    rw [← phase_mul_nat, mul_comm, phase_mul_self N hN]
  have h3 := geom_sum_mul (phase N a) N
  rw [h2, sub_self] at h3
  rcases mul_eq_zero.1 h3 with h | h
  · exact h
  · exact absurd (sub_eq_zero.1 h) h1

theorem geom_phase_one (N : Nat) : ∑ j in Finset.range N, phase N 0 ^ j = (N : ℂ) := by
  simp [phase_zero]

theorem twiddle_add (a b n : Nat) : twiddle (a + b) n = twiddle a n * twiddle b n := by
  rw [twiddle_eq_phase, twiddle_eq_phase, twiddle_eq_phase, ← phase_add]
  congr 1
  push_cast
  ring

theorem twiddle_double (a M : Nat) : twiddle (2 * a) (2 * M) = twiddle a M := by
  rw [twiddle_eq_phase, twiddle_eq_phase]
  unfold phase
  congr 1
  push_cast
  rw [show 2 * (Real.pi : ℂ) * I * -(2 * (a : ℂ)) = 2 * (2 * (Real.pi : ℂ) * I * -(a : ℂ)) by ring,
    mul_div_mul_left _ _ (two_ne_zero)]

theorem twiddle_period (n b : Nat) (hn : n ≠ 0) : twiddle (n * b) n = 1 := by
  rw [twiddle_eq_phase]
  have : (-((n * b : Nat) : Int)) = (n : Int) * (-(b : Int)) := by push_cast; ring
  rw [this, phase_mul_self n hn]

theorem twiddle_half (M : Nat) (hM : M ≠ 0) : twiddle M (2 * M) = -1 := by
  have h : (M : ℂ) ≠ 0 := by exact_mod_cast hM
  rw [twiddle_eq_phase]
  unfold phase
  have e : 2 * (Real.pi : ℂ) * I * ((-(M : Int) : Int) : ℂ) / ((2 * M : Nat) : ℂ) =
      -((Real.pi : ℂ) * I) := by
    push_cast
    field_simp
    ring
  rw [e, Complex.exp_neg, Complex.exp_pi_mul_I]
  norm_num

theorem sum_range_even_odd (f : Nat → ℂ) (M : Nat) :
    ∑ l in Finset.range (2 * M), f l =
      ∑ j in Finset.range M, f (2 * j) + ∑ j in Finset.range M, f (2 * j + 1) := by
  induction M with
  | zero => simp
  | succ M ih =>
    rw [show 2 * (M + 1) = 2 * M + 1 + 1 by ring, Finset.sum_range_succ, Finset.sum_range_succ,
      ih, Finset.sum_range_succ, Finset.sum_range_succ]
    ring

theorem getD_oddSamples (x : List ℂ) (i : Nat) (hi : i < x.length / 2) :
    (oddSamples x).getD i 0 = x.getD (2 * i + 1) 0 := by
  rw [oddSamples, getD_map_range _ _ _ hi]

theorem getD_evenSamples (x : List ℂ) (i : Nat) (hi : i < x.length / 2) :
    (evenSamples x).getD i 0 = x.getD (2 * i) 0 := by
  rw [evenSamples, getD_map_range _ _ _ hi]

theorem dftReversed_split (x : List ℂ) (M : Nat) (hx : x.length = 2 * M) (k : Nat) :
    dftReversed x k =
      ∑ j in Finset.range M, x.getD (2 * (M - 1 - j) + 1) 0 * twiddle (2 * j * k) (2 * M) +
      ∑ j in Finset.range M, x.getD (2 * (M - 1 - j)) 0 * twiddle ((2 * j + 1) * k) (2 * M) := by
  rw [dftReversed, hx, sum_range_even_odd]
  congr 1
  · apply Finset.sum_congr rfl
    intro j hj
    have := Finset.mem_range.1 hj
    rw [show 2 * M - 1 - 2 * j = 2 * (M - 1 - j) + 1 by omega]
  · apply Finset.sum_congr rfl
    intro j hj
    have := Finset.mem_range.1 hj
    rw [show 2 * M - 1 - (2 * j + 1) = 2 * (M - 1 - j) by omega]

theorem dftReversed_odd (x : List ℂ) (M : Nat) (hx : x.length = 2 * M) (k : Nat) :
    dftReversed (oddSamples x) k =
      ∑ j in Finset.range M, x.getD (2 * (M - 1 - j) + 1) 0 * twiddle (2 * j * k) (2 * M) := by
  have hl : (oddSamples x).length = M := by rw [length_oddSamples, hx]; omega
  rw [dftReversed, hl]
  apply Finset.sum_congr rfl
  intro j hj
  have := Finset.mem_range.1 hj
  rw [getD_oddSamples x _ (by omega), mul_assoc 2 j k, twiddle_double]

theorem dftReversed_even (x : List ℂ) (M : Nat) (hx : x.length = 2 * M) (k : Nat) :
    twiddle k (2 * M) * dftReversed (evenSamples x) k =
      ∑ j in Finset.range M,
        x.getD (2 * (M - 1 - j)) 0 * twiddle ((2 * j + 1) * k) (2 * M) := by
  have hl : (evenSamples x).length = M := by rw [length_evenSamples, hx]; omega
  rw [dftReversed, hl, Finset.mul_sum]
  apply Finset.sum_congr rfl
  intro j hj
  have := Finset.mem_range.1 hj
  rw [getD_evenSamples x _ (by omega), show (2 * j + 1) * k = 2 * (j * k) + k by ring,
    twiddle_add, twiddle_double]
  ring

theorem FFT_eq_dftReversed (p : Nat) :
    ∀ x : List ℂ, x.length = 2 ^ p →
      ∃ X, FFT twiddle x = .ok X ∧ X.length = 2 ^ p ∧
        ∀ k, k < 2 ^ p → X.getD k 0 = dftReversed x k := by
  induction p with
  | zero =>
    intro x hx
    obtain ⟨u, rfl⟩ := List.length_eq_one.1 (by simpa using hx)
    refine ⟨[u], FFT_single _ _, rfl, ?_⟩
    intro k hk
    have : k = 0 := by simpa using hk
    subst this
    simp [dftReversed, twiddle, cmplxRect]
  | succ p ih =>
    intro x hx
    have hM : 0 < 2 ^ p := pow_pos (by norm_num) p
    have hx2 : x.length = 2 * 2 ^ p := by rw [hx, pow_succ]; ring
    have hhalf : x.length / 2 = 2 ^ p := by omega
    obtain ⟨Fe, hFe, hFel, hFek⟩ := ih (oddSamples x) (by rw [length_oddSamples, hhalf])
    obtain ⟨Fo, hFo, hFol, hFok⟩ := ih (evenSamples x) (by rw [length_evenSamples, hhalf])
    refine ⟨combined twiddle x.length Fe Fo (x.length / 2), ?_, ?_, ?_⟩
    · rw [FFT_step twiddle x (by omega), hFe, hFo, ok_bind, ok_bind]
    · rw [length_combined, hx]
    · intro k hk
      rw [dftReversed_split x (2 ^ p) hx2]
      by_cases hlow : k < 2 ^ p
      · rw [getD_combined_low _ _ _ _ _ (by omega), hFek k hlow, hFok k hlow, hx2,
          dftReversed_odd x _ hx2, dftReversed_even x _ hx2]
      · obtain ⟨j, rfl⟩ : ∃ j, k = j + x.length / 2 := ⟨k - x.length / 2, by omega⟩
        have hj : j < 2 ^ p := by rw [pow_succ] at hk; omega
        rw [getD_combined_high _ _ _ _ _ (by omega), hFek j hj, hFok j hj, hhalf, hx2,
          dftReversed_odd x _ hx2, dftReversed_even x _ hx2, sub_eq_add_neg,
          ← Finset.sum_neg_distrib]
        congr 1
        · apply Finset.sum_congr rfl
          intro i _
          rw [show 2 * i * (j + 2 ^ p) = 2 * i * j + 2 * 2 ^ p * i by ring, twiddle_add,
            twiddle_period _ _ (by omega), mul_one]
        · apply Finset.sum_congr rfl
          intro i _
          rw [show (2 * i + 1) * (j + 2 ^ p) = ((2 * i + 1) * j + 2 * 2 ^ p * i) + 2 ^ p by ring,
            twiddle_add, twiddle_add, twiddle_period _ _ (by omega), twiddle_half _ (by omega)]
          ring

theorem length_sineWindow (N m : Nat) : (sineWindow N m).length = N := by
  simp [sineWindow]

theorem getD_sineWindow (N m l : Nat) (hl : l < N) :
    (sineWindow N m).getD l 0 =
      (phase N (-((m : Int) * (l : Int))) - phase N ((m : Int) * (l : Int))) * I / 2 := by
  rw [sineWindow, getD_map_range _ _ _ hl, Complex.ofReal_sin, Complex.sin]
  unfold phase
  have e1 : -((((2 * Real.pi * (m : ℝ) * (l : ℝ) / (N : ℝ) : ℝ)) : ℂ)) * I =
      2 * (Real.pi : ℂ) * I * ((-((m : Int) * (l : Int)) : Int) : ℂ) / (N : ℂ) := by
    push_cast; ring
  have e2 : ((((2 * Real.pi * (m : ℝ) * (l : ℝ) / (N : ℝ) : ℝ)) : ℂ)) * I =
      2 * (Real.pi : ℂ) * I * (((m : Int) * (l : Int) : Int) : ℂ) / (N : ℂ) := by
    push_cast; ring
  rw [e1, e2]

theorem sine_term (N m k j : Nat) (hN : N ≠ 0) (hj : j < N) :
    (sineWindow N m).getD (N - 1 - j) 0 * twiddle (j * k) N =
      I / 2 * (phase N m * phase N ((m : Int) - (k : Int)) ^ j -
        phase N (-(m : Int)) * phase N (-((m : Int) + (k : Int))) ^ j) := by
  have hcast : ((N - 1 - j : Nat) : Int) = (N : Int) - 1 - (j : Int) := by omega
  have h1 : phase N (-((m : Int) * ((N - 1 - j : Nat) : Int))) * phase N (-((j * k : Nat) : Int)) =
      phase N m * phase N ((m : Int) - (k : Int)) ^ j := by
    rw [← phase_mul_nat, ← phase_add, ← phase_add, hcast,
      show -((m : Int) * ((N : Int) - 1 - (j : Int))) + -((j * k : Nat) : Int) =
        ((m : Int) + ((m : Int) - (k : Int)) * (j : Int)) + (N : Int) * (-(m : Int)) by
        push_cast; ring,
      phase_add, phase_mul_self N hN, mul_one]
  have h2 : phase N ((m : Int) * ((N - 1 - j : Nat) : Int)) * phase N (-((j * k : Nat) : Int)) =
      phase N (-(m : Int)) * phase N (-((m : Int) + (k : Int))) ^ j := by
    rw [← phase_mul_nat, ← phase_add, ← phase_add, hcast,
      show (m : Int) * ((N : Int) - 1 - (j : Int)) + -((j * k : Nat) : Int) =
        (-(m : Int) + -((m : Int) + (k : Int)) * (j : Int)) + (N : Int) * (m : Int) by
        push_cast; ring,
      phase_add, phase_mul_self N hN, mul_one]
  rw [getD_sineWindow N m _ (by omega), twiddle_eq_phase, ← h1, ← h2]
  ring

theorem dftReversed_sine (N m k : Nat) (hN : N ≠ 0) :
    dftReversed (sineWindow N m) k =
      I / 2 * (phase N m * ∑ j in Finset.range N, phase N ((m : Int) - (k : Int)) ^ j -
        phase N (-(m : Int)) * ∑ j in Finset.range N, phase N (-((m : Int) + (k : Int))) ^ j) := by
  rw [dftReversed, length_sineWindow, Finset.mul_sum, Finset.mul_sum, ← Finset.sum_sub_distrib,
    Finset.mul_sum]
  apply Finset.sum_congr rfl
  intro j hj
  rw [sine_term N m k j hN (Finset.mem_range.1 hj)]

theorem dftReversed_sine_off (N m k : Nat) (hm : 0 < m) (hmN : m < N / 2) (hk : k < N / 2)
    (hkm : k ≠ m) : dftReversed (sineWindow N m) k = 0 := by
  have hN : N ≠ 0 := by omega
  have h1 : ¬ (N : Int) ∣ ((m : Int) - (k : Int)) := by
    intro h
    have := Int.eq_zero_of_abs_lt_dvd h (by rw [abs_lt]; constructor <;> omega)
    omega
  have h2 : ¬ (N : Int) ∣ (-((m : Int) + (k : Int))) := by
    intro h
    have := Int.eq_zero_of_abs_lt_dvd h (by rw [abs_lt]; constructor <;> omega)
    omega
  rw [dftReversed_sine N m k hN, geom_phase_zero N hN _ h1, geom_phase_zero N hN _ h2]
  ring

theorem dftReversed_sine_peak (N m : Nat) (hm : 0 < m) (hmN : m < N / 2) :
    dftReversed (sineWindow N m) m ≠ 0 := by
  have hN : N ≠ 0 := by omega
  have h2 : ¬ (N : Int) ∣ (-((m : Int) + (m : Int))) := by
    intro h
    have := Int.eq_zero_of_abs_lt_dvd h (by rw [abs_lt]; constructor <;> omega)
    omega
  rw [dftReversed_sine N m m hN, geom_phase_zero N hN _ h2, sub_self, geom_phase_one]
  have hNc : (N : ℂ) ≠ 0 := by exact_mod_cast hN
  simp [phase_ne_zero, hNc, Complex.I_ne_zero]

theorem magnitude_eq_zero_iff (z : ℂ) : magnitude z = 0 ↔ z = 0 := by
  unfold magnitude
  rw [Real.sqrt_eq_zero (by nlinarith [sq_nonneg z.re, sq_nonneg z.im])]
  constructor
  · intro h
    apply Complex.ext
    · simp; nlinarith [sq_nonneg z.re, sq_nonneg z.im]
    · simp; nlinarith [sq_nonneg z.re, sq_nonneg z.im]
  · rintro rfl
    simp

theorem sine_scan (p m : Nat) (hN : 4 ≤ 2 ^ p) (hm0 : 0 < m) (hm : m < 2 ^ p / 2) :
    ∃ X, FFT twiddle (sineWindow (2 ^ p) m) = .ok X ∧
      (∀ i, i < 2 ^ p / 2 → i ≠ m → magnitude (X.getD i 0) < magnitude (X.getD m 0)) ∧
      (scanPeak magnitude X).2 = m := by
  obtain ⟨X, hX, hXl, hXk⟩ := FFT_eq_dftReversed p (sineWindow (2 ^ p) m)
    (length_sineWindow _ _)
  have hpeak : 0 < magnitude (X.getD m 0) := by
    rcases lt_or_eq_of_le (magnitude_nonneg (X.getD m 0)) with h | h
    · exact h
    · exfalso
      have hz := (magnitude_eq_zero_iff _).1 h.symm
      rw [hXk m (by omega)] at hz
      exact dftReversed_sine_peak (2 ^ p) m hm0 hm hz
  have hoff : ∀ i, i < 2 ^ p / 2 → i ≠ m → magnitude (X.getD i 0) = 0 := by
    intro i hi him
    rw [magnitude_eq_zero_iff, hXk i (by omega)]
    exact dftReversed_sine_off (2 ^ p) m i hm0 hm hi him
  obtain ⟨-, h1, h2, -⟩ := scanPeak_first_peak magnitude magnitude_nonneg X
  rw [hXl] at h1 h2
  have hidx : (scanPeak magnitude X).2 = m := by
    by_contra hne
    have hz := hoff _ (h1 (by omega)) hne
    have := h2 m hm
    rw [hz] at this
    linarith
  refine ⟨X, hX, ?_, hidx⟩
  intro i hi him
  rw [hoff i hi him]
  exact hpeak

end Fourier

/-! ## The dominant frequency in `float64` arithmetic -/

section RoundedTransform

variable {K : Type} [LinearOrderedField K]

theorem divWith_unrounded (fl : K → GoFloat K) (a b : K) (hb : b ≠ 0)
    (ha : fl a = .fin a) (hq : fl (a / b) = .fin (a / b)) :
    GoFloat.divWith fl (fl a) (.fin b) = .fin (a / b) := by
  rw [ha, GoFloat.divWith, if_neg hb, hq]

theorem bitLength_le (fuel : Nat) : ∀ n k : Nat, n < 2 ^ k → bitLength fuel n ≤ k := by
  induction fuel with
  | zero => intro n k _; simp [bitLength]
  | succ fuel ih =>
    intro n k h
    rw [bitLength]
    split_ifs with h0
    · omega
    · cases k with
      | zero => rw [pow_zero] at h; omega
      | succ k =>
        have : n / 2 < 2 ^ k := by
          rw [pow_succ] at h; omega
        have := ih (n / 2) k this
        omega

variable {C : Type} [Add C] [Sub C] [Mul C] [Zero C] {M : Type} [LinearOrder M] [Zero M]

theorem CalculateDominantFrequencyBinWith_eq (fl : K → GoFloat K) (rect : Nat → Nat → C)
    (mag : C → M) (samples transformed : List C) (sampleRate windowSize : K)
    (h : FFT rect samples = .ok transformed) :
    CalculateDominantFrequencyBinWith fl rect mag samples sampleRate windowSize =
      .ok (GoFloat.divWith fl (fl (((scanPeak mag transformed).2 : K) * sampleRate))
        (.fin windowSize)) := by
  rw [CalculateDominantFrequencyBinWith, h, ok_bind]
  rfl

theorem divWith_fin (a b : K) :
    GoFloat.divWith GoFloat.fin (.fin a) (.fin b) = GoFloat.div a b := rfl

/-- Without rounding, `CalculateDominantFrequencyBinWith` is
`CalculateDominantFrequencyBin`. -/
theorem CalculateDominantFrequencyBinWith_fin (rect : Nat → Nat → C) (mag : C → K)
    (samples : List C) (sampleRate windowSize : K) :
    CalculateDominantFrequencyBinWith GoFloat.fin rect mag samples sampleRate windowSize =
      CalculateDominantFrequencyBin rect mag samples sampleRate windowSize := rfl

/-- C3, amended: for every sample window of length `N ≥ 1`, every `sampleRate`
and every `windowSize`, whenever the magnitudes that the program computes for
the bins below `N/2` are numbers (not NaN), `CalculateDominantFrequencyBin`
returns the `float64` value of `float64(iStar) * sampleRate / windowSize`,
product and quotient rounded as `float64` rounds them; this is the number
`iStar * sampleRate / windowSize` whenever `windowSize ≠ 0` and neither
operation rounds or overflows.  Here `iStar` is the smallest index in `[0, N/2)`
at which the computed magnitude of `FFT(samples)[i]` equals the maximum of the
computed magnitudes over `[0, N/2)` (`iStar = 0` when that range is empty), and
the result is the same for any spectrum that agrees with `FFT(samples)` below
`N/2`.  The arithmetic of the transform, the magnitude `mag` and the rounding
`fl` are arbitrary. -/
theorem CalculateDominantFrequencyBinWith_first_peak (fl : K → GoFloat K)
    (rect : Nat → Nat → C) (mag : C → M) (samples : List C) (sampleRate windowSize : K)
    (hlen : 1 ≤ samples.length) :
    ∃ transformed : List C,
      FFT rect samples = .ok transformed ∧ transformed.length = samples.length ∧
      ((∀ j, j < samples.length / 2 → 0 ≤ mag (transformed.getD j 0)) →
        ∃ iStar : Nat,
          CalculateDominantFrequencyBinWith fl rect mag samples sampleRate windowSize =
            .ok (GoFloat.divWith fl (fl ((iStar : K) * sampleRate)) (.fin windowSize)) ∧
          (windowSize ≠ 0 →
            fl ((iStar : K) * sampleRate) = .fin ((iStar : K) * sampleRate) →
            fl ((iStar : K) * sampleRate / windowSize) =
              .fin ((iStar : K) * sampleRate / windowSize) →
            CalculateDominantFrequencyBinWith fl rect mag samples sampleRate windowSize =
              .ok (.fin ((iStar : K) * sampleRate / windowSize))) ∧
          (samples.length / 2 = 0 → iStar = 0) ∧
          (0 < samples.length / 2 → iStar < samples.length / 2) ∧
          (∀ j, j < samples.length / 2 →
            mag (transformed.getD j 0) ≤ mag (transformed.getD iStar 0)) ∧
          (∀ j, j < iStar → mag (transformed.getD j 0) < mag (transformed.getD iStar 0)) ∧
          (∀ other : List C, other.length = transformed.length →
            (∀ j, j < samples.length / 2 → other.getD j 0 = transformed.getD j 0) →
            (scanPeak mag other).2 = iStar)) := by
  obtain ⟨transformed, hT, hTl⟩ := FFT_ok rect samples hlen
  refine ⟨transformed, hT, hTl, ?_⟩
  intro hmag
  obtain ⟨h0, h1, h2, h3⟩ := scanPeak_first_peak_on mag transformed (by rw [hTl]; exact hmag)
  rw [hTl] at h0 h1 h2
  refine ⟨(scanPeak mag transformed).2, ?_, ?_, h0, h1, h2, h3, ?_⟩
  · exact CalculateDominantFrequencyBinWith_eq fl rect mag _ _ _ _ hT
  · intro hw hp hq
    rw [CalculateDominantFrequencyBinWith_eq fl rect mag _ _ _ _ hT,
      divWith_unrounded fl _ _ hw hp hq]
  · intro other hol hag
    rw [scanPeak_congr mag transformed other hol (by rw [hTl]; exact hag)]

variable [FloorRing K]

theorem round64_of_large (x : K) (h : 2 ^ 1024 - 2 ^ 970 ≤ x) : round64 x = .posInf := by
  have hpos : (0 : K) < 2 ^ 1024 - 2 ^ 970 := by
    have : (2 : K) ^ 970 < 2 ^ 1024 := pow_lt_pow_right₀ (by norm_num) (by norm_num)
    linarith
  have hx : 0 < x := lt_of_lt_of_le hpos h
  rw [round64, abs_of_pos hx, if_pos h, if_pos hx]

theorem roundHalfEven_intCast (n : Int) : roundHalfEven ((n : Int) : K) = n := by
  simp [roundHalfEven]

theorem floorLog2_le (x : K) (h1 : 1 ≤ x) (k : Nat) (hk : x < 2 ^ (k + 1)) :
    floorLog2 x ≤ k := by
  rw [floorLog2, if_pos h1]
  have hfl : ⌊x⌋₊ < 2 ^ (k + 1) := by
    have : (⌊x⌋₊ : K) < ((2 ^ (k + 1) : Nat) : K) := by
      push_cast
      exact lt_of_le_of_lt (Nat.floor_le (by linarith)) hk
    exact_mod_cast this
  have := bitLength_le ⌊x⌋₊ ⌊x⌋₊ (k + 1) hfl
  omega

/-- Integers below `2 ^ 53` in absolute value are `float64` values: rounding
leaves them unchanged. -/
theorem round64_intCast (n : Int) (hn : |n| < 2 ^ 53) : round64 ((n : Int) : K) = .fin n := by
  by_cases h0 : n = 0
  · subst h0
    have hpos : ¬ (2 : K) ^ 1024 - 2 ^ 970 ≤ |((0 : Int) : K)| := by
      have : (2 : K) ^ 970 < 2 ^ 1024 := pow_lt_pow_right₀ (by norm_num) (by norm_num)
      simp only [Int.cast_zero, abs_zero, not_le]
      linarith
    rw [round64, if_neg hpos, if_pos (by simp)]
    simp
  · have habs : |((n : Int) : K)| < 2 ^ 53 := by
      have : ((|n| : Int) : K) < ((2 ^ 53 : Int) : K) := by exact_mod_cast hn
      rw [Int.cast_abs, Int.cast_pow] at this
      exact_mod_cast this
    have hone : (1 : K) ≤ |((n : Int) : K)| := by
      have : (1 : Int) ≤ |n| := Int.one_le_abs h0
      have : ((1 : Int) : K) ≤ ((|n| : Int) : K) := by exact_mod_cast this
      simpa using this
    have hlarge : ¬ (2 : K) ^ 1024 - 2 ^ 970 ≤ |((n : Int) : K)| := by
      have h1 : (2 : K) ^ 970 * 2 ≤ 2 ^ 1024 := by
        rw [← pow_succ]; exact pow_le_pow_right₀ (by norm_num) (by norm_num)
      have h2 : (2 : K) ^ 53 ≤ 2 ^ 970 := pow_le_pow_right₀ (by norm_num) (by norm_num)
      rw [not_le]
      linarith
    have hx0 : ((n : Int) : K) ≠ 0 := by exact_mod_cast h0
    have hlog := floorLog2_le |((n : Int) : K)| hone 52 habs
    rw [round64, if_neg hlarge, if_neg hx0]
    generalize he : max (floorLog2 |((n : Int) : K)| - 52) (-1074) = e
    have he0 : e ≤ 0 := by rw [← he]; omega
    obtain ⟨k, rfl⟩ : ∃ k : Nat, e = -(k : Int) := ⟨(-e).toNat, by omega⟩
    have h2k : (2 : K) ^ k ≠ 0 := pow_ne_zero _ (by norm_num)
    have hq : ((n : Int) : K) / 2 ^ (-(k : Int)) = ((n * 2 ^ k : Int) : K) := by
      rw [zpow_neg, zpow_natCast, div_inv_eq_mul]
      push_cast
      ring
    rw [hq, roundHalfEven_intCast, zpow_neg, zpow_natCast]
    push_cast
    rw [mul_assoc, mul_inv_cancel₀ h2k, mul_one]

end RoundedTransform

section RoundedClaims

/-- Witness of the amended C3 in `float64` arithmetic, on the four-sample window
`tieWindow` at `sampleRate = 2000`, `windowSize = 4`. -/
theorem CalculateDominantFrequencyBinWith_first_peak_witness :
    1 ≤ (tieWindow.map Complex128.ofReal).length ∧
    ∃ transformed : List (Complex128 ℚ),
      FFT quarterRect (tieWindow.map Complex128.ofReal) = .ok transformed ∧
      transformed.length = (tieWindow.map Complex128.ofReal).length ∧
      ((∀ j, j < (tieWindow.map Complex128.ofReal).length / 2 →
          0 ≤ magnitude64 (transformed.getD j 0)) →
        ∃ iStar : Nat,
          CalculateDominantFrequencyBinWith round64 quarterRect magnitude64
              (tieWindow.map Complex128.ofReal) 2000 4 =
            .ok (GoFloat.divWith round64 (round64 ((iStar : ℚ) * 2000)) (.fin 4)) ∧
          ((4 : ℚ) ≠ 0 →
            round64 ((iStar : ℚ) * 2000) = .fin ((iStar : ℚ) * 2000) →
            round64 ((iStar : ℚ) * 2000 / 4) = .fin ((iStar : ℚ) * 2000 / 4) →
            CalculateDominantFrequencyBinWith round64 quarterRect magnitude64
                (tieWindow.map Complex128.ofReal) 2000 4 =
              .ok (.fin ((iStar : ℚ) * 2000 / 4))) ∧
          ((tieWindow.map Complex128.ofReal).length / 2 = 0 → iStar = 0) ∧
          (0 < (tieWindow.map Complex128.ofReal).length / 2 →
            iStar < (tieWindow.map Complex128.ofReal).length / 2) ∧
          (∀ j, j < (tieWindow.map Complex128.ofReal).length / 2 →
            magnitude64 (transformed.getD j 0) ≤ magnitude64 (transformed.getD iStar 0)) ∧
          (∀ j, j < iStar →
            magnitude64 (transformed.getD j 0) < magnitude64 (transformed.getD iStar 0)) ∧
          (∀ other : List (Complex128 ℚ), other.length = transformed.length →
            (∀ j, j < (tieWindow.map Complex128.ofReal).length / 2 →
              other.getD j 0 = transformed.getD j 0) →
            (scanPeak magnitude64 other).2 = iStar)) :=
  ⟨by decide,
    CalculateDominantFrequencyBinWith_first_peak round64 quarterRect magnitude64
      (tieWindow.map Complex128.ofReal) 2000 4 (by decide)⟩

/-- C3 fails on the code: on the window `sin(2π·3·j/8)`, `j < 8`, the magnitude
of `FFT` over `[0, 4)` is largest at `iStar = 3` only; with
`sampleRate = 2 ^ 1023` and `windowSize = 8` the number
`iStar * sampleRate / windowSize` is `3 · 2 ^ 1020`, inside the `float64` range,
but the product `float64(3) * sampleRate` overflows and the code returns
`+Inf`. -/
theorem CalculateDominantFrequencyBin_overflow :
    1 ≤ (sineWindow (2 ^ 3) 3).length ∧ ((2 ^ 3 : Nat) : ℝ) ≠ 0 ∧
      (∃ X, FFT twiddle (sineWindow (2 ^ 3) 3) = .ok X ∧
        ∀ i, i < 2 ^ 3 / 2 → i ≠ 3 → magnitude (X.getD i 0) < magnitude (X.getD 3 0)) ∧
      (3 : ℝ) * 2 ^ 1023 / ((2 ^ 3 : Nat) : ℝ) < 2 ^ 1024 - 2 ^ 970 ∧
      CalculateDominantFrequencyBinWith round64 twiddle magnitude (sineWindow (2 ^ 3) 3)
          (2 ^ 1023) ((2 ^ 3 : Nat) : ℝ) = .ok .posInf := by
  obtain ⟨X, hX, hpeak, hidx⟩ := sine_scan 3 3 (by decide) (by decide) (by decide)
  have h970 : (2 : ℝ) ^ 1024 = 2 ^ 970 * 2 ^ 54 := by rw [← pow_add]
  have h1023 : (2 : ℝ) ^ 1024 = 2 * 2 ^ 1023 := by rw [← pow_succ']
  have hp : (0 : ℝ) < 2 ^ 970 := by positivity
  have hp' : (0 : ℝ) < 2 ^ 1023 := by positivity
  refine ⟨by rw [length_sineWindow]; decide, by norm_num, ⟨X, hX, hpeak⟩, ?_, ?_⟩
  · have e : (3 : ℝ) * 2 ^ 1023 / ((2 ^ 3 : Nat) : ℝ) = 3 / 16 * 2 ^ 1024 := by
      rw [h1023]; push_cast; ring
    rw [e, h970]
    nlinarith
  · rw [CalculateDominantFrequencyBinWith_eq round64 twiddle magnitude _ _ _ _ hX, hidx,
      round64_of_large _ (by push_cast; linarith)]
    simp [GoFloat.divWith]

/-- C2 fails on the code: for `N = 8`, `m = 2` and `sampleRate = 2 ^ 1023 > 0`
the frequency `f = m·sampleRate/N` is `2 ^ 1021`, inside the `float64` range,
but the product `float64(2) * sampleRate` overflows and
`CalculateDominantFrequencyBin(x, sampleRate, N)` is `+Inf`. -/
theorem CalculateDominantFrequencyBin_sine_overflow :
    4 ≤ 2 ^ 3 ∧ (0 : ℝ) < 2 ^ 1023 ∧ 0 < 2 ∧ 2 < 2 ^ 3 / 2 ∧
      ((2 : Nat) : ℝ) * 2 ^ 1023 / ((2 ^ 3 : Nat) : ℝ) = 2 ^ 1021 ∧
      CalculateDominantFrequencyBinWith round64 twiddle magnitude (sineWindow (2 ^ 3) 2)
          (2 ^ 1023) ((2 ^ 3 : Nat) : ℝ) = .ok .posInf := by
  obtain ⟨X, hX, -, hidx⟩ := sine_scan 3 2 (by decide) (by decide) (by decide)
  have h1023 : (2 : ℝ) ^ 1024 = 2 * 2 ^ 1023 := by rw [← pow_succ']
  have hp : (0 : ℝ) < 2 ^ 970 := by positivity
  refine ⟨by decide, by positivity, by decide, by decide, ?_, ?_⟩
  · have e : (2 : ℝ) ^ 1023 = 2 ^ 1021 * 2 ^ 2 := by rw [← pow_add]
    rw [e]; push_cast; ring
  · rw [CalculateDominantFrequencyBinWith_eq round64 twiddle magnitude _ _ _ _ hX, hidx,
      round64_of_large _ (by push_cast; linarith)]
    simp [GoFloat.divWith]

/-- C2, amended: for every `N = 2^p ≥ 4`, every bin `m` with `0 < m < N/2` and
every `sampleRate > 0` for which the `float64` product `float64(m) * sampleRate`
and its quotient by `N` are formed without rounding or overflow, on the window
`x[j] = sin(2π·m·j/N)` the magnitude of `FFT(x)` over `[0, N/2)` is largest
exactly at `i = m = round(f·N/sampleRate)`, where `f = m·sampleRate/N`, and
`CalculateDominantFrequencyBin(x, sampleRate, N) = f`.  The rounding `fl` is
arbitrary. -/
theorem CalculateDominantFrequencyBinWith_sine_peak (fl : ℝ → GoFloat ℝ) (p m : Nat)
    (sampleRate : ℝ) (hN : 4 ≤ 2 ^ p) (hsr : 0 < sampleRate) (hm0 : 0 < m)
    (hm : m < 2 ^ p / 2) (hprod : fl ((m : ℝ) * sampleRate) = .fin ((m : ℝ) * sampleRate))
    (hquot : fl ((m : ℝ) * sampleRate / ((2 ^ p : Nat) : ℝ)) =
      .fin ((m : ℝ) * sampleRate / ((2 ^ p : Nat) : ℝ))) :
    ∃ X, FFT twiddle (sineWindow (2 ^ p) m) = .ok X ∧
      (∀ i, i < 2 ^ p / 2 → i ≠ m → magnitude (X.getD i 0) < magnitude (X.getD m 0)) ∧
      round ((m : ℝ) * sampleRate / ((2 ^ p : Nat) : ℝ) * ((2 ^ p : Nat) : ℝ) / sampleRate) =
        (m : Int) ∧
      CalculateDominantFrequencyBinWith fl twiddle magnitude (sineWindow (2 ^ p) m) sampleRate
          ((2 ^ p : Nat) : ℝ) =
        .ok (.fin ((m : ℝ) * sampleRate / ((2 ^ p : Nat) : ℝ))) := by
  obtain ⟨X, hX, hpeak, hidx⟩ := sine_scan p m hN hm0 hm
  have hNr : ((2 ^ p : Nat) : ℝ) ≠ 0 := by
    have : (2 ^ p : Nat) ≠ 0 := by omega
    exact_mod_cast this
  refine ⟨X, hX, hpeak, ?_, ?_⟩
  · have e : (m : ℝ) * sampleRate / ((2 ^ p : Nat) : ℝ) * ((2 ^ p : Nat) : ℝ) / sampleRate =
        ((m : Int) : ℝ) := by
      field_simp
    rw [e, round_intCast]
  · rw [CalculateDominantFrequencyBinWith_eq fl twiddle magnitude _ _ _ _ hX, hidx,
      divWith_unrounded fl _ _ hNr hprod hquot]

/-- Witness of the amended C2 in `float64` arithmetic for `N = 4`, `m = 1` and
`sampleRate = 2000`: the window `sin(2π·j/4)`, `j < 4`. -/
theorem CalculateDominantFrequencyBinWith_sine_peak_witness :
    4 ≤ 2 ^ 2 ∧ (0 : ℝ) < 2000 ∧ 0 < 1 ∧ 1 < 2 ^ 2 / 2 ∧
    round64 (((1 : Nat) : ℝ) * 2000) = .fin (((1 : Nat) : ℝ) * 2000) ∧
    round64 (((1 : Nat) : ℝ) * 2000 / ((2 ^ 2 : Nat) : ℝ)) =
      .fin (((1 : Nat) : ℝ) * 2000 / ((2 ^ 2 : Nat) : ℝ)) ∧
    ∃ X, FFT twiddle (sineWindow (2 ^ 2) 1) = .ok X ∧
      (∀ i, i < 2 ^ 2 / 2 → i ≠ 1 → magnitude (X.getD i 0) < magnitude (X.getD 1 0)) ∧
      round (((1 : Nat) : ℝ) * 2000 / ((2 ^ 2 : Nat) : ℝ) * ((2 ^ 2 : Nat) : ℝ) / 2000) =
        ((1 : Nat) : Int) ∧
      CalculateDominantFrequencyBinWith round64 twiddle magnitude (sineWindow (2 ^ 2) 1) 2000
          ((2 ^ 2 : Nat) : ℝ) =
        .ok (.fin (((1 : Nat) : ℝ) * 2000 / ((2 ^ 2 : Nat) : ℝ))) := by
  have e1 : ((1 : Nat) : ℝ) * 2000 = ((2000 : Int) : ℝ) := by norm_num
  have e2 : ((1 : Nat) : ℝ) * 2000 / ((2 ^ 2 : Nat) : ℝ) = ((500 : Int) : ℝ) := by norm_num
  have h1 : round64 (((1 : Nat) : ℝ) * 2000) = .fin (((1 : Nat) : ℝ) * 2000) := by
    rw [e1]; exact round64_intCast 2000 (by norm_num)
  have h2 : round64 (((1 : Nat) : ℝ) * 2000 / ((2 ^ 2 : Nat) : ℝ)) =
      .fin (((1 : Nat) : ℝ) * 2000 / ((2 ^ 2 : Nat) : ℝ)) := by
    rw [e2]; exact round64_intCast 500 (by norm_num)
  exact ⟨by decide, by norm_num, by decide, by decide, h1, h2,
    CalculateDominantFrequencyBinWith_sine_peak round64 2 1 2000 (by decide) (by norm_num)
      (by decide) (by decide) h1 h2⟩

end RoundedClaims

/-! ## The no-signal sentinel and the unclamped rate index -/

section MapperMore

variable {K : Type} [LinearOrderedField K] [FloorRing K]

/-- C13: for every note table, the empty table included, `HandleFrequency(0)`
returns `("", "", "", 0)`; the result does not depend on the table, and on the
empty table, where any read would fault, it is still returned. -/
theorem HandleFrequency_no_signal (Notes : List (Note K)) :
    HandleFrequency Notes 0 = .ok ("", "", "", some 0) ∧
      HandleFrequency ([] : List (Note K)) 0 = .ok ("", "", "", some 0) :=
  ⟨HandleFrequency_zero Notes, HandleFrequency_zero []⟩

/-- In exact arithmetic: for a table sorted strictly ascending and a nonzero `f`
whose nearest entry `c` is interior, the rate index is
`⌊((f − (C − (C − L)/2)) / ((R − L)/2)) · 9⌋`; it lies in `[0, 9]` and equals `9`
exactly when `f` is the midpoint `(C + R)/2`. -/
theorem HandleFrequency_unclamped (Notes : List (Note K)) (f : K) (c : Nat)
    (hs : Ascending Notes) (hf : f ≠ 0) (hc : IsNearest Notes f c) (hpos : 0 < c)
    (hlast : c + 1 < Notes.length) :
    HandleFrequency Notes f =
        .ok (nameAt Notes (c - 1), nameAt Notes c, nameAt Notes (c + 1),
          some ⌊(f - (frequencyAt Notes c -
              (frequencyAt Notes c - frequencyAt Notes (c - 1)) / 2)) /
            ((frequencyAt Notes (c + 1) - frequencyAt Notes (c - 1)) / 2) * 9⌋) ∧
      0 ≤ ⌊(f - (frequencyAt Notes c -
            (frequencyAt Notes c - frequencyAt Notes (c - 1)) / 2)) /
          ((frequencyAt Notes (c + 1) - frequencyAt Notes (c - 1)) / 2) * 9⌋ ∧
      ⌊(f - (frequencyAt Notes c -
            (frequencyAt Notes c - frequencyAt Notes (c - 1)) / 2)) /
          ((frequencyAt Notes (c + 1) - frequencyAt Notes (c - 1)) / 2) * 9⌋ ≤ 9 ∧
      (⌊(f - (frequencyAt Notes c -
            (frequencyAt Notes c - frequencyAt Notes (c - 1)) / 2)) /
          ((frequencyAt Notes (c + 1) - frequencyAt Notes (c - 1)) / 2) * 9⌋ = 9 ↔
        f = (frequencyAt Notes c + frequencyAt Notes (c + 1)) / 2) := by
  obtain ⟨hlo, hhi⟩ := nearest_bounds Notes f c hs hc hpos hlast
  have hLC := frequencyAt_lt Notes hs (c - 1) c (by omega) (by omega)
  have hCR := frequencyAt_lt Notes hs c (c + 1) (by omega) hlast
  have hLR := lt_trans hLC hCR
  obtain ⟨h0, h9, h8⟩ := rate_floor_range (frequencyAt Notes (c - 1)) (frequencyAt Notes c)
    (frequencyAt Notes (c + 1)) f hLR hlo hhi
  refine ⟨?_, h0, h9, ?_, ?_⟩
  · rw [HandleFrequency_between Notes f c hf hc hpos hlast,
      rateIndex_eq _ _ _ _ (ne_of_lt hLR) (by omega) (by omega)]
  · intro h
    by_contra hne
    have := h8 hne
    omega
  · intro h
    have ht : (frequencyAt Notes (c + 1) - frequencyAt Notes (c - 1)) / 2 ≠ 0 := by
      have : 0 < (frequencyAt Notes (c + 1) - frequencyAt Notes (c - 1)) / 2 := by linarith
      exact ne_of_gt this
    have e : (f - (frequencyAt Notes c -
          (frequencyAt Notes c - frequencyAt Notes (c - 1)) / 2)) /
        ((frequencyAt Notes (c + 1) - frequencyAt Notes (c - 1)) / 2) * 9 = ((9 : Int) : K) := by
      rw [h]
      have : (frequencyAt Notes c + frequencyAt Notes (c + 1)) / 2 - (frequencyAt Notes c -
          (frequencyAt Notes c - frequencyAt Notes (c - 1)) / 2) =
          (frequencyAt Notes (c + 1) - frequencyAt Notes (c - 1)) / 2 := by ring
      rw [this, div_self ht]
      norm_num
    rw [e, Int.floor_intCast]

end MapperMore

/-! ## The note mapper in `float64` arithmetic -/

section RoundedMapper

variable {K : Type} [LinearOrderedField K]

theorem goLt_irrefl (a : GoFloat K) : GoFloat.lt a a = false := by
  cases a <;> simp [GoFloat.lt]

theorem goLt_trans {a b c : GoFloat K} (h1 : GoFloat.lt a b = true)
    (h2 : GoFloat.lt b c = true) : GoFloat.lt a c = true := by
  cases a <;> cases b <;> cases c <;> simp_all [GoFloat.lt]
  exact lt_trans h1 h2

theorem goLt_of_lt_of_not_lt {a b c : GoFloat K} (hb : b ≠ .nan)
    (h1 : GoFloat.lt a c = true) (h2 : GoFloat.lt b c = false) : GoFloat.lt a b = true := by
  cases a <;> cases b <;> cases c <;> simp_all [GoFloat.lt]
  exact lt_of_lt_of_le h1 h2

theorem goAbs_ne_nan {a : GoFloat K} (h : a ≠ .nan) : a.abs ≠ .nan := by
  cases a <;> simp_all [GoFloat.abs]

theorem frequencyAt_getElem (Notes : List (Note K)) (i : Nat) (hi : i < Notes.length) :
    frequencyAt Notes i = Notes[i].Frequency := by
  simp [frequencyAt, List.getElem?_eq_getElem hi]

theorem closestWith_prefix (fl : K → GoFloat K) (Notes : List (Note K)) (f : K)
    (hd : ∀ i, i < Notes.length → distanceWith fl Notes f i ≠ .nan) (j : Nat)
    (hj : j ≤ Notes.length) :
    ∃ c : Nat, (Notes.enum.take j).foldlM (closestStepWith fl Notes f) (0 : Int) = .ok (c : Int) ∧
      (c < j ∨ (j = 0 ∧ c = 0)) ∧
      (∀ i, i < j →
        GoFloat.lt (distanceWith fl Notes f i) (distanceWith fl Notes f c) = false) ∧
      (∀ i, i < c →
        GoFloat.lt (distanceWith fl Notes f c) (distanceWith fl Notes f i) = true) := by
  induction j with
  | zero =>
    refine ⟨0, ?_, Or.inr ⟨rfl, rfl⟩, ?_, ?_⟩
    · rfl
    · intro i hi; omega
    · intro i hi; omega
  | succ j ih =>
    obtain ⟨c, hfold, hc, hmin, hfirst⟩ := ih (by omega)
    have hjl : j < Notes.length := by omega
    have hcl : c < Notes.length := by omega
    have hget : Notes.enum[j]? = some (j, Notes[j]) := by
      simp [List.getElem?_enum, List.getElem?_eq_getElem hjl]
    have hcur : indexInt Notes (c : Int) = .ok Notes[c] := by
      rw [indexInt_natCast]
      exact index_of_getElem? _ _ _ (List.getElem?_eq_getElem hcl)
    have hstep : (Notes.enum.take (j + 1)).foldlM (closestStepWith fl Notes f) (0 : Int) =
        if GoFloat.lt (distanceWith fl Notes f j) (distanceWith fl Notes f c) = true then
          .ok (j : Int)
        else .ok (c : Int) := by
      rw [List.take_succ, hget, List.foldlM_append, hfold, ok_bind, Option.toList,
        List.foldlM_cons, closestStepWith, hcur, ok_bind, distanceWith, distanceWith,
        frequencyAt_getElem Notes j hjl, frequencyAt_getElem Notes c hcl]
      split_ifs <;> rfl
    rw [hstep]
    by_cases hlt : GoFloat.lt (distanceWith fl Notes f j) (distanceWith fl Notes f c) = true
    · refine ⟨j, ?_, Or.inl (by omega), ?_, ?_⟩
      · rw [if_pos hlt]
      · intro i hi
        rcases Nat.lt_succ_iff_lt_or_eq.1 hi with h | h
        · by_contra hij
          have hij' := goLt_trans (Bool.eq_true_of_not_eq_false hij) hlt
          rw [hmin i h] at hij'
          exact Bool.false_ne_true hij'
        · rw [h]; exact goLt_irrefl _
      · intro i hi
        exact goLt_of_lt_of_not_lt (hd i (by omega)) hlt (hmin i hi)
    · refine ⟨c, ?_, Or.inl (by omega), ?_, hfirst⟩
      · rw [if_neg hlt]
      · intro i hi
        rcases Nat.lt_succ_iff_lt_or_eq.1 hi with h | h
        · exact hmin i h
        · rw [h]; exact Bool.eq_false_iff.2 hlt

theorem closestWith_loop (fl : K → GoFloat K) (Notes : List (Note K)) (f : K)
    (hd : ∀ i, i < Notes.length → distanceWith fl Notes f i ≠ .nan) (h : Notes ≠ []) :
    ∃ c : Nat, Notes.enum.foldlM (closestStepWith fl Notes f) (0 : Int) = .ok (c : Int) ∧
      IsNearestWith fl Notes f c := by
  obtain ⟨c, hfold, hc, hmin, hfirst⟩ := closestWith_prefix fl Notes f hd Notes.length le_rfl
  have hlen : 0 < Notes.length := List.length_pos.2 h
  have e : Notes.enum.take Notes.length = Notes.enum := by
    apply List.take_of_length_le; simp
  rw [e] at hfold
  exact ⟨c, hfold, by omega, hmin, hfirst⟩

theorem nearestWith_unique {fl : K → GoFloat K} {Notes : List (Note K)} {f : K} {c c' : Nat}
    (h : IsNearestWith fl Notes f c) (h' : IsNearestWith fl Notes f c') : c = c' := by
  rcases Nat.lt_trichotomy c c' with hlt | heq | hgt
  · have a := h'.2.2 c hlt
    rw [h.2.1 c' h'.1] at a
    exact absurd a Bool.false_ne_true
  · exact heq
  · have a := h.2.2 c' hgt
    rw [h'.2.1 c h.1] at a
    exact absurd a Bool.false_ne_true

theorem distanceWith_unrounded (fl : K → GoFloat K) (Notes : List (Note K)) (f : K)
    (h : ∀ note ∈ Notes, fl (f - note.Frequency) = .fin (f - note.Frequency)) (i : Nat)
    (hi : i < Notes.length) :
    distanceWith fl Notes f i = .fin |f - frequencyAt Notes i| := by
  rw [distanceWith, frequencyAt_getElem Notes i hi, h _ (List.getElem_mem hi)]
  rfl

theorem nearestWith_of_unrounded (fl : K → GoFloat K) (Notes : List (Note K)) (f : K) (c : Nat)
    (h : ∀ note ∈ Notes, fl (f - note.Frequency) = .fin (f - note.Frequency))
    (hc : IsNearest Notes f c) : IsNearestWith fl Notes f c := by
  refine ⟨hc.1, ?_, ?_⟩
  · intro i hi
    rw [distanceWith_unrounded fl Notes f h i hi, distanceWith_unrounded fl Notes f h c hc.1]
    simpa [GoFloat.lt] using hc.2.1 i hi
  · intro i hi
    rw [distanceWith_unrounded fl Notes f h i (lt_trans hi hc.1),
      distanceWith_unrounded fl Notes f h c hc.1]
    simpa [GoFloat.lt] using hc.2.2 i hi

/-- Without rounding the search loop is the exact one. -/
theorem closestStepWith_fin (Notes : List (Note K)) (f : K) :
    closestStepWith GoFloat.fin Notes f = closestStep Notes f := by
  funext c p
  simp [closestStepWith, closestStep, GoFloat.lt, GoFloat.abs]

variable [FloorRing K]

theorem round64_ne_nan (x : K) : round64 x ≠ .nan := by
  unfold round64
  split_ifs <;> simp

theorem HandleFrequencyWith_zero (fl : K → GoFloat K) (Notes : List (Note K)) :
    HandleFrequencyWith fl Notes 0 = .ok ("", "", "", some 0) := by
  simp [HandleFrequencyWith]; rfl

theorem rateIndexWith_fin (left center right f : K) :
    rateIndexWith GoFloat.fin left center right f = rateIndex left center right f := by
  have two : (2 : K) ≠ 0 := two_ne_zero
  simp only [rateIndexWith, rateIndex, GoFloat.divWith, GoFloat.subWith, if_neg two, GoFloat.div]
  split_ifs <;> simp [GoFloat.mulWith, GoFloat.mapFin]

/-- Without rounding, `HandleFrequencyWith` is `HandleFrequency`. -/
theorem HandleFrequencyWith_fin (Notes : List (Note K)) (f : K) :
    HandleFrequencyWith GoFloat.fin Notes f = HandleFrequency Notes f := by
  by_cases hf : f = 0
  · subst hf
    rw [HandleFrequencyWith_zero, HandleFrequency_zero]
  · rw [HandleFrequencyWith, HandleFrequency, if_neg hf, if_neg hf, closestStepWith_fin]
    cases List.foldlM (closestStep Notes f) (0 : Int) Notes.enum with
    | error e => rfl
    | ok c =>
      simp only [ok_bind]
      cases indexInt Notes (c + 1) with
      | error e => rfl
      | ok right =>
        simp only [ok_bind]
        cases indexInt Notes (c - 1) with
        | error e => rfl
        | ok left =>
          simp only [ok_bind]
          cases indexInt Notes c with
          | error e => rfl
          | ok center =>
            simp only [ok_bind]
            have := rateIndexWith_fin left.Frequency center.Frequency right.Frequency f
            simp only [rateIndexWith, rateIndex] at this
            exact congrArg (fun r => Except.ok (left.Name, center.Name, right.Name, r)) this

theorem HandleFrequencyWith_of_nearest (fl : K → GoFloat K) (Notes : List (Note K)) (f : K)
    (c : Nat) (hd : ∀ i, i < Notes.length → distanceWith fl Notes f i ≠ .nan) (hf : f ≠ 0)
    (hc : IsNearestWith fl Notes f c) :
    HandleFrequencyWith fl Notes f =
      indexInt Notes ((c : Int) + 1) >>= fun right =>
        indexInt Notes ((c : Int) - 1) >>= fun left =>
          indexInt Notes (c : Int) >>= fun center =>
            .ok (left.Name, center.Name, right.Name,
              rateIndexWith fl left.Frequency center.Frequency right.Frequency f) := by
  have hne : Notes ≠ [] := by
    intro h0; have := hc.1; simp [h0] at this
  obtain ⟨c', hfold, hc'⟩ := closestWith_loop fl Notes f hd hne
  have e := nearestWith_unique hc hc'
  subst e
  rw [HandleFrequencyWith, if_neg hf]
  simp only [hfold, ok_bind]
  rfl

theorem HandleFrequencyWith_between (fl : K → GoFloat K) (Notes : List (Note K)) (f : K)
    (c : Nat) (hd : ∀ i, i < Notes.length → distanceWith fl Notes f i ≠ .nan) (hf : f ≠ 0)
    (hc : IsNearestWith fl Notes f c) (hpos : 0 < c) (hlast : c + 1 < Notes.length) :
    HandleFrequencyWith fl Notes f =
      .ok (nameAt Notes (c - 1), nameAt Notes c, nameAt Notes (c + 1),
        rateIndexWith fl (frequencyAt Notes (c - 1)) (frequencyAt Notes c)
          (frequencyAt Notes (c + 1)) f) := by
  have e1 : ((c : Int) + 1) = ((c + 1 : Nat) : Int) := by push_cast; ring
  have e2 : ((c : Int) - 1) = ((c - 1 : Nat) : Int) := by omega
  rw [HandleFrequencyWith_of_nearest fl Notes f c hd hf hc, e1, e2,
    indexInt_ok _ _ _ (getElem?_eq_mk Notes (c + 1) hlast), ok_bind,
    indexInt_ok _ _ _ (getElem?_eq_mk Notes (c - 1) (by omega)), ok_bind,
    indexInt_ok _ _ _ (getElem?_eq_mk Notes c (by omega)), ok_bind]

theorem rateIndexWith_unrounded (fl : K → GoFloat K) (left center right f : K)
    (h1 : fl (right - left) = .fin (right - left))
    (h2 : fl (center - left) = .fin (center - left))
    (h3 : fl ((center - left) / 2) = .fin ((center - left) / 2))
    (h4 : fl (center - (center - left) / 2) = .fin (center - (center - left) / 2))
    (h5 : fl (f - (center - (center - left) / 2)) = .fin (f - (center - (center - left) / 2)))
    (h6 : fl ((right - left) / 2) = .fin ((right - left) / 2))
    (h7 : fl ((f - (center - (center - left) / 2)) / ((right - left) / 2)) =
      .fin ((f - (center - (center - left) / 2)) / ((right - left) / 2)))
    (h8 : fl ((f - (center - (center - left) / 2)) / ((right - left) / 2) * 9) =
      .fin ((f - (center - (center - left) / 2)) / ((right - left) / 2) * 9))
    (hne : left ≠ right) :
    rateIndexWith fl left center right f = rateIndex left center right f := by
  have h2' : (right - left) / 2 ≠ 0 := by
    intro h
    have : right - left = 0 := by linarith
    exact hne (by linarith)
  have two : (2 : K) ≠ 0 := two_ne_zero
  simp only [rateIndexWith, rateIndex, h1, h2, GoFloat.divWith, if_neg two, h3,
    GoFloat.subWith, h4, h5, h6, if_neg h2', h7, GoFloat.mulWith, h8, GoFloat.div,
    GoFloat.mapFin]

theorem HandleFrequencyWith_unrounded (fl : K → GoFloat K) (Notes : List (Note K)) (f : K)
    (c : Nat) (hs : Ascending Notes) (hf : f ≠ 0) (hc : IsNearest Notes f c) (hpos : 0 < c)
    (hlast : c + 1 < Notes.length) (hu : Unrounded fl Notes f c) :
    HandleFrequencyWith fl Notes f = HandleFrequency Notes f := by
  obtain ⟨h0, h1, h2, h3, h4, h5, h6, h7, h8⟩ := hu
  have hd : ∀ i, i < Notes.length → distanceWith fl Notes f i ≠ .nan := by
    intro i hi
    rw [distanceWith_unrounded fl Notes f h0 i hi]
    simp
  have hLC := frequencyAt_lt Notes hs (c - 1) c (by omega) (by omega)
  have hCR := frequencyAt_lt Notes hs c (c + 1) (by omega) hlast
  rw [HandleFrequencyWith_between fl Notes f c hd hf
      (nearestWith_of_unrounded fl Notes f c h0 hc) hpos hlast,
    HandleFrequency_between Notes f c hf hc hpos hlast,
    rateIndexWith_unrounded fl _ _ _ f h1 h2 h3 h4 h5 h6 h7 h8 (ne_of_lt (lt_trans hLC hCR))]


/-- C4 fails on the code: on the table `tieNotes`, with the `float64`
frequencies `1.7`, `5.8` and `9.0`, and `f = 3.75`, the entry `1` is the lowest
index minimising `|f - Notes[i].Frequency|` and has both neighbours, but the
`float64` differences `3.75 - 1.7` and `3.75 - 5.8` round to distances that are
equal; the strict `<` of the search then keeps index `0`, and the read of
`Notes[-1]` panics. -/
theorem HandleFrequency_names_tie :
    (15 / 4 : ℚ) ≠ 0 ∧ IsNearest tieNotes (15 / 4) 1 ∧ 0 < 1 ∧ 1 < tieNotes.length - 1 ∧
      distanceWith round64 tieNotes (15 / 4) 1 = distanceWith round64 tieNotes (15 / 4) 0 ∧
      HandleFrequencyWith round64 tieNotes (15 / 4) = .error .indexOutOfRange := by
  decide!

/-- C4, amended: for every note table and every nonzero frequency `f`, if `c` is
the lowest index minimising the distance `|f - Notes[i].Frequency|` as `float64`
computes it (the absolute value of the rounded difference, none of them NaN) and
`c` has both neighbours (`0 < c < len(Notes) - 1`), then `HandleFrequency f`
returns the names of the entries `c - 1`, `c` and `c + 1` as left, center and
right.  The rounding `fl` is arbitrary. -/
theorem HandleFrequencyWith_names (fl : K → GoFloat K) (Notes : List (Note K)) (f : K) (c : Nat)
    (hfl : ∀ x, fl x ≠ .nan) (hf : f ≠ 0) (hc : IsNearestWith fl Notes f c) (hpos : 0 < c)
    (hlast : c < Notes.length - 1) :
    ∃ r, HandleFrequencyWith fl Notes f =
      .ok (nameAt Notes (c - 1), nameAt Notes c, nameAt Notes (c + 1), r) :=
  ⟨_, HandleFrequencyWith_between fl Notes f c (fun _ _ => goAbs_ne_nan (hfl _)) hf hc hpos
    (by omega)⟩

/-- Witness of the amended C4 in `float64` arithmetic, on the table `tieNotes`
at `f = 4`, whose nearest entry is the middle one. -/
theorem HandleFrequencyWith_names_witness :
    (∀ x : ℚ, round64 x ≠ .nan) ∧ (4 : ℚ) ≠ 0 ∧ IsNearestWith round64 tieNotes 4 1 ∧ 0 < 1 ∧
      1 < tieNotes.length - 1 ∧
      ∃ r, HandleFrequencyWith round64 tieNotes 4 =
        .ok (nameAt tieNotes (1 - 1), nameAt tieNotes 1, nameAt tieNotes (1 + 1), r) :=
  ⟨round64_ne_nan, by decide!, by decide!, by decide, by decide,
    HandleFrequencyWith_names round64 tieNotes 4 1 round64_ne_nan (by decide!) (by decide!)
      (by decide) (by decide)⟩

/-- C5, amended: for every note table sorted strictly ascending with at least
three entries and every nonzero `f` whose nearest entry `c` (ties to the lowest
index) is interior, on every input on which no `float64` operation of
`HandleFrequency` rounds, the offset index returned lies in `[0, 9]`; it lies in
`[0, 8]` unless `f` is exactly the midpoint between the center and the right
note.  The rounding `fl` is arbitrary. -/
theorem HandleFrequencyWith_offset_range (fl : K → GoFloat K) (Notes : List (Note K)) (f : K)
    (c : Nat) (hs : Ascending Notes) (hlen : 3 ≤ Notes.length) (hf : f ≠ 0)
    (hc : IsNearest Notes f c) (hpos : 0 < c) (hlast : c + 1 < Notes.length)
    (hu : Unrounded fl Notes f c) :
    ∃ k : Int, HandleFrequencyWith fl Notes f =
        .ok (nameAt Notes (c - 1), nameAt Notes c, nameAt Notes (c + 1), some k) ∧
      0 ≤ k ∧ k ≤ 9 ∧
      (f ≠ (frequencyAt Notes c + frequencyAt Notes (c + 1)) / 2 → k ≤ 8) := by
  rw [HandleFrequencyWith_unrounded fl Notes f c hs hf hc hpos hlast hu]
  exact HandleFrequency_offset_range Notes f c hs hlen hf hc hpos hlast

/-- Witness of the amended C5 in `float64` arithmetic, on `evenNotes` at
`f = 2`. -/
theorem HandleFrequencyWith_offset_range_witness :
    Ascending evenNotes ∧ 3 ≤ evenNotes.length ∧ (2 : ℚ) ≠ 0 ∧ IsNearest evenNotes 2 1 ∧
      0 < 1 ∧ 1 + 1 < evenNotes.length ∧ Unrounded round64 evenNotes 2 1 ∧
      ∃ k : Int, HandleFrequencyWith round64 evenNotes 2 =
          .ok (nameAt evenNotes (1 - 1), nameAt evenNotes 1, nameAt evenNotes (1 + 1), some k) ∧
        0 ≤ k ∧ k ≤ 9 ∧
        ((2 : ℚ) ≠ (frequencyAt evenNotes 1 + frequencyAt evenNotes (1 + 1)) / 2 → k ≤ 8) :=
  ⟨by decide!, by decide, by decide!, by decide!, by decide, by decide, by decide!,
    HandleFrequencyWith_offset_range round64 evenNotes 2 1 (by decide!) (by decide)
      (by decide!) (by decide!) (by decide) (by decide) (by decide!)⟩

/-- C9, amended: for every note table sorted strictly ascending with at least
three entries and every interior entry `c` with nonzero frequency, on every
input on which no `float64` operation of `HandleFrequency` rounds,
`HandleFrequency (Notes[c].Frequency)` returns the names of the entries
`c - 1`, `c`, `c + 1` and the offset index `⌊9·(C − L)/(R − L)⌋`, where `L`,
`C`, `R` are the frequencies of these entries; the index is `4` exactly when
`4·(R − L) ≤ 9·(C − L) < 5·(R − L)`.  The rounding `fl` is arbitrary. -/
theorem HandleFrequencyWith_entry (fl : K → GoFloat K) (Notes : List (Note K)) (c : Nat)
    (hs : Ascending Notes) (hlen : 3 ≤ Notes.length) (hpos : 0 < c)
    (hlast : c < Notes.length - 1) (hf : frequencyAt Notes c ≠ 0)
    (hu : Unrounded fl Notes (frequencyAt Notes c) c) :
    HandleFrequencyWith fl Notes (frequencyAt Notes c) =
        .ok (nameAt Notes (c - 1), nameAt Notes c, nameAt Notes (c + 1),
          some ⌊9 * (frequencyAt Notes c - frequencyAt Notes (c - 1)) /
            (frequencyAt Notes (c + 1) - frequencyAt Notes (c - 1))⌋) ∧
      (⌊9 * (frequencyAt Notes c - frequencyAt Notes (c - 1)) /
          (frequencyAt Notes (c + 1) - frequencyAt Notes (c - 1))⌋ = 4 ↔
        4 * (frequencyAt Notes (c + 1) - frequencyAt Notes (c - 1)) ≤
            9 * (frequencyAt Notes c - frequencyAt Notes (c - 1)) ∧
          9 * (frequencyAt Notes c - frequencyAt Notes (c - 1)) <
            5 * (frequencyAt Notes (c + 1) - frequencyAt Notes (c - 1))) := by
  rw [HandleFrequencyWith_unrounded fl Notes _ c hs hf
    (nearest_of_entry Notes hs c (by omega)) hpos (by omega) hu]
  exact HandleFrequency_entry Notes c hs hlen hpos hlast hf

/-- Witness of the amended C9 in `float64` arithmetic, on `skewNotes` at the
interior entry `1`, where the offset index is `2`. -/
theorem HandleFrequencyWith_entry_witness :
    Ascending skewNotes ∧ 3 ≤ skewNotes.length ∧ 0 < 1 ∧ 1 < skewNotes.length - 1 ∧
      frequencyAt skewNotes 1 ≠ 0 ∧ Unrounded round64 skewNotes (frequencyAt skewNotes 1) 1 ∧
      HandleFrequencyWith round64 skewNotes (frequencyAt skewNotes 1) =
        .ok (nameAt skewNotes (1 - 1), nameAt skewNotes 1, nameAt skewNotes (1 + 1),
          some ⌊9 * (frequencyAt skewNotes 1 - frequencyAt skewNotes (1 - 1)) /
            (frequencyAt skewNotes (1 + 1) - frequencyAt skewNotes (1 - 1))⌋) :=
  ⟨by decide!, by decide, by decide, by decide, by decide!, by decide!,
    (HandleFrequencyWith_entry round64 skewNotes 1 (by decide!) (by decide) (by decide)
      (by decide) (by decide!) (by decide!)).1⟩

/-- C20 fails on the code: on the ascending table `octaveNotes`, with the
`float64` frequencies `185`, `196`, `207.65` and `220`, the `float64` value
`f = 213.825` has the interior entry `2` as its nearest entry and lies strictly
below the midpoint of the center and right frequencies, so the unclamped value
of the claim is `8`; the code returns `9`, because the rounded quotient is `1`. -/
theorem HandleFrequency_nine_below_midpoint :
    Ascending octaveNotes ∧ float64 (213825 / 1000 : ℚ) ≠ 0 ∧
      IsNearest octaveNotes (float64 (213825 / 1000)) 2 ∧ 0 < 2 ∧ 2 + 1 < octaveNotes.length ∧
      float64 (213825 / 1000 : ℚ) <
        (frequencyAt octaveNotes 2 + frequencyAt octaveNotes (2 + 1)) / 2 ∧
      ⌊(float64 (213825 / 1000 : ℚ) - (frequencyAt octaveNotes 2 -
            (frequencyAt octaveNotes 2 - frequencyAt octaveNotes (2 - 1)) / 2)) /
          ((frequencyAt octaveNotes (2 + 1) - frequencyAt octaveNotes (2 - 1)) / 2) * 9⌋ = 8 ∧
      HandleFrequencyWith round64 octaveNotes (float64 (213825 / 1000)) =
        .ok ("G3", "G#3", "A3", some 9) := by
  decide!

/-- C20, amended: for every note table sorted strictly ascending and every
nonzero `f` whose nearest entry `c` (ties to the lowest index) is interior, on
every input on which no `float64` operation of `HandleFrequency` rounds, the
rate index returned is the unclamped value
`⌊((f − (C − (C − L)/2)) / ((R − L)/2)) · 9⌋`, with `L`, `C`, `R` the
frequencies of the entries `c − 1`, `c`, `c + 1`; it lies in `[0, 9]` and equals
`9` exactly when `f` is the midpoint `(C + R)/2`.  The rounding `fl` is
arbitrary. -/
theorem HandleFrequencyWith_unclamped (fl : K → GoFloat K) (Notes : List (Note K)) (f : K)
    (c : Nat) (hs : Ascending Notes) (hf : f ≠ 0) (hc : IsNearest Notes f c) (hpos : 0 < c)
    (hlast : c + 1 < Notes.length) (hu : Unrounded fl Notes f c) :
    HandleFrequencyWith fl Notes f =
        .ok (nameAt Notes (c - 1), nameAt Notes c, nameAt Notes (c + 1),
          some ⌊(f - (frequencyAt Notes c -
              (frequencyAt Notes c - frequencyAt Notes (c - 1)) / 2)) /
            ((frequencyAt Notes (c + 1) - frequencyAt Notes (c - 1)) / 2) * 9⌋) ∧
      0 ≤ ⌊(f - (frequencyAt Notes c -
            (frequencyAt Notes c - frequencyAt Notes (c - 1)) / 2)) /
          ((frequencyAt Notes (c + 1) - frequencyAt Notes (c - 1)) / 2) * 9⌋ ∧
      ⌊(f - (frequencyAt Notes c -
            (frequencyAt Notes c - frequencyAt Notes (c - 1)) / 2)) /
          ((frequencyAt Notes (c + 1) - frequencyAt Notes (c - 1)) / 2) * 9⌋ ≤ 9 ∧
      (⌊(f - (frequencyAt Notes c -
            (frequencyAt Notes c - frequencyAt Notes (c - 1)) / 2)) /
          ((frequencyAt Notes (c + 1) - frequencyAt Notes (c - 1)) / 2) * 9⌋ = 9 ↔
        f = (frequencyAt Notes c + frequencyAt Notes (c + 1)) / 2) := by
  rw [HandleFrequencyWith_unrounded fl Notes f c hs hf hc hpos hlast hu]
  exact HandleFrequency_unclamped Notes f c hs hf hc hpos hlast

/-- Witness of the amended C20 in `float64` arithmetic, on `evenNotes` at the
midpoint `f = 5/2`, where the index is `9`. -/
theorem HandleFrequencyWith_unclamped_witness :
    Ascending evenNotes ∧ (5 / 2 : ℚ) ≠ 0 ∧ IsNearest evenNotes (5 / 2) 1 ∧ 0 < 1 ∧
      1 + 1 < evenNotes.length ∧ Unrounded round64 evenNotes (5 / 2) 1 ∧
      HandleFrequencyWith round64 evenNotes (5 / 2) =
        .ok (nameAt evenNotes (1 - 1), nameAt evenNotes 1, nameAt evenNotes (1 + 1),
          some ⌊((5 / 2 : ℚ) - (frequencyAt evenNotes 1 -
              (frequencyAt evenNotes 1 - frequencyAt evenNotes (1 - 1)) / 2)) /
            ((frequencyAt evenNotes (1 + 1) - frequencyAt evenNotes (1 - 1)) / 2) * 9⌋) :=
  ⟨by decide!, by decide!, by decide!, by decide, by decide, by decide!,
    (HandleFrequencyWith_unclamped round64 evenNotes (5 / 2) 1 (by decide!) (by decide!)
      (by decide!) (by decide) (by decide) (by decide!)).1⟩


/-- Rounding moves the offset index of an interior entry: on the ascending table
`highNotes`, with the `float64` frequencies `696.4`, `714` and `736`, the
frequency of the entry `1` has `⌊9·(C − L)/(R − L)⌋ = 4`, and the code returns
`3`. -/
theorem HandleFrequency_entry_rounded :
    Ascending highNotes ∧ frequencyAt highNotes 1 = 714 ∧
      ⌊9 * (frequencyAt highNotes 1 - frequencyAt highNotes 0) /
        (frequencyAt highNotes 2 - frequencyAt highNotes 0)⌋ = 4 ∧
      HandleFrequencyWith round64 highNotes 714 = .ok ("F5", "F#5", "G5", some 3) := by
  decide!

/-- Rounding moves the offset index at and off the midpoint: on the ascending
table `tenthNotes` the `float64` value `0.25` is exactly the midpoint between
the center and the right note, and the code returns `8`; on the ascending table
`denseNotes` the nearest entry of `2 ^ 53 + 4` is the interior entry `1`, and
the code returns `12`. -/
theorem HandleFrequency_offset_rounded :
    Ascending tenthNotes ∧ IsNearest tenthNotes (1 / 4) 1 ∧
      (1 / 4 : ℚ) = (frequencyAt tenthNotes 1 + frequencyAt tenthNotes 2) / 2 ∧
      HandleFrequencyWith round64 tenthNotes (1 / 4) = .ok ("C", "D", "E", some 8) ∧
      Ascending denseNotes ∧ IsNearest denseNotes (2 ^ 53 + 4) 1 ∧
      HandleFrequencyWith round64 denseNotes (2 ^ 53 + 4) = .ok ("C", "D", "E", some 12) := by
  decide!

end RoundedMapper

/-! ## Base case, termination and the Fourier sum of the reversed input -/

section TransformMore

open Complex

/-- C15: for every input of length `1`, `FFT` returns the input unchanged:
`FFT([z]) = [z]` for every complex `z`. -/
theorem FFT_length_one (samples : List ℂ) (h : samples.length = 1) :
    FFT twiddle samples = .ok samples := by
  obtain ⟨z, rfl⟩ := List.length_eq_one.1 h
  exact FFT_single twiddle z

/-- Witness of C15 on the one-sample input `[2 + 3i]`. -/
theorem FFT_length_one_witness :
    ([2 + 3 * I] : List ℂ).length = 1 ∧ FFT twiddle [2 + 3 * I] = .ok [2 + 3 * I] :=
  ⟨rfl, FFT_length_one [2 + 3 * I] rfl⟩

/-- C19: for every input of length `n ≥ 1`, power of two or not, `FFT`
terminates without an out-of-range access and returns exactly `n` elements,
and it does so for every recursion budget `fuel` with `n < 2^fuel`; on the
empty input the recursion ends under no budget. -/
theorem FFT_terminates (samples : List ℂ) (hlen : 1 ≤ samples.length) :
    (∃ freqbins, FFT twiddle samples = .ok freqbins ∧ freqbins.length = samples.length ∧
      ∀ fuel, samples.length < 2 ^ fuel → fftFuel twiddle fuel samples = .ok freqbins) ∧
    (∀ fuel, fftFuel twiddle fuel ([] : List ℂ) = .error .stackExhausted) := by
  obtain ⟨freqbins, h, hl⟩ := FFT_ok twiddle samples hlen
  refine ⟨⟨freqbins, h, hl, ?_⟩, fftFuel_nil twiddle⟩
  intro fuel hfuel
  rw [← h, FFT]
  exact fftFuel_fuel twiddle fuel _ samples hlen hfuel (Nat.lt_two_pow _)

/-- Witness of C19 on an input of length `3`. -/
theorem FFT_terminates_witness :
    1 ≤ ([1, 2, 3] : List ℂ).length ∧
    ((∃ freqbins, FFT twiddle [1, 2, 3] = .ok freqbins ∧
        freqbins.length = ([1, 2, 3] : List ℂ).length ∧
        ∀ fuel, ([1, 2, 3] : List ℂ).length < 2 ^ fuel →
          fftFuel twiddle fuel [1, 2, 3] = .ok freqbins) ∧
      (∀ fuel, fftFuel twiddle fuel ([] : List ℂ) = .error .stackExhausted)) :=
  ⟨by decide, FFT_terminates [1, 2, 3] (by decide)⟩

theorem twiddle_eq_exp (a n : Nat) :
    twiddle a n = Complex.exp (-2 * (Real.pi : ℂ) * I * (a : ℂ) / (n : ℂ)) := by
  unfold twiddle cmplxRect
  push_cast
  rw [one_mul]
  congr 1
  ring

/-- C18: for every complex input `x` of length `N = 2^p` and every `k < N`,
`FFT(x)[k] = ∑_{j < N} x[N-1-j] · exp(-2πi·j·k/N)`: `FFT` computes the discrete
Fourier transform of the index-reversed input. -/
theorem FFT_reversed_dft (p : Nat) (x : List ℂ) (hx : x.length = 2 ^ p) :
    ∃ X, FFT twiddle x = .ok X ∧ X.length = 2 ^ p ∧
      ∀ k, k < 2 ^ p → X.getD k 0 =
        ∑ j in Finset.range (2 ^ p), x.getD (2 ^ p - 1 - j) 0 *
          Complex.exp (-2 * (Real.pi : ℂ) * I * (j : ℂ) * (k : ℂ) / ((2 ^ p : Nat) : ℂ)) := by
  obtain ⟨X, hX, hXl, hXk⟩ := FFT_eq_dftReversed p x hx
  refine ⟨X, hX, hXl, ?_⟩
  intro k hk
  rw [hXk k hk, dftReversed, hx]
  apply Finset.sum_congr rfl
  intro j _
  rw [twiddle_eq_exp]
  congr 2
  push_cast
  ring

/-- Witness of C18 on `x = [1, 0]` (`N = 2`). -/
theorem FFT_reversed_dft_witness :
    ([1, 0] : List ℂ).length = 2 ^ 1 ∧
    ∃ X, FFT twiddle [1, 0] = .ok X ∧ X.length = 2 ^ 1 ∧
      ∀ k, k < 2 ^ 1 → X.getD k 0 =
        ∑ j in Finset.range (2 ^ 1), ([1, 0] : List ℂ).getD (2 ^ 1 - 1 - j) 0 *
          Complex.exp (-2 * (Real.pi : ℂ) * I * (j : ℂ) * (k : ℂ) / ((2 ^ 1 : Nat) : ℂ)) :=
  ⟨rfl, FFT_reversed_dft 1 [1, 0] rfl⟩

theorem dftReversed_zeros (n k : Nat) : dftReversed (List.replicate n (0 : ℂ)) k = 0 := by
  unfold dftReversed
  apply Finset.sum_eq_zero
  intro j _
  have : (List.replicate n (0 : ℂ)).getD ((List.replicate n (0 : ℂ)).length - 1 - j) 0 = 0 := by
    simp only [List.getD_eq_getElem?_getD, List.getElem?_replicate]
    split_ifs <;> rfl
  rw [this, zero_mul]

theorem magnitude_zero : magnitude 0 = 0 := by
  simp [magnitude]

/-- C12: for every `N = 2^p`, every `sampleRate` and every `windowSize ≠ 0`,
`CalculateDominantFrequencyBin` on the all-zero window of length `N` returns
exactly `0`. -/
theorem CalculateDominantFrequencyBin_silence (p : Nat) (sampleRate windowSize : ℝ)
    (hw : windowSize ≠ 0) :
    CalculateDominantFrequencyBin twiddle magnitude (List.replicate (2 ^ p) 0) sampleRate
      windowSize = .ok (.fin 0) := by
  obtain ⟨X, hX, hXl, hXk⟩ := FFT_eq_dftReversed p (List.replicate (2 ^ p) 0) (by simp)
  have hzero : ∀ k, k < 2 ^ p → magnitude (X.getD k 0) = 0 := by
    intro k hk
    rw [hXk k hk, dftReversed_zeros, magnitude_zero]
  obtain ⟨h0, h1, -, h3⟩ := scanPeak_first_peak magnitude magnitude_nonneg X
  rw [hXl] at h0 h1
  have hidx : (scanPeak magnitude X).2 = 0 := by
    by_cases hhalf : 2 ^ p / 2 = 0
    · exact h0 hhalf
    · by_contra hne
      have hlt := h1 (by omega)
      have := h3 0 (by omega)
      rw [hzero 0 (by omega), hzero _ (by omega)] at this
      exact lt_irrefl _ this
  rw [CalculateDominantFrequencyBin_eq _ _ _ _ _ _ hX, hidx, div_of_ne_zero _ _ hw]
  simp

/-- Witness of C12 for `N = 4`, `sampleRate = 2000` and `windowSize = 4`. -/
theorem CalculateDominantFrequencyBin_silence_witness :
    (4 : ℝ) ≠ 0 ∧
      CalculateDominantFrequencyBin twiddle magnitude (List.replicate (2 ^ 2) 0) 2000 4 =
        .ok (.fin 0) :=
  ⟨by norm_num, CalculateDominantFrequencyBin_silence 2 2000 4 (by norm_num)⟩

end TransformMore

/-! ## Real-valued input: conjugate symmetry and the textbook transform -/

section RealInput

open Complex

theorem magnitude_eq_abs (z : ℂ) : magnitude z = Complex.abs z := by
  rw [magnitude, Complex.abs_apply, Complex.normSq_apply]

theorem magnitude_conj (z : ℂ) : magnitude ((starRingEnd ℂ) z) = magnitude z := by
  rw [magnitude_eq_abs, magnitude_eq_abs, Complex.abs_conj]

theorem abs_phase (N : Nat) (a : Int) : Complex.abs (phase N a) = 1 := by
  have e : phase N a = Complex.exp (((2 * Real.pi * (a : ℝ) / (N : ℝ) : ℝ) : ℂ) * I) := by
    unfold phase
    congr 1
    push_cast
    ring
  rw [e, Complex.abs_exp_ofReal_mul_I]

theorem conj_phase (N : Nat) (a : Int) : (starRingEnd ℂ) (phase N a) = phase N (-a) := by
  unfold phase
  rw [← Complex.exp_conj]
  congr 1
  simp only [map_div₀, map_mul, Complex.conj_I, Complex.conj_ofReal, map_ofNat, map_intCast,
    map_natCast]
  push_cast
  ring

theorem getD_im_zero (x : List ℂ) (hreal : ∀ z ∈ x, z.im = 0) (i : Nat) :
    (x.getD i 0).im = 0 := by
  by_cases h : i < x.length
  · rw [List.getD_eq_getElem _ _ h]
    exact hreal _ (List.getElem_mem h)
  · rw [List.getD_eq_default _ _ (by omega)]
    rfl

theorem conj_getD (x : List ℂ) (hreal : ∀ z ∈ x, z.im = 0) (i : Nat) :
    (starRingEnd ℂ) (x.getD i 0) = x.getD i 0 :=
  Complex.conj_eq_iff_im.2 (getD_im_zero x hreal i)

theorem dftReversed_conj (x : List ℂ) (hreal : ∀ z ∈ x, z.im = 0) (k : Nat)
    (hk : k ≤ x.length) (hN : x.length ≠ 0) :
    dftReversed x (x.length - k) = (starRingEnd ℂ) (dftReversed x k) := by
  unfold dftReversed
  rw [map_sum]
  apply Finset.sum_congr rfl
  intro j _
  rw [map_mul, conj_getD x hreal, twiddle_eq_phase, twiddle_eq_phase, conj_phase]
  congr 1
  have e : (-((j * (x.length - k) : Nat) : Int)) =
      (-(-((j * k : Nat) : Int))) + (x.length : Int) * (-(j : Int)) := by
    push_cast [Nat.cast_sub hk]
    ring
  rw [e, phase_add, phase_mul_self _ hN, mul_one]

/-- C14: for every real-valued input `x` of length `N = 2^p` and every `k` with
`0 < k < N`, `FFT(x)[N − k]` is the complex conjugate of `FFT(x)[k]`, hence the
two bins have the same magnitude. -/
theorem FFT_conjugate_symmetry (p : Nat) (x : List ℂ) (hx : x.length = 2 ^ p)
    (hreal : ∀ z ∈ x, z.im = 0) :
    ∃ X, FFT twiddle x = .ok X ∧
      ∀ k, 0 < k → k < 2 ^ p →
        X.getD (2 ^ p - k) 0 = (starRingEnd ℂ) (X.getD k 0) ∧
          magnitude (X.getD (2 ^ p - k) 0) = magnitude (X.getD k 0) := by
  obtain ⟨X, hX, -, hXk⟩ := FFT_eq_dftReversed p x hx
  refine ⟨X, hX, ?_⟩
  intro k hk0 hk
  have hconj : X.getD (2 ^ p - k) 0 = (starRingEnd ℂ) (X.getD k 0) := by
    rw [hXk _ (by omega), hXk k hk, ← hx]
    exact dftReversed_conj x hreal k (by omega) (by omega)
  exact ⟨hconj, by rw [hconj, magnitude_conj]⟩

/-- Witness of C14 on the real-valued input `[1, 2, 3, 4]` (`N = 4`). -/
theorem FFT_conjugate_symmetry_witness :
    ([1, 2, 3, 4] : List ℂ).length = 2 ^ 2 ∧ (∀ z ∈ ([1, 2, 3, 4] : List ℂ), z.im = 0) ∧
    ∃ X, FFT twiddle [1, 2, 3, 4] = .ok X ∧
      ∀ k, 0 < k → k < 2 ^ 2 →
        X.getD (2 ^ 2 - k) 0 = (starRingEnd ℂ) (X.getD k 0) ∧
          magnitude (X.getD (2 ^ 2 - k) 0) = magnitude (X.getD k 0) :=
  ⟨rfl, by simp, FFT_conjugate_symmetry 2 [1, 2, 3, 4] rfl (by simp)⟩

theorem dftReversed_eq_phase_mul (x : List ℂ) (hreal : ∀ z ∈ x, z.im = 0) (k : Nat)
    (hN : x.length ≠ 0) :
    dftReversed x k = phase x.length k * (starRingEnd ℂ) (dft x k) := by
  have hrefl := Finset.sum_range_reflect
    (fun l => x.getD l 0 * twiddle ((x.length - 1 - l) * k) x.length) x.length
  have e1 : dftReversed x k =
      ∑ j in Finset.range x.length,
        (fun l => x.getD l 0 * twiddle ((x.length - 1 - l) * k) x.length)
          (x.length - 1 - j) := by
    unfold dftReversed
    apply Finset.sum_congr rfl
    intro j hj
    have := Finset.mem_range.1 hj
    show _ = x.getD (x.length - 1 - j) 0 *
      twiddle ((x.length - 1 - (x.length - 1 - j)) * k) x.length
    rw [show x.length - 1 - (x.length - 1 - j) = j by omega]
  rw [e1, hrefl, dft, map_sum, Finset.mul_sum]
  apply Finset.sum_congr rfl
  intro l hl
  have hlt := Finset.mem_range.1 hl
  have e2 : Complex.exp (-2 * (Real.pi : ℂ) * I * (l : ℂ) * (k : ℂ) / (x.length : ℂ)) =
      phase x.length (-((l : Int) * (k : Int))) := by
    unfold phase
    congr 1
    push_cast
    ring
  rw [map_mul, conj_getD x hreal, e2, conj_phase, twiddle_eq_phase]
  have e3 : (-(((x.length - 1 - l) * k : Nat) : Int)) =
      ((k : Int) + (- -((l : Int) * (k : Int)))) + (x.length : Int) * (-(k : Int)) := by
    have : ((x.length - 1 - l : Nat) : Int) = (x.length : Int) - 1 - (l : Int) := by omega
    push_cast [this]
    ring
  rw [e3, phase_add, phase_add, phase_mul_self _ hN]
  ring

theorem magnitude_dftReversed (x : List ℂ) (hreal : ∀ z ∈ x, z.im = 0) (k : Nat)
    (hN : x.length ≠ 0) : magnitude (dftReversed x k) = magnitude (dft x k) := by
  rw [dftReversed_eq_phase_mul x hreal k hN, magnitude_eq_abs, magnitude_eq_abs, map_mul,
    abs_phase, one_mul, Complex.abs_conj]

theorem scanPeak_index_congr {C K : Type} [Ring C] [LinearOrderedField K] (mag : C → K)
    (hmag : ∀ z, 0 ≤ mag z) (t u : List C) (hlen : u.length = t.length)
    (h : ∀ j, j < t.length / 2 → mag (u.getD j 0) = mag (t.getD j 0)) :
    (scanPeak mag u).2 = (scanPeak mag t).2 := by
  obtain ⟨t0, t1, t2, t3⟩ := scanPeak_first_peak mag hmag t
  obtain ⟨u0, u1, u2, u3⟩ := scanPeak_first_peak mag hmag u
  rw [hlen] at u0 u1 u2
  by_cases hhalf : t.length / 2 = 0
  · rw [t0 hhalf, u0 hhalf]
  · have ht := t1 (by omega)
    have hu := u1 (by omega)
    rcases Nat.lt_trichotomy (scanPeak mag u).2 (scanPeak mag t).2 with hlt | heq | hgt
    · have a := t3 _ hlt
      have b := u2 _ ht
      rw [h _ hu, h _ ht] at b
      exact absurd a (not_lt.2 b)
    · exact heq
    · have a := u3 _ hgt
      have b := t2 _ hu
      rw [h _ hu, h _ ht] at a
      exact absurd a (not_lt.2 b)

theorem getD_dftSpectrum (x : List ℂ) (k : Nat) (hk : k < x.length) :
    (dftSpectrum x).getD k 0 = dft x k := by
  rw [dftSpectrum, getD_map_range _ _ _ hk]

/-- C17, amended: in exact arithmetic, that is with the transform, the
magnitudes and the final product and quotient evaluated over the real and
complex numbers without rounding, for every real-valued sample window `x` of
length `N = 2^p`, every `sampleRate` and every `windowSize ≠ 0`,
`CalculateDominantFrequencyBin` returns the value obtained by running the same
first-half, first-maximum scan on the textbook transform
`X[k] = ∑_j x[j]·exp(-2πi·j·k/N)`, and `|FFT(x)[k]| = |X[k]|` for every
`k < N`. -/
theorem CalculateDominantFrequencyBin_refines_dft (p : Nat) (x : List ℂ)
    (sampleRate windowSize : ℝ) (hx : x.length = 2 ^ p) (hreal : ∀ z ∈ x, z.im = 0)
    (_hw : windowSize ≠ 0) :
    CalculateDominantFrequencyBin twiddle magnitude x sampleRate windowSize =
        .ok (dominantFrequencyOfDft x sampleRate windowSize) ∧
      ∃ X, FFT twiddle x = .ok X ∧
        ∀ k, k < 2 ^ p → magnitude (X.getD k 0) = magnitude (dft x k) := by
  obtain ⟨X, hX, hXl, hXk⟩ := FFT_eq_dftReversed p x hx
  have hN : x.length ≠ 0 := by
    rw [hx]; exact pow_ne_zero p (by norm_num)
  have hmagk : ∀ k, k < 2 ^ p → magnitude (X.getD k 0) = magnitude (dft x k) := by
    intro k hk
    rw [hXk k hk, magnitude_dftReversed x hreal k hN]
  refine ⟨?_, X, hX, hmagk⟩
  have hlen : X.length = (dftSpectrum x).length := by
    rw [hXl, dftSpectrum, List.length_map, List.length_range, hx]
  have hidx : (scanPeak magnitude X).2 = (scanPeak magnitude (dftSpectrum x)).2 := by
    apply scanPeak_index_congr magnitude magnitude_nonneg _ _ hlen
    intro j hj
    have hj2 : j < 2 ^ p := by
      rw [← hlen, hXl] at hj; omega
    rw [hmagk j hj2, getD_dftSpectrum x j (by omega)]
  rw [CalculateDominantFrequencyBin_eq _ _ _ _ _ _ hX, hidx, dominantFrequencyOfDft]

/-- Witness of the amended C17 on the real-valued window `[1, 2, 3, 4]` at
`sampleRate = 2000`, `windowSize = 4`. -/
theorem CalculateDominantFrequencyBin_refines_dft_witness :
    ([1, 2, 3, 4] : List ℂ).length = 2 ^ 2 ∧ (∀ z ∈ ([1, 2, 3, 4] : List ℂ), z.im = 0) ∧
    (4 : ℝ) ≠ 0 ∧
    (CalculateDominantFrequencyBin twiddle magnitude [1, 2, 3, 4] 2000 4 =
        .ok (dominantFrequencyOfDft [1, 2, 3, 4] 2000 4) ∧
      ∃ X, FFT twiddle [1, 2, 3, 4] = .ok X ∧
        ∀ k, k < 2 ^ 2 → magnitude (X.getD k 0) = magnitude (dft [1, 2, 3, 4] k)) :=
  ⟨rfl, by simp, by norm_num,
    CalculateDominantFrequencyBin_refines_dft 2 [1, 2, 3, 4] 2000 4 rfl (by simp)
      (by norm_num)⟩

end RealInput

/-! ## A tie of the exact spectrum that rounding breaks -/

section TieBroken

open Complex

theorem dft_tie (b c : ℂ) :
    magnitude (dft [-b, b, -b, c] 0) = magnitude (dft [-b, b, -b, c] 1) := by
  have key : ∀ (x : List ℂ) (k : Nat),
      dft x k = ∑ j in Finset.range x.length, x.getD j 0 * twiddle (j * k) x.length := by
    intro x k
    unfold dft
    apply Finset.sum_congr rfl
    intro j _
    rw [twiddle_eq_exp]
    congr 2
    push_cast
    ring
  have t0 : twiddle 0 4 = 1 := by simp [twiddle, cmplxRect]
  have t2 : twiddle 2 4 = -1 := twiddle_half 2 (by norm_num)
  have t3 : twiddle 3 4 = -twiddle 1 4 := by
    rw [show (3 : Nat) = 2 + 1 from rfl, twiddle_add, t2]; ring
  have h0 : dft [-b, b, -b, c] 0 = c - b := by
    rw [key]
    simp [Finset.sum_range_succ, t0]
    ring
  have h1 : dft [-b, b, -b, c] 1 = (b - c) * twiddle 1 4 := by
    rw [key]
    simp [Finset.sum_range_succ, t0, t2, t3]
    ring
  rw [h0, h1, magnitude_eq_abs, magnitude_eq_abs, map_mul, twiddle_eq_phase, abs_phase, mul_one]
  exact Complex.abs.map_sub c b

/-- C17 fails on the code: on the real-valued window `tieWindow`, the `float64`
samples `-0.1, 0.1, -0.1, 0.6` (`N = 4 = 2^2`), with `sampleRate = 2000` and
`windowSize = 4`, the bins `0` and `1` of the textbook transform have the same
magnitude, so its first-maximum scan gives bin `0` and the frequency `0`; in
`float64` the code computes the magnitude `0.49999999999999994` for bin `0` and
`0.5` for bin `1` and returns `500`.  The half transform that the twiddle
factor of bin `1` multiplies is exactly `0` there, so that the value of this
factor does not enter the result. -/
theorem CalculateDominantFrequencyBin_tie_broken :
    (tieWindow.map Complex128.ofReal).length = 2 ^ 2 ∧ (4 : ℚ) ≠ 0 ∧
      FFT quarterRect (evenSamples (tieWindow.map Complex128.ofReal)) =
        .ok [Complex128.ofReal (float64 (-2 / 10)), 0] ∧
      (FFT quarterRect (tieWindow.map Complex128.ofReal)).map
          (fun X => (magnitude64 (X.getD 0 0), magnitude64 (X.getD 1 0))) =
        .ok (.fin (1 / 2 - 1 / 2 ^ 54), .fin (1 / 2)) ∧
      CalculateDominantFrequencyBinWith round64 quarterRect magnitude64
          (tieWindow.map Complex128.ofReal) (2000 : ℚ) 4 = .ok (.fin 500) ∧
      dominantFrequencyOfDft (tieWindow.map (fun q : ℚ => ((q : ℝ) : ℂ))) 2000 4 = .fin 0 := by
  refine ⟨by decide, by norm_num, by decide!, by decide!, by decide!, ?_⟩
  have hneg : float64 (-1 / 10 : ℚ) = -float64 (1 / 10 : ℚ) := by decide!
  have hx : tieWindow.map (fun q : ℚ => ((q : ℝ) : ℂ)) =
      [-(((float64 (1 / 10 : ℚ) : ℚ) : ℝ) : ℂ), (((float64 (1 / 10 : ℚ) : ℚ) : ℝ) : ℂ),
        -(((float64 (1 / 10 : ℚ) : ℚ) : ℝ) : ℂ), (((float64 (6 / 10 : ℚ) : ℚ) : ℝ) : ℂ)] := by
    simp only [tieWindow, List.map, hneg]
    push_cast
    rfl
  have hscan : ∀ x : List ℂ, x.length = 4 → magnitude (dft x 0) = magnitude (dft x 1) →
      (scanPeak magnitude (dftSpectrum x)).2 = 0 := by
    intro x hlen h
    have hl : (dftSpectrum x).length = 4 := by simp [dftSpectrum, hlen]
    obtain ⟨-, h1, -, h3⟩ := scanPeak_first_peak magnitude magnitude_nonneg (dftSpectrum x)
    rw [hl] at h1
    have hlt := h1 (by norm_num)
    by_contra hne
    have hidx : (scanPeak magnitude (dftSpectrum x)).2 = 1 := by omega
    have := h3 0 (by omega)
    rw [hidx, getD_dftSpectrum x 0 (by omega), getD_dftSpectrum x 1 (by omega), h] at this
    exact lt_irrefl _ this
  rw [dominantFrequencyOfDft, hx, hscan _ (by simp) (dft_tie _ _)]
  simp [GoFloat.div]

end TieBroken

/-! ## Energy of the spectrum -/

section Energy

open Complex

theorem magnitude_sq (z : ℂ) : magnitude z ^ 2 = Complex.normSq z := by
  rw [magnitude, Real.sq_sqrt (by nlinarith [sq_nonneg z.re, sq_nonneg z.im]),
    Complex.normSq_apply]

theorem normSq_twiddle (k n : Nat) : Complex.normSq (twiddle k n) = 1 := by
  rw [Complex.normSq_eq_abs, twiddle_eq_phase, abs_phase]
  norm_num

theorem normSq_butterfly (a b t : ℂ) (ht : Complex.normSq t = 1) :
    Complex.normSq (a + t * b) + Complex.normSq (a - t * b) =
      2 * (Complex.normSq a + Complex.normSq b) := by
  have h : Complex.normSq (t * b) = Complex.normSq b := by
    rw [map_mul, ht, one_mul]
  rw [← h]
  simp only [Complex.normSq_apply, Complex.add_re, Complex.add_im, Complex.sub_re,
    Complex.sub_im]
  ring

theorem sum_range_even_odd_real (f : Nat → ℝ) (M : Nat) :
    ∑ l in Finset.range (2 * M), f l =
      ∑ j in Finset.range M, f (2 * j) + ∑ j in Finset.range M, f (2 * j + 1) := by
  induction M with
  | zero => simp
  | succ M ih =>
    rw [show 2 * (M + 1) = 2 * M + 1 + 1 by ring, Finset.sum_range_succ, Finset.sum_range_succ,
      ih, Finset.sum_range_succ, Finset.sum_range_succ]
    ring

theorem FFT_energy (p : Nat) :
    ∀ x : List ℂ, x.length = 2 ^ p →
      ∃ X, FFT twiddle x = .ok X ∧ X.length = 2 ^ p ∧
        ∑ k in Finset.range (2 ^ p), Complex.normSq (X.getD k 0) =
          (2 ^ p : ℝ) * ∑ j in Finset.range (2 ^ p), Complex.normSq (x.getD j 0) := by
  induction p with
  | zero =>
    intro x hx
    obtain ⟨u, rfl⟩ := List.length_eq_one.1 (by simpa using hx)
    exact ⟨[u], FFT_single _ _, rfl, by simp⟩
  | succ p ih =>
    intro x hx
    have hM : 0 < 2 ^ p := pow_pos (by norm_num) p
    have hx2 : x.length = 2 * 2 ^ p := by rw [hx, pow_succ]; ring
    have hhalf : x.length / 2 = 2 ^ p := by omega
    obtain ⟨Fe, hFe, hFel, hFeE⟩ := ih (oddSamples x) (by rw [length_oddSamples, hhalf])
    obtain ⟨Fo, hFo, hFol, hFoE⟩ := ih (evenSamples x) (by rw [length_evenSamples, hhalf])
    refine ⟨combined twiddle x.length Fe Fo (x.length / 2), ?_, ?_, ?_⟩
    · rw [FFT_step twiddle x (by omega), hFe, hFo, ok_bind, ok_bind]
    · rw [length_combined, hx]
    · have hsplit : ∑ k in Finset.range (2 ^ (p + 1)),
          Complex.normSq ((combined twiddle x.length Fe Fo (x.length / 2)).getD k 0) =
          ∑ k in Finset.range (2 ^ p),
            2 * (Complex.normSq (Fe.getD k 0) + Complex.normSq (Fo.getD k 0)) := by
        rw [show 2 ^ (p + 1) = 2 ^ p + 2 ^ p by rw [pow_succ]; ring, Finset.sum_range_add,
          ← Finset.sum_add_distrib]
        apply Finset.sum_congr rfl
        intro k hk
        have hk' : k < x.length / 2 := by rw [hhalf]; exact Finset.mem_range.1 hk
        rw [getD_combined_low _ _ _ _ _ hk', show 2 ^ p + k = k + x.length / 2 by omega,
          getD_combined_high _ _ _ _ _ hk', normSq_butterfly _ _ _ (normSq_twiddle _ _)]
      have hodd : ∑ j in Finset.range (2 ^ p), Complex.normSq ((oddSamples x).getD j 0) =
          ∑ j in Finset.range (2 ^ p), Complex.normSq (x.getD (2 * j + 1) 0) := by
        apply Finset.sum_congr rfl
        intro j hj
        rw [getD_oddSamples x j (by rw [hhalf]; exact Finset.mem_range.1 hj)]
      have heven : ∑ j in Finset.range (2 ^ p), Complex.normSq ((evenSamples x).getD j 0) =
          ∑ j in Finset.range (2 ^ p), Complex.normSq (x.getD (2 * j) 0) := by
        apply Finset.sum_congr rfl
        intro j hj
        rw [getD_evenSamples x j (by rw [hhalf]; exact Finset.mem_range.1 hj)]
      rw [hsplit, ← Finset.mul_sum, Finset.sum_add_distrib, hFeE, hFoE, hodd, heven,
        show 2 ^ (p + 1) = 2 * 2 ^ p by rw [pow_succ]; ring,
        sum_range_even_odd_real (fun l => Complex.normSq (x.getD l 0))]
      ring

/-- C11 (Parseval): for every input `x` of length `N = 2^p`, the sum over
`k < N` of `|FFT(x)[k]|²` equals `N` times the sum over `j < N` of `|x[j]|²`. -/
theorem FFT_parseval (p : Nat) (x : List ℂ) (hx : x.length = 2 ^ p) :
    ∃ X, FFT twiddle x = .ok X ∧
      ∑ k in Finset.range (2 ^ p), magnitude (X.getD k 0) ^ 2 =
        ((2 ^ p : Nat) : ℝ) * ∑ j in Finset.range (2 ^ p), magnitude (x.getD j 0) ^ 2 := by
  obtain ⟨X, hX, -, hE⟩ := FFT_energy p x hx
  refine ⟨X, hX, ?_⟩
  simp only [magnitude_sq]
  rw [hE]
  push_cast
  ring

/-- Witness of C11 on `x = [1, 2, 3, 4]` (`N = 4`). -/
theorem FFT_parseval_witness :
    ([1, 2, 3, 4] : List ℂ).length = 2 ^ 2 ∧
    ∃ X, FFT twiddle [1, 2, 3, 4] = .ok X ∧
      ∑ k in Finset.range (2 ^ 2), magnitude (X.getD k 0) ^ 2 =
        ((2 ^ 2 : Nat) : ℝ) *
          ∑ j in Finset.range (2 ^ 2), magnitude (([1, 2, 3, 4] : List ℂ).getD j 0) ^ 2 :=
  ⟨rfl, FFT_parseval 2 [1, 2, 3, 4] rfl⟩

end Energy

/-! ## The worked example: a 200 Hz sine sampled at 2000 Hz -/

section WorkedExample

open Complex

theorem cis_add (s t : ℝ) : cis (s + t) = cis s * cis t := by
  unfold cis
  rw [← Complex.exp_add]
  congr 1
  push_cast
  ring

theorem cis_pow (t : ℝ) (j : Nat) : cis t ^ j = cis ((j : ℝ) * t) := by
  unfold cis
  rw [← Complex.exp_nat_mul]
  congr 1
  push_cast
  ring

theorem abs_cis (t : ℝ) : Complex.abs (cis t) = 1 :=
  Complex.abs_exp_ofReal_mul_I t

theorem abs_cis_sub_one (t : ℝ) : Complex.abs (cis t - 1) = 2 * |Real.sin (t / 2)| := by
  have hcis : cis t = ⟨Real.cos t, Real.sin t⟩ := by
    unfold cis
    apply Complex.ext
    · rw [Complex.exp_ofReal_mul_I_re]
    · rw [Complex.exp_ofReal_mul_I_im]
  have hcos : Real.cos t = 1 - 2 * Real.sin (t / 2) ^ 2 := by
    have h1 := Real.cos_two_mul (t / 2)
    have h2 := Real.sin_sq_add_cos_sq (t / 2)
    rw [show 2 * (t / 2) = t by ring] at h1
    nlinarith
  have hsin : Real.sin t = 2 * Real.sin (t / 2) * Real.cos (t / 2) := by
    have h1 := Real.sin_two_mul (t / 2)
    rw [show 2 * (t / 2) = t by ring] at h1
    exact h1
  have hsq : Complex.normSq (cis t - 1) = (2 * Real.sin (t / 2)) ^ 2 := by
    rw [hcis, Complex.normSq_apply]
    simp only [Complex.sub_re, Complex.sub_im, Complex.one_re, Complex.one_im]
    have h2 := Real.sin_sq_add_cos_sq (t / 2)
    rw [hcos, hsin]
    nlinarith
  rw [Complex.abs_apply, hsq, Real.sqrt_sq_eq_abs, abs_mul]
  norm_num

theorem twiddle_eq_cis (a n : Nat) :
    twiddle a n = cis (-(2 * Real.pi * (a : ℝ) / (n : ℝ))) := by
  unfold twiddle cmplxRect cis
  rw [Complex.ofReal_one, one_mul, neg_div', neg_mul, neg_mul]

theorem ofReal_sin_eq_cis (t : ℝ) :
    ((Real.sin t : ℝ) : ℂ) = (cis (-t) - cis t) * I / 2 := by
  rw [Complex.ofReal_sin, Complex.sin]
  unfold cis
  push_cast
  rfl

theorem length_sampledSine (f sr : ℝ) (N : Nat) : (sampledSine f sr N).length = N := by
  simp [sampledSine]

theorem sampled_term (f sr : ℝ) (N k j : Nat) (hj : j < N) :
    (sampledSine f sr N).getD (N - 1 - j) 0 * twiddle (j * k) N =
      I / 2 * (cis (-(2 * Real.pi * f / sr * ((N : ℝ) - 1))) *
          cis (2 * Real.pi * f / sr - 2 * Real.pi * (k : ℝ) / (N : ℝ)) ^ j -
        cis (2 * Real.pi * f / sr * ((N : ℝ) - 1)) *
          cis (-(2 * Real.pi * f / sr) - 2 * Real.pi * (k : ℝ) / (N : ℝ)) ^ j) := by
  have hcast : ((N - 1 - j : Nat) : ℝ) = (N : ℝ) - 1 - (j : ℝ) := by
    rw [Nat.cast_sub (by omega), Nat.cast_sub (by omega)]
    simp
  have h1 : cis (-(2 * Real.pi * f * ((N - 1 - j : Nat) : ℝ) / sr)) * twiddle (j * k) N =
      cis (-(2 * Real.pi * f / sr * ((N : ℝ) - 1))) *
        cis (2 * Real.pi * f / sr - 2 * Real.pi * (k : ℝ) / (N : ℝ)) ^ j := by
    rw [twiddle_eq_cis, cis_pow, ← cis_add, ← cis_add, hcast]
    congr 1
    push_cast
    ring
  have h2 : cis (2 * Real.pi * f * ((N - 1 - j : Nat) : ℝ) / sr) * twiddle (j * k) N =
      cis (2 * Real.pi * f / sr * ((N : ℝ) - 1)) *
        cis (-(2 * Real.pi * f / sr) - 2 * Real.pi * (k : ℝ) / (N : ℝ)) ^ j := by
    rw [twiddle_eq_cis, cis_pow, ← cis_add, ← cis_add, hcast]
    congr 1
    push_cast
    ring
  rw [sampledSine, getD_map_range _ _ _ (by omega), ofReal_sin_eq_cis, ← h1, ← h2]
  ring

theorem dftReversed_sampledSine (f sr : ℝ) (N k : Nat) :
    dftReversed (sampledSine f sr N) k =
      I / 2 * (cis (-(2 * Real.pi * f / sr * ((N : ℝ) - 1))) *
          ∑ j in Finset.range N,
            cis (2 * Real.pi * f / sr - 2 * Real.pi * (k : ℝ) / (N : ℝ)) ^ j -
        cis (2 * Real.pi * f / sr * ((N : ℝ) - 1)) *
          ∑ j in Finset.range N,
            cis (-(2 * Real.pi * f / sr) - 2 * Real.pi * (k : ℝ) / (N : ℝ)) ^ j) := by
  rw [dftReversed, length_sampledSine, Finset.mul_sum, Finset.mul_sum,
    ← Finset.sum_sub_distrib, Finset.mul_sum]
  apply Finset.sum_congr rfl
  intro j hj
  rw [sampled_term f sr N k j (Finset.mem_range.1 hj)]

theorem abs_geom_cis (t : ℝ) (N : Nat) :
    Complex.abs (∑ j in Finset.range N, cis t ^ j) * |Real.sin (t / 2)| =
      |Real.sin ((N : ℝ) * t / 2)| := by
  have h := congrArg Complex.abs (geom_sum_mul (cis t) N)
  rw [map_mul, abs_cis_sub_one, cis_pow, abs_cis_sub_one] at h
  linarith

theorem abs_half_diff_le (u v g h : ℂ) (hu : Complex.abs u = 1) (hv : Complex.abs v = 1) :
    Complex.abs (I / 2 * (u * g - v * h)) ≤ (Complex.abs g + Complex.abs h) / 2 := by
  have h1 : Complex.abs (I / 2) = 1 / 2 := by
    rw [map_div₀, Complex.abs_I, Complex.abs_two]
  have h2 : Complex.abs (u * g - v * h) ≤ Complex.abs g + Complex.abs h := by
    have := norm_sub_le (u * g) (v * h)
    rw [Complex.norm_eq_abs, Complex.norm_eq_abs, Complex.norm_eq_abs, map_mul, map_mul, hu, hv,
      one_mul, one_mul] at this
    exact this
  rw [map_mul, h1]
  linarith

theorem abs_half_diff_ge (u v g h : ℂ) (hu : Complex.abs u = 1) (hv : Complex.abs v = 1) :
    (Complex.abs g - Complex.abs h) / 2 ≤ Complex.abs (I / 2 * (u * g - v * h)) := by
  have h1 : Complex.abs (I / 2) = 1 / 2 := by
    rw [map_div₀, Complex.abs_I, Complex.abs_two]
  have h2 : Complex.abs g - Complex.abs h ≤ Complex.abs (u * g - v * h) := by
    have := norm_sub_norm_le (u * g) (v * h)
    rw [Complex.norm_eq_abs, Complex.norm_eq_abs, Complex.norm_eq_abs, map_mul, map_mul, hu, hv,
      one_mul, one_mul] at this
    exact this
  rw [map_mul, h1]
  linarith

theorem sin_leak_pos : 0 < |Real.sin (1024 / 5 * Real.pi)| := by
  apply abs_pos.2
  intro h
  obtain ⟨n, hn⟩ := Real.sin_eq_zero_iff.1 h
  have hpi : Real.pi ≠ 0 := Real.pi_ne_zero
  have h1 : (n : ℝ) = 1024 / 5 := mul_right_cancel₀ hpi hn
  have h2 : ((5 * n : Int) : ℝ) = ((1024 : Int) : ℝ) := by
    push_cast
    linarith
  have h3 : 5 * n = 1024 := by exact_mod_cast h2
  omega

theorem sin_far (k : Nat) (hk : k < 1024) :
    1 / 5 ≤ |Real.sin (Real.pi / 10 + (k : ℝ) * Real.pi / 2048)| := by
  have hpi : 0 < Real.pi := Real.pi_pos
  have hk0 : (0 : ℝ) ≤ (k : ℝ) := Nat.cast_nonneg k
  have hk1 : (k : ℝ) ≤ 1023 := by
    have : k ≤ 1023 := by omega
    exact_mod_cast this
  have hx0 : 0 ≤ (k : ℝ) * Real.pi / 2048 := by positivity
  have hx1 : (k : ℝ) * Real.pi / 2048 ≤ 1023 * Real.pi / 2048 := by
    apply div_le_div_of_nonneg_right _ (by norm_num)
    exact mul_le_mul_of_nonneg_right hk1 hpi.le
  refine le_trans ?_ (le_abs_self _)
  by_cases hcase : Real.pi / 10 + (k : ℝ) * Real.pi / 2048 ≤ Real.pi / 2
  · have hj := Real.mul_le_sin (by linarith) hcase
    have hb : 1 / 5 ≤ 2 / Real.pi * (Real.pi / 10 + (k : ℝ) * Real.pi / 2048) := by
      rw [div_mul_eq_mul_div, le_div_iff₀ hpi]
      linarith
    linarith
  · push_neg at hcase
    have hj := Real.mul_le_sin
      (x := Real.pi - (Real.pi / 10 + (k : ℝ) * Real.pi / 2048)) (by linarith) (by linarith)
    rw [Real.sin_pi_sub] at hj
    have hb : 1 / 5 ≤ 2 / Real.pi * (Real.pi - (Real.pi / 10 + (k : ℝ) * Real.pi / 2048)) := by
      rw [div_mul_eq_mul_div, le_div_iff₀ hpi]
      linarith
    linarith

theorem sin_near (k : Nat) (hk : k < 1024) (hne : k ≠ 205) :
    1 / 1280 ≤ |Real.sin (Real.pi / 10 - (k : ℝ) * Real.pi / 2048)| := by
  have hpi : 0 < Real.pi := Real.pi_pos
  have hk1 : (k : ℝ) ≤ 1023 := by
    have : k ≤ 1023 := by omega
    exact_mod_cast this
  have hx1 : (k : ℝ) * Real.pi / 2048 ≤ 1023 * Real.pi / 2048 := by
    apply div_le_div_of_nonneg_right _ (by norm_num)
    exact mul_le_mul_of_nonneg_right hk1 hpi.le
  have hx0 : 0 ≤ (k : ℝ) * Real.pi / 2048 := by positivity
  rcases Nat.lt_or_ge k 205 with hlt | hge
  · have hk2 : (k : ℝ) ≤ 204 := by
      have : k ≤ 204 := by omega
      exact_mod_cast this
    have hx2 : (k : ℝ) * Real.pi / 2048 ≤ 204 * Real.pi / 2048 := by
      apply div_le_div_of_nonneg_right _ (by norm_num)
      exact mul_le_mul_of_nonneg_right hk2 hpi.le
    refine le_trans ?_ (le_abs_self _)
    have hj := Real.mul_le_sin (x := Real.pi / 10 - (k : ℝ) * Real.pi / 2048) (by linarith)
      (by linarith)
    have hb : 1 / 1280 ≤ 2 / Real.pi * (Real.pi / 10 - (k : ℝ) * Real.pi / 2048) := by
      rw [div_mul_eq_mul_div, le_div_iff₀ hpi]
      linarith
    linarith
  · have hk2 : (206 : ℝ) ≤ (k : ℝ) := by
      have : 206 ≤ k := by omega
      exact_mod_cast this
    have hx2 : 206 * Real.pi / 2048 ≤ (k : ℝ) * Real.pi / 2048 := by
      apply div_le_div_of_nonneg_right _ (by norm_num)
      exact mul_le_mul_of_nonneg_right hk2 hpi.le
    refine le_trans ?_ (neg_le_abs _)
    rw [← Real.sin_neg]
    have hj := Real.mul_le_sin (x := -(Real.pi / 10 - (k : ℝ) * Real.pi / 2048)) (by linarith)
      (by linarith)
    have hb : 1 / 1280 ≤ 2 / Real.pi * (-(Real.pi / 10 - (k : ℝ) * Real.pi / 2048)) := by
      rw [div_mul_eq_mul_div, le_div_iff₀ hpi]
      linarith
    linarith

theorem sin_peak : |Real.sin (Real.pi / 10 - 205 * Real.pi / 2048)| ≤ 315 / 1024000 := by
  have hpi : 0 < Real.pi := Real.pi_pos
  have hpi2 : Real.pi < 3.15 := Real.pi_lt_d2
  have e : Real.pi / 10 - 205 * Real.pi / 2048 = -(Real.pi / 10240) := by ring
  have h0 : 0 ≤ Real.sin (Real.pi / 10240) :=
    Real.sin_nonneg_of_nonneg_of_le_pi (by positivity) (by linarith)
  have h1 := Real.sin_le (x := Real.pi / 10240) (by positivity)
  norm_num at hpi2
  rw [e, Real.sin_neg, abs_neg, abs_le]
  constructor <;> linarith

theorem abs_sign_mul (k : Nat) (y : ℝ) : |(-1) ^ k * y| = |y| := by
  rcases neg_one_pow_eq_or ℝ k with h | h <;> rw [h] <;> simp

theorem geom_far (k : Nat) (hk : k < 1024) :
    Complex.abs (∑ j in Finset.range 2048,
      cis (-(2 * Real.pi * 200 / 2000) - 2 * Real.pi * (k : ℝ) / ((2048 : Nat) : ℝ)) ^ j) ≤
      5 * |Real.sin (1024 / 5 * Real.pi)| := by
  have h := abs_geom_cis
    (-(2 * Real.pi * 200 / 2000) - 2 * Real.pi * (k : ℝ) / ((2048 : Nat) : ℝ)) 2048
  have e1 : (-(2 * Real.pi * 200 / 2000) - 2 * Real.pi * (k : ℝ) / ((2048 : Nat) : ℝ)) / 2 =
      -(Real.pi / 10 + (k : ℝ) * Real.pi / 2048) := by
    push_cast; ring
  have e2 : ((2048 : Nat) : ℝ) *
      (-(2 * Real.pi * 200 / 2000) - 2 * Real.pi * (k : ℝ) / ((2048 : Nat) : ℝ)) / 2 =
      -(1024 / 5 * Real.pi + (k : ℝ) * Real.pi) := by
    push_cast; ring
  rw [e1, e2, Real.sin_neg, abs_neg, Real.sin_neg, abs_neg, Real.sin_add_nat_mul_pi,
    abs_sign_mul] at h
  have hs := sin_far k hk
  have hg := Complex.abs.nonneg (∑ j in Finset.range 2048,
    cis (-(2 * Real.pi * 200 / 2000) - 2 * Real.pi * (k : ℝ) / ((2048 : Nat) : ℝ)) ^ j)
  nlinarith

theorem geom_near (k : Nat) (hk : k < 1024) (hne : k ≠ 205) :
    Complex.abs (∑ j in Finset.range 2048,
      cis (2 * Real.pi * 200 / 2000 - 2 * Real.pi * (k : ℝ) / ((2048 : Nat) : ℝ)) ^ j) ≤
      1280 * |Real.sin (1024 / 5 * Real.pi)| := by
  have h := abs_geom_cis
    (2 * Real.pi * 200 / 2000 - 2 * Real.pi * (k : ℝ) / ((2048 : Nat) : ℝ)) 2048
  have e1 : (2 * Real.pi * 200 / 2000 - 2 * Real.pi * (k : ℝ) / ((2048 : Nat) : ℝ)) / 2 =
      Real.pi / 10 - (k : ℝ) * Real.pi / 2048 := by
    push_cast; ring
  have e2 : ((2048 : Nat) : ℝ) *
      (2 * Real.pi * 200 / 2000 - 2 * Real.pi * (k : ℝ) / ((2048 : Nat) : ℝ)) / 2 =
      1024 / 5 * Real.pi - (k : ℝ) * Real.pi := by
    push_cast; ring
  rw [e1, e2, Real.sin_sub_nat_mul_pi, abs_sign_mul] at h
  have hs := sin_near k hk hne
  have hg := Complex.abs.nonneg (∑ j in Finset.range 2048,
    cis (2 * Real.pi * 200 / 2000 - 2 * Real.pi * (k : ℝ) / ((2048 : Nat) : ℝ)) ^ j)
  nlinarith

theorem geom_peak :
    3250 * |Real.sin (1024 / 5 * Real.pi)| ≤
      Complex.abs (∑ j in Finset.range 2048,
        cis (2 * Real.pi * 200 / 2000 - 2 * Real.pi * ((205 : Nat) : ℝ) / ((2048 : Nat) : ℝ)) ^ j) := by
  have h := abs_geom_cis
    (2 * Real.pi * 200 / 2000 - 2 * Real.pi * ((205 : Nat) : ℝ) / ((2048 : Nat) : ℝ)) 2048
  have e1 : (2 * Real.pi * 200 / 2000 - 2 * Real.pi * ((205 : Nat) : ℝ) / ((2048 : Nat) : ℝ)) / 2 =
      Real.pi / 10 - 205 * Real.pi / 2048 := by
    push_cast; ring
  have e2 : ((2048 : Nat) : ℝ) *
      (2 * Real.pi * 200 / 2000 - 2 * Real.pi * ((205 : Nat) : ℝ) / ((2048 : Nat) : ℝ)) / 2 =
      1024 / 5 * Real.pi - ((205 : Nat) : ℝ) * Real.pi := by
    push_cast; ring
  rw [e1, e2, Real.sin_sub_nat_mul_pi, abs_sign_mul] at h
  have hs := sin_peak
  have hg := Complex.abs.nonneg (∑ j in Finset.range 2048,
    cis (2 * Real.pi * 200 / 2000 - 2 * Real.pi * ((205 : Nat) : ℝ) / ((2048 : Nat) : ℝ)) ^ j)
  have hpos := sin_leak_pos
  nlinarith

theorem sampled_off_peak (k : Nat) (hk : k < 1024) (hne : k ≠ 205) :
    magnitude (dftReversed (sampledSine 200 2000 2048) k) <
      magnitude (dftReversed (sampledSine 200 2000 2048) 205) := by
  have hpos := sin_leak_pos
  have hup := abs_half_diff_le
    (cis (-(2 * Real.pi * 200 / 2000 * (((2048 : Nat) : ℝ) - 1))))
    (cis (2 * Real.pi * 200 / 2000 * (((2048 : Nat) : ℝ) - 1)))
    (∑ j in Finset.range 2048,
      cis (2 * Real.pi * 200 / 2000 - 2 * Real.pi * (k : ℝ) / ((2048 : Nat) : ℝ)) ^ j)
    (∑ j in Finset.range 2048,
      cis (-(2 * Real.pi * 200 / 2000) - 2 * Real.pi * (k : ℝ) / ((2048 : Nat) : ℝ)) ^ j)
    (abs_cis _) (abs_cis _)
  have hlo := abs_half_diff_ge
    (cis (-(2 * Real.pi * 200 / 2000 * (((2048 : Nat) : ℝ) - 1))))
    (cis (2 * Real.pi * 200 / 2000 * (((2048 : Nat) : ℝ) - 1)))
    (∑ j in Finset.range 2048,
      cis (2 * Real.pi * 200 / 2000 - 2 * Real.pi * ((205 : Nat) : ℝ) / ((2048 : Nat) : ℝ)) ^ j)
    (∑ j in Finset.range 2048,
      cis (-(2 * Real.pi * 200 / 2000) - 2 * Real.pi * ((205 : Nat) : ℝ) / ((2048 : Nat) : ℝ)) ^ j)
    (abs_cis _) (abs_cis _)
  rw [← dftReversed_sampledSine 200 2000 2048 k,
    ← magnitude_eq_abs (dftReversed (sampledSine 200 2000 2048) k)] at hup
  rw [← dftReversed_sampledSine 200 2000 2048 205,
    ← magnitude_eq_abs (dftReversed (sampledSine 200 2000 2048) 205)] at hlo
  have h1 := geom_near k hk hne
  have h2 := geom_far k hk
  have h3 := geom_peak
  have h4 := geom_far 205 (by norm_num)
  linarith

/-- C16 (worked example): for the window `x[j] = sin(2π·200·j/2000)`,
`j = 0..2047` (a 200 Hz sine sampled at 2000 Hz, `N = 2048`), the magnitude of
`FFT(x)` over the first half `[0, 1024)` is largest exactly at bin `205`, and
`CalculateDominantFrequencyBin(x, 2000, 2048) = 205·2000/2048`. -/
theorem CalculateDominantFrequencyBin_worked_example :
    ∃ X, FFT twiddle (sampledSine 200 2000 2048) = .ok X ∧
      (∀ i, i < 1024 → i ≠ 205 → magnitude (X.getD i 0) < magnitude (X.getD 205 0)) ∧
      CalculateDominantFrequencyBin twiddle magnitude (sampledSine 200 2000 2048) 2000 2048 =
        .ok (.fin (205 * 2000 / 2048)) := by
  obtain ⟨X, hX, hXl, hXk⟩ := FFT_eq_dftReversed 11 (sampledSine 200 2000 2048)
    (by rw [length_sampledSine]; norm_num)
  have hXl' : X.length = 2048 := by rw [hXl]; norm_num
  have hoff : ∀ i, i < 1024 → i ≠ 205 → magnitude (X.getD i 0) < magnitude (X.getD 205 0) := by
    intro i hi hne
    rw [hXk i (by norm_num; omega), hXk 205 (by norm_num)]
    exact sampled_off_peak i hi hne
  obtain ⟨-, h1, h2, -⟩ := scanPeak_first_peak magnitude magnitude_nonneg X
  rw [hXl'] at h1 h2
  have hidx : (scanPeak magnitude X).2 = 205 := by
    by_contra hne
    have hlt := hoff _ (h1 (by norm_num)) hne
    have hle := h2 205 (by norm_num)
    exact absurd hlt (not_lt.2 hle)
  refine ⟨X, hX, hoff, ?_⟩
  rw [CalculateDominantFrequencyBin_eq _ _ _ _ _ _ hX, hidx, div_of_ne_zero _ _ (by norm_num)]
  norm_num

end WorkedExample

end Lotus
